import Mathlib

/-!
# scc: the per-file scanner `CountStats` (processor/workers.go)

A shallow embedding of the byte-level scanner of `processor/workers.go` and of
its match helpers, followed by theorems about the counts it produces.

Conventions of the embedding.

* Go byte slices are `List Byte` with `Byte = UInt8`; `nil` and the empty slice
  are both `[]`.
* A Go run-time panic (index out of range) is the result `none`; every slice
  read of the source is a `[i]?` read whose `none` branch propagates.
* The `for index := 0; index < len(Content); index++` loop is `CountStats.loop`,
  structurally recursive on a fuel argument; `CountStats` supplies
  `len(Content)` as fuel and `loop_isSome` proves that this is always enough,
  so fuel never decides a result.
* Indices are `Nat`.  The only subtraction that could go below zero in Go is
  `Content[index-1]` in the `S_STRING` case, which is guarded explicitly.
* The counters are `Int` (Go `int64`).  Starting from zero they are bounded by
  the content length, which is below `2^63` for a Go slice, so no wrap-around
  is modelled.
* The process-wide flags `DisableCheckBinary`, `Duplicates` and `Complexity`
  are the record `Flags`; `LanguageFeatures[fileJob.Language]` is the
  parameter `lang`.  `Trace` only prints and is left out.
* `fileJob.Callback` is the parameter `callback`.  The interface object may
  keep private state between invocations, so `ProcessLine` is given the list of
  all invocations made so far (the current one last), each with the job as it
  was at that moment.  In line with the data model (counts are mutated only by
  the scanner) the callback reads the job and answers continue/stop.
* The MD5 digest is represented by the sequence of bytes written to it;
  `Hash` holds that sequence (the real hash is a function of it).
-/

namespace Scc

abbrev Byte := UInt8

/-- The scanner states `S_BLANK = 1`, ..., `S_STRING = 8`. -/
inductive State where
  | S_BLANK
  | S_CODE
  | S_COMMENT
  | S_COMMENT_CODE
  | S_MULTICOMMENT
  | S_MULTICOMMENT_CODE
  | S_MULTICOMMENT_BLANK
  | S_STRING
  deriving DecidableEq, Repr

/-- The line types reported to the callback. -/
inductive LineType where
  | LINE_BLANK
  | LINE_CODE
  | LINE_COMMENT
  deriving DecidableEq, Repr

open State LineType

/-- An open/close delimiter pair (multi-line comments, strings). -/
structure OpenClose where
  Open : List Byte
  Close : List Byte
  deriving DecidableEq, Repr

/-- The fields of a language profile that `CountStats` reads. -/
structure LanguageFeature where
  ComplexityChecks : List (List Byte)
  ComplexityBytes : List Byte
  SingleLineComment : List (List Byte)
  MultiLineComment : List OpenClose
  StringChecks : List OpenClose
  Nested : Bool
  ProcessBytes : List Byte
  deriving DecidableEq, Repr

/-- The fields of a file job that `CountStats` reads or writes. -/
structure FileJob where
  Content : List Byte
  Bytes : Int
  Lines : Int
  Code : Int
  Comment : Int
  Blank : Int
  Complexity : Int
  Binary : Bool
  Hash : List Byte
  deriving DecidableEq, Repr

/-- The process-wide flags read by the scanner. -/
structure Flags where
  DisableCheckBinary : Bool
  Duplicates : Bool
  Complexity : Bool
  deriving DecidableEq, Repr

/-- One invocation `ProcessLine(job, currentLine, lineType)`. -/
structure LineCall where
  job : FileJob
  currentLine : Int
  lineType : LineType
  deriving DecidableEq, Repr

/-- The callback: its answer (true = continue) to the latest invocation, given
all invocations so far. -/
abbrev Callback := List LineCall → Bool

/-- The inner `for j` loop of `checkForMatch` and `checkForMatchSingle`, started
at position `j` of the candidate with the candidate's bytes from `j` on.
`some true`: the loop ran to its end; `some false`: it hit `break`. -/
def matchLoopGE (content : List Byte) (index endPoint : Nat) : List Byte → Nat → Option Bool
  | [], _ => some true
  | m :: rest, j =>
    if index + j ≥ endPoint then some false
    else
      match content[index + j]? with
      | none => none
      | some c => if m != c then some false else matchLoopGE content index endPoint rest (j + 1)

/-- The inner `for j` loop of `checkForMatchMultiOpen` and `checkComplexity`
(bound test `index+j > endPoint`). -/
def matchLoopGT (content : List Byte) (index endPoint : Nat) : List Byte → Nat → Option Bool
  | [], _ => some true
  | m :: rest, j =>
    if index + j > endPoint then some false
    else
      match content[index + j]? with
      | none => none
      | some c => if m != c then some false else matchLoopGT content index endPoint rest (j + 1)

/-- The `for i` loop of `checkForMatch`; `potentialMatch` is carried from one
candidate to the next, as in the source. -/
def checkForMatch.loop (currentByte : Byte) (index endPoint : Nat) (fileJob : FileJob) :
    List (List Byte) → Bool → Option Bool
  | [], _ => some false
  | m :: rest, potentialMatch =>
    match m[0]? with
    | none => none
    | some m0 =>
      if currentByte == m0 then
        match matchLoopGE fileJob.Content index endPoint m 0 with
        | none => none
        | some completed =>
          let potentialMatch := if completed then potentialMatch else false
          if potentialMatch then some true
          else checkForMatch.loop currentByte index endPoint fileJob rest potentialMatch
      else checkForMatch.loop currentByte index endPoint fileJob rest potentialMatch

def checkForMatch (currentByte : Byte) (index endPoint : Nat) (candidates : List (List Byte))
    (fileJob : FileJob) : Option Bool :=
  checkForMatch.loop currentByte index endPoint fileJob candidates true

def checkForMatchSingle (currentByte : Byte) (index endPoint : Nat) (candidate : List Byte)
    (fileJob : FileJob) : Option Bool :=
  match candidate[0]? with
  | none => none
  | some m0 =>
    if currentByte == m0 then
      match matchLoopGE fileJob.Content index endPoint candidate 0 with
      | none => none
      | some completed => if completed then some true else some false
    else some false

def checkForMatchMultiOpen (currentByte : Byte) (index endPoint : Nat) :
    List OpenClose → FileJob → Option (Nat × List Byte)
  | [], _ => some (0, [])
  | m :: rest, fileJob =>
    match m.Open[0]? with
    | none => none
    | some m0 =>
      if currentByte == m0 then
        match matchLoopGT fileJob.Content index endPoint m.Open 0 with
        | none => none
        | some completed =>
          if completed then some (m.Open.length, m.Close)
          else checkForMatchMultiOpen currentByte index endPoint rest fileJob
      else checkForMatchMultiOpen currentByte index endPoint rest fileJob

/-- The `hasMatch` loop of `checkComplexity`. -/
def checkComplexity.hasMatch (currentByte : Byte) : List Byte → Bool
  | [] => false
  | b :: rest => if b == currentByte then true else checkComplexity.hasMatch currentByte rest

/-- The `for i` loop over the complexity candidates; the inner loop starts at
`j = 1`. -/
def checkComplexity.loop (currentByte : Byte) (index endPoint : Nat) (fileJob : FileJob) :
    List (List Byte) → Option Nat
  | [] => some 0
  | m :: rest =>
    match m with
    | [] => none
    | m0 :: tail =>
      if currentByte == m0 then
        match matchLoopGT fileJob.Content index endPoint tail 1 with
        | none => none
        | some completed =>
          if completed then some m.length
          else checkComplexity.loop currentByte index endPoint fileJob rest
      else checkComplexity.loop currentByte index endPoint fileJob rest

def isWhitespace (currentByte : Byte) : Bool :=
  if currentByte != 32 && currentByte != 9 && currentByte != 10 && currentByte != 13 then false
  else true

def checkComplexity (currentByte : Byte) (index endPoint : Nat) (candidates : List (List Byte))
    (complexityBytes : List Byte) (fileJob : FileJob) : Option Nat :=
  let rest : Option Nat :=
    if !checkComplexity.hasMatch currentByte complexityBytes then some 0
    else checkComplexity.loop currentByte index endPoint fileJob candidates
  if index ≠ 0 then
    match fileJob.Content[index - 1]? with
    | none => none
    | some prev => if !isWhitespace prev then some 0 else rest
  else rest

def isBinary (flags : Flags) (currentByte : Byte) : Bool :=
  if !flags.DisableCheckBinary && currentByte == 0 then true else false

def resetState (currentState : State) : State :=
  if currentState = S_MULTICOMMENT ∨ currentState = S_MULTICOMMENT_CODE then S_MULTICOMMENT
  else if currentState = S_STRING then S_STRING
  else S_BLANK

def shouldProcess (currentByte : Byte) : List Byte → Bool
  | [] => false
  | b :: rest => if currentByte == b then true else shouldProcess currentByte rest

/-- The local variables of `CountStats` at the head of a loop iteration,
together with the job and the callback invocations made so far. -/
structure Scan where
  fileJob : FileJob
  index : Nat
  currentState : State
  endComments : List (List Byte)
  endString : List Byte
  digest : List Byte
  calls : List LineCall
  deriving DecidableEq, Repr

/-- How one pass through the loop body ends: it falls through to `index++`, or
`CountStats` returns from inside the loop. -/
inductive Step where
  | next (s : Scan)
  | ret (s : Scan)
  deriving DecidableEq, Repr

/-- The `if !Complexity { ... }` block that ends the `S_CODE` and the `S_BLANK`
cases. -/
def CountStats.complexity (flags : Flags) (lang : LanguageFeature) (endPoint : Nat)
    (s : Scan) (c : Byte) : Option Scan :=
  if !flags.Complexity then
    match checkComplexity c s.index endPoint lang.ComplexityChecks lang.ComplexityBytes
        s.fileJob with
    | none => none
    | some offsetJump =>
      if offsetJump ≠ 0 then
        some { s with fileJob := { s.fileJob with Complexity := s.fileJob.Complexity + 1 } }
      else some s
  else some s

/-- The `case currentState == S_CODE` branch. -/
def CountStats.caseCode (flags : Flags) (lang : LanguageFeature) (endPoint : Nat)
    (s : Scan) (c : Byte) : Option Scan :=
  if !shouldProcess c lang.ProcessBytes then some s
  else
    match checkForMatchMultiOpen c s.index endPoint lang.StringChecks s.fileJob with
    | none => none
    | some (offsetJump, endString) =>
      let s := { s with endString := endString }
      if offsetJump ≠ 0 then some { s with currentState := S_STRING }
      else
        match checkForMatch c s.index endPoint lang.SingleLineComment s.fileJob with
        | none => none
        | some found =>
          if found then some { s with currentState := S_COMMENT_CODE }
          else if s.endComments.length = 0 ∨ lang.Nested = true then
            match checkForMatchMultiOpen c s.index endPoint lang.MultiLineComment s.fileJob with
            | none => none
            | some (offsetJump, endString) =>
              let s := { s with endString := endString }
              if offsetJump ≠ 0 then
                some { s with
                  endComments := s.endComments ++ [endString]
                  currentState := S_MULTICOMMENT_CODE
                  index := s.index + (offsetJump - 1) }
              else CountStats.complexity flags lang endPoint s c
          else CountStats.complexity flags lang endPoint s c

/-- The `case currentState == S_STRING` branch. -/
def CountStats.caseString (endPoint : Nat) (s : Scan) (c : Byte) : Option Scan :=
  if s.index = 0 then none
  else
    match s.fileJob.Content[s.index - 1]? with
    | none => none
    | some prev =>
      if prev != 92 then
        match checkForMatchSingle c s.index endPoint s.endString s.fileJob with
        | none => none
        | some found => if found then some { s with currentState := S_CODE } else some s
      else some s

/-- The `case currentState == S_MULTICOMMENT || currentState == S_MULTICOMMENT_CODE`
branch. -/
def CountStats.caseMulti (lang : LanguageFeature) (endPoint : Nat)
    (s : Scan) (c : Byte) : Option Scan :=
  match s.endComments.getLast? with
  | none => none
  | some top =>
    match checkForMatchSingle c s.index endPoint top s.fileJob with
    | none => none
    | some found =>
      if found then
        let offsetJump := top.length
        let endComments := s.endComments.dropLast
        let currentState :=
          if endComments.length = 0 then
            if s.currentState = S_MULTICOMMENT_CODE then S_CODE else S_MULTICOMMENT_BLANK
          else s.currentState
        some { s with
          endComments := endComments
          currentState := currentState
          index := s.index + (offsetJump - 1) }
      else if lang.Nested = true ∨ s.endComments.length = 0 then
        match checkForMatchMultiOpen c s.index endPoint lang.MultiLineComment s.fileJob with
        | none => none
        | some (offsetJump, endString) =>
          let s := { s with endString := endString }
          if offsetJump ≠ 0 then
            some { s with
              endComments := s.endComments ++ [endString]
              index := s.index + (offsetJump - 1) }
          else some s
      else some s

/-- The part of the `S_BLANK`/`S_MULTICOMMENT_BLANK` branch below the
multi-line comment check. -/
def CountStats.caseBlankRest (flags : Flags) (lang : LanguageFeature) (endPoint : Nat)
    (s : Scan) (c : Byte) : Option Scan :=
  match checkForMatch c s.index endPoint lang.SingleLineComment s.fileJob with
  | none => none
  | some found =>
    if found then some { s with currentState := S_COMMENT }
    else
      match checkForMatchMultiOpen c s.index endPoint lang.StringChecks s.fileJob with
      | none => none
      | some (offsetJump, endString) =>
        let s := { s with endString := endString }
        if offsetJump ≠ 0 then some { s with currentState := S_STRING }
        else CountStats.complexity flags lang endPoint { s with currentState := S_CODE } c

/-- The `case currentState == S_BLANK || currentState == S_MULTICOMMENT_BLANK`
branch. -/
def CountStats.caseBlank (flags : Flags) (lang : LanguageFeature) (endPoint : Nat)
    (s : Scan) (c : Byte) : Option Scan :=
  if lang.Nested = true ∨ s.endComments.length = 0 then
    match checkForMatchMultiOpen c s.index endPoint lang.MultiLineComment s.fileJob with
    | none => none
    | some (offsetJump, endString) =>
      let s := { s with endString := endString }
      if offsetJump ≠ 0 then
        some { s with
          endComments := s.endComments ++ [endString]
          currentState := S_MULTICOMMENT
          index := s.index + (offsetJump - 1) }
      else CountStats.caseBlankRest flags lang endPoint s c
  else CountStats.caseBlankRest flags lang endPoint s c

/-- The `switch` labelled `state`, entered on a non-whitespace byte `c`.
`S_COMMENT` and `S_COMMENT_CODE` have no case. -/
def CountStats.dispatch (flags : Flags) (lang : LanguageFeature) (endPoint : Nat)
    (s : Scan) (c : Byte) : Option Scan :=
  match s.currentState with
  | S_CODE => CountStats.caseCode flags lang endPoint s c
  | S_STRING => CountStats.caseString endPoint s c
  | S_MULTICOMMENT => CountStats.caseMulti lang endPoint s c
  | S_MULTICOMMENT_CODE => CountStats.caseMulti lang endPoint s c
  | S_BLANK => CountStats.caseBlank flags lang endPoint s c
  | S_MULTICOMMENT_BLANK => CountStats.caseBlank flags lang endPoint s c
  | S_COMMENT => some s
  | S_COMMENT_CODE => some s

/-- The `if fileJob.Callback != nil { if !ProcessLine(...) { return } }` block. -/
def CountStats.invoke (callback : Option Callback) (s : Scan) (lineType : LineType) : Step :=
  match callback with
  | none => Step.next s
  | some processLine =>
    let calls := s.calls ++ [{ job := s.fileJob, currentLine := s.fileJob.Lines, lineType := lineType }]
    if !processLine calls then Step.ret { s with calls := calls }
    else Step.next { s with calls := calls }

/-- The end-of-line block: `fileJob.Lines++` and the `switch` on the state. -/
def CountStats.commit (callback : Option Callback) (s : Scan) : Step :=
  let s := { s with fileJob := { s.fileJob with Lines := s.fileJob.Lines + 1 } }
  if s.currentState = S_CODE ∨ s.currentState = S_STRING ∨ s.currentState = S_COMMENT_CODE
      ∨ s.currentState = S_MULTICOMMENT_CODE then
    CountStats.invoke callback
      { s with
        fileJob := { s.fileJob with Code := s.fileJob.Code + 1 }
        currentState := resetState s.currentState } LINE_CODE
  else if s.currentState = S_COMMENT ∨ s.currentState = S_MULTICOMMENT
      ∨ s.currentState = S_MULTICOMMENT_BLANK then
    CountStats.invoke callback
      { s with
        fileJob := { s.fileJob with Comment := s.fileJob.Comment + 1 }
        currentState := resetState s.currentState } LINE_COMMENT
  else if s.currentState = S_BLANK then
    CountStats.invoke callback
      { s with fileJob := { s.fileJob with Blank := s.fileJob.Blank + 1 } } LINE_BLANK
  else Step.next s

/-- One pass through the body of the `for index` loop, from the loop head to
just before `index++`. -/
def CountStats.body (flags : Flags) (lang : LanguageFeature) (callback : Option Callback)
    (endPoint : Nat) (s : Scan) : Option Step :=
  match s.fileJob.Content[s.index]? with
  | none => none
  | some c =>
    let s := if flags.Duplicates then { s with digest := s.digest ++ [c] } else s
    if s.index < 10000 ∧ isBinary flags c = true then
      some (Step.ret { s with fileJob := { s.fileJob with Binary := true } })
    else
      match (if !isWhitespace c then CountStats.dispatch flags lang endPoint s c else some s) with
      | none => none
      | some s =>
        match s.fileJob.Content[s.index]? with
        | none => none
        | some last =>
          if last = 10 ∨ s.index ≥ endPoint then some (CountStats.commit callback s)
          else some (Step.next s)

/-- What follows the loop: the hash, and the release of the content. -/
def CountStats.finish (flags : Flags) (s : Scan) : Scan :=
  let s := if flags.Duplicates then { s with fileJob := { s.fileJob with Hash := s.digest } } else s
  { s with fileJob := { s.fileJob with Content := [] } }

/-- The `for index := 0; index < len(fileJob.Content); index++` loop.  With the
fuel used up and the loop condition still true the result is `none`. -/
def CountStats.loop (flags : Flags) (lang : LanguageFeature) (callback : Option Callback)
    (endPoint : Nat) : Nat → Scan → Option Scan
  | 0, s => if s.index < s.fileJob.Content.length then none else some (CountStats.finish flags s)
  | fuel + 1, s =>
    if s.index < s.fileJob.Content.length then
      match CountStats.body flags lang callback endPoint s with
      | none => none
      | some (Step.ret s) => some s
      | some (Step.next s) =>
        CountStats.loop flags lang callback endPoint fuel { s with index := s.index + 1 }
    else some (CountStats.finish flags s)

/-- The run of `CountStats`, returning the final locals along with the job. -/
def CountStats.run (flags : Flags) (lang : LanguageFeature) (callback : Option Callback)
    (fileJob : FileJob) : Option Scan :=
  let fileJob := { fileJob with Bytes := fileJob.Content.length }
  if fileJob.Bytes = 0 then
    some { fileJob := { fileJob with Lines := 0 }, index := 0, currentState := S_BLANK,
           endComments := [], endString := [], digest := [], calls := [] }
  else
    CountStats.loop flags lang callback (fileJob.Bytes - 1).toNat fileJob.Content.length
      { fileJob := fileJob, index := 0, currentState := S_BLANK,
        endComments := [], endString := [], digest := [], calls := [] }

/-- The job as `CountStats` leaves it; `none` when the run panics. -/
def CountStats (flags : Flags) (lang : LanguageFeature) (callback : Option Callback)
    (fileJob : FileJob) : Option FileJob :=
  (CountStats.run flags lang callback fileJob).map (fun s => s.fileJob)

/-! ## Predicates used to state what the scanner does -/

/-- Every byte sequence of the profile that the scanner indexes at position 0 is
non-empty: single-line comment openers, multi-line and string open and close
delimiters, complexity tokens. -/
def LanguageFeature.NonEmpty (lang : LanguageFeature) : Prop :=
  (∀ m ∈ lang.SingleLineComment, m ≠ []) ∧
  (∀ m ∈ lang.MultiLineComment, m.Open ≠ [] ∧ m.Close ≠ []) ∧
  (∀ m ∈ lang.StringChecks, m.Open ≠ [] ∧ m.Close ≠ []) ∧
  (∀ m ∈ lang.ComplexityChecks, m ≠ [])

instance (lang : LanguageFeature) : Decidable lang.NonEmpty :=
  inferInstanceAs (Decidable (_ ∧ _ ∧ _ ∧ _))

/-- No multi-line comment open or close delimiter contains the byte `b`. -/
def LanguageFeature.MultiLineFree (lang : LanguageFeature) (b : Byte) : Prop :=
  ∀ m ∈ lang.MultiLineComment, b ∉ m.Open ∧ b ∉ m.Close

instance (lang : LanguageFeature) (b : Byte) : Decidable (lang.MultiLineFree b) :=
  inferInstanceAs (Decidable (∀ m ∈ lang.MultiLineComment, b ∉ m.Open ∧ b ∉ m.Close))

/-- What a pass through the `switch` may change besides the state, the index
and the two delimiter variables: nothing, or `Complexity++` (only with the
`Complexity` flag off). -/
def Frame (flags : Flags) (s s' : Scan) : Prop :=
  (s'.fileJob = s.fileJob ∨
    (flags.Complexity = false ∧
      s'.fileJob = { s.fileJob with Complexity := s.fileJob.Complexity + 1 })) ∧
  s'.digest = s.digest ∧ s'.calls = s.calls

/-- The state changes the `switch` can make without moving the index. -/
def stayStates : State → State → Bool
  | S_CODE, S_CODE => true
  | S_CODE, S_STRING => true
  | S_CODE, S_COMMENT_CODE => true
  | S_STRING, S_STRING => true
  | S_STRING, S_CODE => true
  | S_MULTICOMMENT, S_MULTICOMMENT => true
  | S_MULTICOMMENT_CODE, S_MULTICOMMENT_CODE => true
  | S_BLANK, S_COMMENT => true
  | S_BLANK, S_STRING => true
  | S_BLANK, S_CODE => true
  | S_MULTICOMMENT_BLANK, S_COMMENT => true
  | S_MULTICOMMENT_BLANK, S_STRING => true
  | S_MULTICOMMENT_BLANK, S_CODE => true
  | S_COMMENT, S_COMMENT => true
  | S_COMMENT_CODE, S_COMMENT_CODE => true
  | _, _ => false

/-- A pass through the `switch` that leaves the index and the comment stack
alone.  On entry to `S_STRING` the stored close delimiter is that of a string
pair of the profile; on entry to `S_COMMENT` or `S_COMMENT_CODE` a single-line
comment opener of the profile stands at the index. -/
def Stay (lang : LanguageFeature) (s s' : Scan) : Prop :=
  s'.index = s.index ∧ s'.endComments = s.endComments ∧
  stayStates s.currentState s'.currentState = true ∧
  (s'.currentState = S_STRING →
    (s.currentState = S_STRING ∧ s'.endString = s.endString) ∨
    ∃ m ∈ lang.StringChecks, m.Open ≠ [] ∧ s'.endString = m.Close) ∧
  (s'.currentState = S_COMMENT ∨ s'.currentState = S_COMMENT_CODE →
    s'.currentState = s.currentState ∨
    ∃ m ∈ lang.SingleLineComment, m ≠ [] ∧ m <+: s.fileJob.Content.drop s.index)

/-- The state after a multi-line comment open delimiter was matched. -/
def pushState : State → State
  | S_CODE => S_MULTICOMMENT_CODE
  | S_MULTICOMMENT_CODE => S_MULTICOMMENT_CODE
  | _ => S_MULTICOMMENT

/-- A pass through the `switch` that matched the open delimiter of the
multi-line pair `m` at the index, pushed its close delimiter and moved the
index to the last byte of the open delimiter. -/
def Push (lang : LanguageFeature) (endPoint : Nat) (s s' : Scan) : Prop :=
  ∃ m ∈ lang.MultiLineComment, m.Open ≠ [] ∧
    m.Open <+: s.fileJob.Content.drop s.index ∧
    s.index + m.Open.length ≤ endPoint + 1 ∧
    s'.index = s.index + (m.Open.length - 1) ∧
    s'.endComments = s.endComments ++ [m.Close] ∧
    (lang.Nested = true ∨ s.endComments = []) ∧
    s.currentState ≠ S_STRING ∧ s.currentState ≠ S_COMMENT ∧ s.currentState ≠ S_COMMENT_CODE ∧
    s'.currentState = pushState s.currentState

/-- A pass through the `switch` that matched the close delimiter on top of the
stack at the index, popped it and moved the index to its last byte. -/
def Pop (endPoint : Nat) (s s' : Scan) : Prop :=
  ∃ top, s.endComments.getLast? = some top ∧ top ≠ [] ∧
    top <+: s.fileJob.Content.drop s.index ∧
    s.index + top.length ≤ endPoint ∧
    s'.index = s.index + (top.length - 1) ∧
    s'.endComments = s.endComments.dropLast ∧
    (s.currentState = S_MULTICOMMENT ∨ s.currentState = S_MULTICOMMENT_CODE) ∧
    s'.currentState =
      (if s.endComments.dropLast = [] then
        (if s.currentState = S_MULTICOMMENT_CODE then S_CODE else S_MULTICOMMENT_BLANK)
      else s.currentState)

/-- The line type a line is committed as, by the state at its end. -/
def lineTypeOf : State → LineType
  | S_CODE => LINE_CODE
  | S_STRING => LINE_CODE
  | S_COMMENT_CODE => LINE_CODE
  | S_MULTICOMMENT_CODE => LINE_CODE
  | S_COMMENT => LINE_COMMENT
  | S_MULTICOMMENT => LINE_COMMENT
  | S_MULTICOMMENT_BLANK => LINE_COMMENT
  | S_BLANK => LINE_BLANK

/-- The job after one more line of the given type was counted. -/
def countLine (lineType : LineType) (fileJob : FileJob) : FileJob :=
  match lineType with
  | LINE_CODE => { fileJob with Lines := fileJob.Lines + 1, Code := fileJob.Code + 1 }
  | LINE_COMMENT => { fileJob with Lines := fileJob.Lines + 1, Comment := fileJob.Comment + 1 }
  | LINE_BLANK => { fileJob with Lines := fileJob.Lines + 1, Blank := fileJob.Blank + 1 }

/-- The locals with which `CountStats` enters its loop. -/
def CountStats.start (fileJob : FileJob) : Scan :=
  { fileJob := { fileJob with Bytes := fileJob.Content.length }, index := 0,
    currentState := S_BLANK, endComments := [], endString := [], digest := [], calls := [] }

/-- How the state, the comment stack and the stored string close delimiter hang
together at every point of a scan: the stack is non-empty exactly in the two
multi-line comment states, holds at most one entry unless the profile nests,
holds close delimiters of the profile, and in `S_STRING` the stored close
delimiter is that of a string pair of the profile. -/
def Coupled (lang : LanguageFeature) (s : Scan) : Prop :=
  ((s.currentState = S_MULTICOMMENT ∨ s.currentState = S_MULTICOMMENT_CODE) ↔
    s.endComments ≠ []) ∧
  (lang.Nested = false → s.endComments.length ≤ 1) ∧
  (∀ e ∈ s.endComments, ∃ m ∈ lang.MultiLineComment, e = m.Close) ∧
  (s.currentState = S_STRING → ∃ m ∈ lang.StringChecks, s.endString = m.Close)

/-- What holds of the locals at the head of every loop iteration of a scan of
`content`: the content is untouched, state and stack are coupled, the index is
at most the length, and `S_STRING` is never the state at index 0. -/
def Safe (lang : LanguageFeature) (content : List Byte) (s : Scan) : Prop :=
  s.fileJob.Content = content ∧ Coupled lang s ∧ s.index ≤ content.length ∧
  (s.currentState = S_STRING → 0 < s.index)

/-- What one loop iteration does to the locals `s` between the binary test and
the end-of-line test, on the byte `c` at the index: nothing on whitespace, one
pass through the `switch` otherwise.  (The digest is left out.) -/
def Moved (flags : Flags) (lang : LanguageFeature) (endPoint : Nat) (c : Byte)
    (s s2 : Scan) : Prop :=
  (isWhitespace c = true ∧ s2.fileJob = s.fileJob ∧ s2.index = s.index ∧
    s2.currentState = s.currentState ∧ s2.endComments = s.endComments ∧
    s2.endString = s.endString ∧ s2.calls = s.calls) ∨
  (isWhitespace c = false ∧
    (s2.fileJob = s.fileJob ∨
      (flags.Complexity = false ∧
        s2.fileJob = { s.fileJob with Complexity := s.fileJob.Complexity + 1 })) ∧
    s2.calls = s.calls ∧
    (Stay lang s s2 ∨ Push lang endPoint s s2 ∨ Pop endPoint s s2))

/-- The end-of-line block run on the locals `s2`: the line is counted by the
type of the state, the state is reset, and the loop goes on with `s3` unless a
callback stops the scan there. -/
def Committed (callback : Option Callback) (s2 : Scan) (out : Step) : Prop :=
  ∃ s3, s3.fileJob = countLine (lineTypeOf s2.currentState) s2.fileJob ∧
    s3.index = s2.index ∧ s3.currentState = resetState s2.currentState ∧
    s3.endComments = s2.endComments ∧ s3.endString = s2.endString ∧
    ((callback = none ∧ s3.calls = s2.calls ∧ out = Step.next s3) ∨
     (∃ processLine, callback = some processLine ∧
        s3.calls = s2.calls ++
          [{ job := s3.fileJob, currentLine := s3.fileJob.Lines,
             lineType := lineTypeOf s2.currentState }] ∧
        ((processLine s3.calls = true ∧ out = Step.next s3) ∨
         (processLine s3.calls = false ∧ out = Step.ret s3))))

/-- No delimiter of the profile (single-line comment opener, multi-line comment
or string open or close delimiter) contains the byte `b`. -/
def LanguageFeature.DelimiterFree (lang : LanguageFeature) (b : Byte) : Prop :=
  (∀ m ∈ lang.SingleLineComment, b ∉ m) ∧
  (∀ m ∈ lang.MultiLineComment, b ∉ m.Open ∧ b ∉ m.Close) ∧
  (∀ m ∈ lang.StringChecks, b ∉ m.Open ∧ b ∉ m.Close)

instance (lang : LanguageFeature) (b : Byte) : Decidable (lang.DelimiterFree b) :=
  inferInstanceAs (Decidable (_ ∧ _ ∧ _))

/-- The whitespace bytes of the spec: space, tab, newline, carriage return. -/
def blankByte (b : Byte) : Bool :=
  b == 32 || b == 9 || b == 10 || b == 13

/-- The lines of a content, given the bytes `cur` of the line begun so far:
every line runs up to and including its newline; bytes after the last newline
form a last line. -/
def splitLines.go (cur : List Byte) : List Byte → List (List Byte)
  | [] => if cur = [] then [] else [cur]
  | b :: rest =>
    if b = 10 then (cur ++ [b]) :: splitLines.go [] rest
    else splitLines.go (cur ++ [b]) rest

/-- The lines of a content. -/
def splitLines (content : List Byte) : List (List Byte) :=
  splitLines.go [] content

/-- A line that holds at least one byte outside space, tab, newline and
carriage return. -/
def isCodeLine (line : List Byte) : Bool :=
  line.any (fun b => !blankByte b)

/-- A profile without single-line comments, multi-line comments and strings. -/
def LanguageFeature.Plain (lang : LanguageFeature) : Prop :=
  lang.SingleLineComment = [] ∧ lang.MultiLineComment = [] ∧ lang.StringChecks = []

instance (lang : LanguageFeature) : Decidable lang.Plain :=
  inferInstanceAs (Decidable (_ ∧ _ ∧ _))

/-- The states in which the line is committed as code. -/
def codeState : State → Bool
  | S_CODE => true
  | S_STRING => true
  | S_COMMENT_CODE => true
  | S_MULTICOMMENT_CODE => true
  | _ => false

/-- The locals after the move of an iteration of a scan of `fileJob` that is
inside a comment whose bottom close delimiter is `close` and whose opener ended
before index `n`: state `S_MULTICOMMENT`, `close` at the bottom of the stack,
and every line counted so far counted as comment. -/
def InsideComment (fileJob : FileJob) (n : Nat) (close : List Byte) (s : Scan) : Prop :=
  n ≤ s.index + 1 ∧ s.currentState = S_MULTICOMMENT ∧ s.endComments.head? = some close ∧
  s.fileJob.Code = fileJob.Code ∧ s.fileJob.Blank = fileJob.Blank ∧
  s.fileJob.Comment - fileJob.Comment = s.fileJob.Lines - fileJob.Lines

/-- The line count the spec gives for a non-empty content: the number of
newline bytes, plus one when the last byte is not a newline. -/
def newlineLines (content : List Byte) : Int :=
  (content.count 10 : Nat) + (if content.getLast? = some 10 then 0 else 1)

/-- Callbacks that never stop the scan (no callback included). -/
def NeverStops (callback : Option Callback) : Prop :=
  ∀ processLine, callback = some processLine → ∀ calls, processLine calls = true

/-- The locals at the head of the loop iteration reached `k` iterations after the
head `s`; `none` when the loop ends, returns or panics before. -/
def CountStats.headAt (flags : Flags) (lang : LanguageFeature) (callback : Option Callback)
    (endPoint : Nat) : Nat → Scan → Option Scan
  | 0, s => some s
  | k + 1, s =>
    if s.index < s.fileJob.Content.length then
      match CountStats.body flags lang callback endPoint s with
      | some (Step.next s') =>
        CountStats.headAt flags lang callback endPoint k { s' with index := s'.index + 1 }
      | _ => none
    else none

/-- The stack of pending close delimiters is non-empty exactly in the two
multi-line comment states, and holds at most one entry unless the profile
nests. -/
def StackMatchesState (lang : LanguageFeature) (s : Scan) : Prop :=
  ((s.currentState = S_MULTICOMMENT ∨ s.currentState = S_MULTICOMMENT_CODE) ↔
    s.endComments ≠ []) ∧
  (lang.Nested = false → s.endComments.length ≤ 1)

/-- The pair the open/close match is specified to return: the first pair, in
registered order, whose opener stands in the content at `index`; `(0, nil)`
without one. -/
def firstOpen (content : List Byte) (index : Nat) (pairs : List OpenClose) :
    Nat × List Byte :=
  match pairs.find? (fun m => decide (m.Open <+: content.drop index)) with
  | some m => (m.Open.length, m.Close)
  | none => (0, [])

/-- The line numbers and line types of a list of callback invocations. -/
def lineNumbers (calls : List LineCall) : List Int :=
  calls.map (fun call => call.currentLine)

/-- How many of the invocations carry the line type `lineType`. -/
def countType (lineType : LineType) (calls : List LineCall) : Nat :=
  calls.countP (fun call => call.lineType = lineType)

/-- The invocations `calls` agree with the counters of `fileJob`: they carry the
line numbers 1, 2, ... up to `Lines`, and as many of them carry each line type
as the counter of that type says. -/
def CallsAgree (calls : List LineCall) (fileJob : FileJob) : Prop :=
  lineNumbers calls = (List.range calls.length).map (fun (k : Nat) => (k : Int) + 1) ∧
  (calls.length : Int) = fileJob.Lines ∧
  (countType LINE_CODE calls : Int) = fileJob.Code ∧
  (countType LINE_COMMENT calls : Int) = fileJob.Comment ∧
  (countType LINE_BLANK calls : Int) = fileJob.Blank

/-! ## Sample inputs -/

/-- The bytes of an ASCII text. -/
def ascii (text : String) : List Byte :=
  text.toList.map (fun ch => ch.toNat.toUInt8)

/-- A fresh job holding `content`: all counters zero, not binary. -/
def freshJob (content : List Byte) : FileJob :=
  { Content := content, Bytes := 0, Lines := 0, Code := 0, Comment := 0, Blank := 0,
    Complexity := 0, Binary := false, Hash := [] }

/-- All three flags off: binary detection on, no hashing, complexity counted. -/
def flagsOff : Flags :=
  { DisableCheckBinary := false, Duplicates := false, Complexity := false }

/-- A profile with complexity tokens but no comments and no strings. -/
def plainProfile : LanguageFeature :=
  { ComplexityChecks := [ascii "if ", ascii "for "]
    ComplexityBytes := ascii "if"
    SingleLineComment := []
    MultiLineComment := []
    StringChecks := []
    Nested := false
    ProcessBytes := ascii "if" }

/-- The C-like profile with nesting multi-line comments. -/
def nestedProfile : LanguageFeature :=
  { ComplexityChecks := []
    ComplexityBytes := []
    SingleLineComment := [ascii "//"]
    MultiLineComment := [{ Open := ascii "/*", Close := ascii "*/" }]
    StringChecks := [{ Open := ascii "\"", Close := ascii "\"" }]
    Nested := true
    ProcessBytes := ascii "/\"" }

/-- The locals of a scan of `x // c` plus newline at index 2 (the first `/`),
after the code byte `x` was seen. -/
def commentAfterCode : Scan :=
  { CountStats.start (freshJob (ascii "x // c\n")) with index := 2, currentState := S_CODE }

/-- A profile whose multi-line comment opener starts with a space. -/
def spaceCommentProfile : LanguageFeature :=
  { ComplexityChecks := []
    ComplexityBytes := []
    SingleLineComment := [ascii "//"]
    MultiLineComment := [{ Open := ascii " /*", Close := ascii "*/" }]
    StringChecks := []
    Nested := false
    ProcessBytes := ascii "/" }

/-- A callback that stops the scan at its first invocation. -/
def stopAtOnce : Callback := fun _ => false

/-- A callback that stops the scan at its second invocation. -/
def stopAtSecond : Callback := fun calls => decide (calls.length < 2)

/-- A profile whose string delimiter is three double quotes. -/
def tripleQuoteProfile : LanguageFeature :=
  { ComplexityChecks := [ascii "if "]
    ComplexityBytes := ascii "i"
    SingleLineComment := [ascii "#"]
    MultiLineComment := []
    StringChecks := [{ Open := ascii "\"\"\"", Close := ascii "\"\"\"" }]
    Nested := false
    ProcessBytes := ascii "i#\"" }

/-- A profile whose strings open with a single quote and close with a space. -/
def spaceCloseProfile : LanguageFeature :=
  { ComplexityChecks := []
    ComplexityBytes := []
    SingleLineComment := [ascii "//"]
    MultiLineComment := []
    StringChecks := [{ Open := ascii "'", Close := ascii " " }]
    Nested := false
    ProcessBytes := ascii "/'" }

/-- A C-like profile: `//` line comments, `/* */` block comments, double-quoted
strings, the usual complexity tokens; `ProcessBytes` and `ComplexityBytes` are
the first bytes of the sequences. -/
def cProfile : LanguageFeature :=
  { ComplexityChecks :=
      [ascii "for ", ascii "for(", ascii "if ", ascii "if(", ascii "switch ", ascii "while ",
       ascii "else ", ascii "|| ", ascii "&& ", ascii "!= ", ascii "== "]
    ComplexityBytes := ascii "fiswe|&!="
    SingleLineComment := [ascii "//"]
    MultiLineComment := [{ Open := ascii "/*", Close := ascii "*/" }]
    StringChecks := [{ Open := ascii "\"", Close := ascii "\"" }]
    Nested := false
    ProcessBytes := ascii "fiswe|&!=/\"" }

/-- The locals of a scan of `content` at `index`, inside a string literal whose
stored close delimiter is `endString`, before any line was committed. -/
def insideString (content endString : List Byte) (index : Nat) : Scan :=
  { CountStats.start (freshJob content) with
    index := index, currentState := S_STRING, endString := endString }

/-- The 7 bytes quote `a` backslash quote `b` quote newline. -/
def escapedQuote : List Byte := ascii "\"a\\\"b\"\n"

/-! ## Theorems -/

theorem drop_of_getElem? {content : List Byte} {i : Nat} {c : Byte}
    (h : content[i]? = some c) : content.drop i = c :: content.drop (i + 1) := by
  obtain ⟨hlt, rfl⟩ := List.getElem?_eq_some.mp h
  exact List.drop_eq_getElem_cons hlt

theorem matchLoopGT_isSome (content : List Byte) (index endPoint : Nat)
    (hend : endPoint < content.length) (m : List Byte) (j : Nat) :
    ∃ b, matchLoopGT content index endPoint m j = some b := by
  induction m generalizing j with
  | nil => exact ⟨true, rfl⟩
  | cons a rest ih =>
    unfold matchLoopGT
    by_cases h1 : index + j > endPoint
    · simp [h1]
    · have hlt : index + j < content.length := by omega
      simp only [h1, if_false, List.getElem?_eq_getElem hlt]
      by_cases h2 : (a != content[index + j]) = true
      · simp [h2]
      · simp only [h2]; exact ih (j + 1)

theorem matchLoopGE_isSome (content : List Byte) (index endPoint : Nat)
    (hend : endPoint ≤ content.length) (m : List Byte) (j : Nat) :
    ∃ b, matchLoopGE content index endPoint m j = some b := by
  induction m generalizing j with
  | nil => exact ⟨true, rfl⟩
  | cons a rest ih =>
    unfold matchLoopGE
    by_cases h1 : index + j ≥ endPoint
    · simp [h1]
    · have hlt : index + j < content.length := by omega
      simp only [h1, if_false, List.getElem?_eq_getElem hlt]
      by_cases h2 : (a != content[index + j]) = true
      · simp [h2]
      · simp only [h2]; exact ih (j + 1)

theorem matchLoopGT_true {content : List Byte} {index endPoint : Nat} {m : List Byte} {j : Nat}
    (h : matchLoopGT content index endPoint m j = some true) :
    m <+: content.drop (index + j) ∧ (m ≠ [] → index + j + m.length ≤ endPoint + 1) := by
  induction m generalizing j with
  | nil => simp
  | cons a rest ih =>
    unfold matchLoopGT at h
    by_cases h1 : index + j > endPoint
    · simp [h1] at h
    · simp only [h1, if_false] at h
      cases hc : content[index + j]? with
      | none => simp [hc] at h
      | some c =>
        simp only [hc] at h
        by_cases h2 : (a != c) = true
        · simp [h2] at h
        · simp only [h2] at h
          have hac : a = c := by simpa using h2
          obtain ⟨ih1, ih2⟩ := ih h
          rw [drop_of_getElem? hc]
          refine ⟨?_, fun _ => ?_⟩
          · rw [List.cons_prefix_cons]; exact ⟨hac, by simpa [Nat.add_assoc] using ih1⟩
          · by_cases hr : rest = []
            · subst hr; simp; omega
            · have := ih2 hr; simp; omega

theorem matchLoopGE_true {content : List Byte} {index endPoint : Nat} {m : List Byte} {j : Nat}
    (h : matchLoopGE content index endPoint m j = some true) :
    m <+: content.drop (index + j) ∧ (m ≠ [] → index + j + m.length ≤ endPoint) := by
  induction m generalizing j with
  | nil => simp
  | cons a rest ih =>
    unfold matchLoopGE at h
    by_cases h1 : index + j ≥ endPoint
    · simp [h1] at h
    · simp only [h1, if_false] at h
      cases hc : content[index + j]? with
      | none => simp [hc] at h
      | some c =>
        simp only [hc] at h
        by_cases h2 : (a != c) = true
        · simp [h2] at h
        · simp only [h2] at h
          have hac : a = c := by simpa using h2
          obtain ⟨ih1, ih2⟩ := ih h
          rw [drop_of_getElem? hc]
          refine ⟨?_, fun _ => ?_⟩
          · rw [List.cons_prefix_cons]; exact ⟨hac, by simpa [Nat.add_assoc] using ih1⟩
          · by_cases hr : rest = []
            · subst hr; simp; omega
            · have := ih2 hr; simp; omega

/-! ### The match helpers -/

theorem checkForMatchSingle_true {c : Byte} {index endPoint : Nat} {m : List Byte}
    {fileJob : FileJob} (h : checkForMatchSingle c index endPoint m fileJob = some true) :
    m ≠ [] ∧ m <+: fileJob.Content.drop index ∧ index + m.length ≤ endPoint := by
  unfold checkForMatchSingle at h
  cases m with
  | nil => simp at h
  | cons a rest =>
    simp only [List.getElem?_cons_zero] at h
    split at h
    · cases hl : matchLoopGE fileJob.Content index endPoint (a :: rest) 0 with
      | none => simp [hl] at h
      | some b =>
        cases b with
        | false => simp [hl] at h
        | true =>
          obtain ⟨h1, h2⟩ := matchLoopGE_true hl
          exact ⟨by simp, by simpa using h1, by simpa using h2 (by simp)⟩
    · simp at h

theorem checkForMatchSingle_isSome (c : Byte) (index endPoint : Nat) {m : List Byte}
    (fileJob : FileJob) (hm : m ≠ []) (hend : endPoint ≤ fileJob.Content.length) :
    ∃ b, checkForMatchSingle c index endPoint m fileJob = some b := by
  unfold checkForMatchSingle
  cases m with
  | nil => exact absurd rfl hm
  | cons a rest =>
    simp only [List.getElem?_cons_zero]
    obtain ⟨b, hb⟩ := matchLoopGE_isSome fileJob.Content index endPoint hend (a :: rest) 0
    rw [hb]
    split
    · cases b <;> simp
    · simp

theorem checkForMatch_loop_isSome (c : Byte) (index endPoint : Nat) (fileJob : FileJob)
    (hend : endPoint ≤ fileJob.Content.length) (l : List (List Byte))
    (hl : ∀ m ∈ l, m ≠ []) (p : Bool) :
    ∃ b, checkForMatch.loop c index endPoint fileJob l p = some b := by
  induction l generalizing p with
  | nil => exact ⟨false, rfl⟩
  | cons m rest ih =>
    have hm : m ≠ [] := hl m (by simp)
    have hrest : ∀ x ∈ rest, x ≠ [] := fun x hx => hl x (by simp [hx])
    cases m with
    | nil => exact absurd rfl hm
    | cons a tl =>
      unfold checkForMatch.loop
      simp only [List.getElem?_cons_zero]
      obtain ⟨b, hb⟩ := matchLoopGE_isSome fileJob.Content index endPoint hend (a :: tl) 0
      rw [hb]
      by_cases hc : (c == a) = true
      · simp only [hc, if_true]
        by_cases hp : (if b = true then p else false) = true
        · exact ⟨true, by simp [hp]⟩
        · simp only [hp]
          exact ih hrest _
      · simp only [hc]
        exact ih hrest _

theorem checkForMatch_isSome (c : Byte) (index endPoint : Nat) (fileJob : FileJob)
    (hend : endPoint ≤ fileJob.Content.length) (l : List (List Byte))
    (hl : ∀ m ∈ l, m ≠ []) :
    ∃ b, checkForMatch c index endPoint l fileJob = some b :=
  checkForMatch_loop_isSome c index endPoint fileJob hend l hl true

theorem checkForMatch_loop_true {c : Byte} {index endPoint : Nat} {fileJob : FileJob}
    {l : List (List Byte)} {p : Bool}
    (h : checkForMatch.loop c index endPoint fileJob l p = some true) :
    ∃ m ∈ l, m ≠ [] ∧ m <+: fileJob.Content.drop index := by
  induction l generalizing p with
  | nil => simp [checkForMatch.loop] at h
  | cons m rest ih =>
    have lift : (∃ x ∈ rest, x ≠ [] ∧ x <+: fileJob.Content.drop index) →
        ∃ x ∈ m :: rest, x ≠ [] ∧ x <+: fileJob.Content.drop index := by
      rintro ⟨x, hx, hrest⟩
      exact ⟨x, by simp [hx], hrest⟩
    cases m with
    | nil => simp [checkForMatch.loop] at h
    | cons a tl =>
      unfold checkForMatch.loop at h
      simp only [List.getElem?_cons_zero] at h
      by_cases hc : (c == a) = true
      · simp only [hc, if_true] at h
        cases hl : matchLoopGE fileJob.Content index endPoint (a :: tl) 0 with
        | none => simp [hl] at h
        | some b =>
          simp only [hl] at h
          cases b with
          | false => exact lift (ih (by simpa using h))
          | true =>
            refine ⟨a :: tl, by simp, by simp, ?_⟩
            simpa using (matchLoopGE_true hl).1
      · simp only [hc] at h
        exact lift (ih h)

theorem checkForMatch_true {c : Byte} {index endPoint : Nat} {fileJob : FileJob}
    {l : List (List Byte)} (h : checkForMatch c index endPoint l fileJob = some true) :
    ∃ m ∈ l, m ≠ [] ∧ m <+: fileJob.Content.drop index :=
  checkForMatch_loop_true h

theorem checkForMatchMultiOpen_spec {c : Byte} {index endPoint : Nat} {l : List OpenClose}
    {fileJob : FileJob} {n : Nat} {cl : List Byte}
    (h : checkForMatchMultiOpen c index endPoint l fileJob = some (n, cl)) :
    (n = 0 ∧ cl = []) ∨
    ∃ m ∈ l, m.Open ≠ [] ∧ n = m.Open.length ∧ cl = m.Close ∧
      m.Open <+: fileJob.Content.drop index ∧ index + m.Open.length ≤ endPoint + 1 := by
  induction l with
  | nil =>
    left
    simpa [checkForMatchMultiOpen, eq_comm] using h
  | cons m rest ih =>
    have lift : ((n = 0 ∧ cl = []) ∨
        ∃ m ∈ rest, m.Open ≠ [] ∧ n = m.Open.length ∧ cl = m.Close ∧
          m.Open <+: fileJob.Content.drop index ∧ index + m.Open.length ≤ endPoint + 1) →
        ((n = 0 ∧ cl = []) ∨
        ∃ m' ∈ m :: rest, m'.Open ≠ [] ∧ n = m'.Open.length ∧ cl = m'.Close ∧
          m'.Open <+: fileJob.Content.drop index ∧ index + m'.Open.length ≤ endPoint + 1) := by
      rintro (h0 | ⟨x, hx, hrest⟩)
      · exact Or.inl h0
      · exact Or.inr ⟨x, by simp [hx], hrest⟩
    unfold checkForMatchMultiOpen at h
    cases ho : m.Open[0]? with
    | none => simp [ho] at h
    | some m0 =>
      simp only [ho] at h
      have hne : m.Open ≠ [] := by
        intro he; rw [he] at ho; simp at ho
      split at h
      · cases hl : matchLoopGT fileJob.Content index endPoint m.Open 0 with
        | none => simp [hl] at h
        | some b =>
          simp only [hl] at h
          cases b with
          | false => exact lift (ih (by simpa using h))
          | true =>
            simp only [if_true, Option.some.injEq, Prod.mk.injEq] at h
            obtain ⟨h1, h2⟩ := matchLoopGT_true hl
            right
            exact ⟨m, by simp, hne, h.1.symm, h.2.symm, by simpa using h1,
              by simpa using h2 hne⟩
      · exact lift (ih h)

theorem checkForMatchMultiOpen_isSome (c : Byte) (index endPoint : Nat) (l : List OpenClose)
    (fileJob : FileJob) (hend : endPoint < fileJob.Content.length)
    (hl : ∀ m ∈ l, m.Open ≠ []) :
    ∃ r, checkForMatchMultiOpen c index endPoint l fileJob = some r := by
  induction l with
  | nil => exact ⟨(0, []), rfl⟩
  | cons m rest ih =>
    have hm : m.Open ≠ [] := hl m (by simp)
    have hrest : ∀ x ∈ rest, x.Open ≠ [] := fun x hx => hl x (by simp [hx])
    unfold checkForMatchMultiOpen
    cases ho : m.Open[0]? with
    | none =>
      exfalso
      cases hmo : m.Open with
      | nil => exact hm hmo
      | cons a tl => rw [hmo] at ho; simp at ho
    | some m0 =>
      simp only
      obtain ⟨b, hb⟩ := matchLoopGT_isSome fileJob.Content index endPoint hend m.Open 0
      rw [hb]
      split
      · simp only
        split
        · exact ⟨_, rfl⟩
        · exact ih hrest
      · exact ih hrest

theorem checkComplexity_loop_isSome (c : Byte) (index endPoint : Nat) (fileJob : FileJob)
    (hend : endPoint < fileJob.Content.length) (l : List (List Byte))
    (hl : ∀ m ∈ l, m ≠ []) :
    ∃ n, checkComplexity.loop c index endPoint fileJob l = some n := by
  induction l with
  | nil => exact ⟨0, rfl⟩
  | cons m rest ih =>
    have hm : m ≠ [] := hl m (by simp)
    have hrest : ∀ x ∈ rest, x ≠ [] := fun x hx => hl x (by simp [hx])
    cases m with
    | nil => exact absurd rfl hm
    | cons a tl =>
      unfold checkComplexity.loop
      simp only
      obtain ⟨b, hb⟩ := matchLoopGT_isSome fileJob.Content index endPoint hend tl 1
      rw [hb]
      split
      · simp only
        split
        · exact ⟨_, rfl⟩
        · exact ih hrest
      · exact ih hrest

theorem checkComplexity_isSome (c : Byte) (index endPoint : Nat) (fileJob : FileJob)
    (hend : endPoint < fileJob.Content.length) (hidx : index ≤ fileJob.Content.length)
    (l : List (List Byte)) (bs : List Byte) (hl : ∀ m ∈ l, m ≠ []) :
    ∃ n, checkComplexity c index endPoint l bs fileJob = some n := by
  obtain ⟨n, hn⟩ := checkComplexity_loop_isSome c index endPoint fileJob hend l hl
  unfold checkComplexity
  rw [hn]
  by_cases h0 : index = 0
  · simp only [h0, ne_eq, not_true_eq_false, if_false]
    split <;> exact ⟨_, rfl⟩
  · have hlt : index - 1 < fileJob.Content.length := by omega
    simp only [ne_eq, h0, not_false_eq_true, if_true, List.getElem?_eq_getElem hlt]
    split
    · exact ⟨_, rfl⟩
    · split <;> exact ⟨_, rfl⟩

/-! ### One pass through the `switch` -/

theorem complexity_spec {flags : Flags} {lang : LanguageFeature} {endPoint : Nat}
    {s s' : Scan} {c : Byte}
    (h : CountStats.complexity flags lang endPoint s c = some s') :
    s' = s ∨ (flags.Complexity = false ∧
      s' = { s with fileJob := { s.fileJob with Complexity := s.fileJob.Complexity + 1 } }) := by
  unfold CountStats.complexity at h
  cases hf : flags.Complexity with
  | true => simp [hf] at h; exact Or.inl h.symm
  | false =>
    simp only [hf, Bool.not_false, if_true] at h
    cases hc : checkComplexity c s.index endPoint lang.ComplexityChecks lang.ComplexityBytes
        s.fileJob with
    | none => simp [hc] at h
    | some n =>
      simp only [hc] at h
      split at h
      · right; exact ⟨rfl, (Option.some.inj h).symm⟩
      · left; exact (Option.some.inj h).symm

theorem complexity_frame {flags : Flags} {lang : LanguageFeature} {endPoint : Nat}
    {s s' : Scan} {c : Byte}
    (h : CountStats.complexity flags lang endPoint s c = some s') :
    (s'.fileJob = s.fileJob ∨ (flags.Complexity = false ∧
      s'.fileJob = { s.fileJob with Complexity := s.fileJob.Complexity + 1 })) ∧
    s'.index = s.index ∧ s'.currentState = s.currentState ∧ s'.endComments = s.endComments ∧
    s'.endString = s.endString ∧ s'.digest = s.digest ∧ s'.calls = s.calls := by
  rcases complexity_spec h with rfl | ⟨hf, rfl⟩
  · simp
  · simp [hf]

theorem caseCode_spec {flags : Flags} {lang : LanguageFeature} {endPoint : Nat}
    {s s' : Scan} {c : Byte} (hs : s.currentState = S_CODE)
    (h : CountStats.caseCode flags lang endPoint s c = some s') :
    Frame flags s s' ∧ (Stay lang s s' ∨ Push lang endPoint s s') := by
  unfold CountStats.caseCode at h
  split at h
  · cases h
    exact ⟨⟨Or.inl rfl, rfl, rfl⟩,
      Or.inl ⟨rfl, rfl, by simp [hs, stayStates], by simp [hs], by simp [hs]⟩⟩
  · cases hstr : checkForMatchMultiOpen c s.index endPoint lang.StringChecks s.fileJob with
    | none => simp [hstr] at h
    | some r =>
      obtain ⟨oj, es⟩ := r
      simp only [hstr] at h
      split at h
      · cases h
        rename_i hoj
        refine ⟨⟨Or.inl rfl, rfl, rfl⟩,
          Or.inl ⟨rfl, rfl, by simp [hs, stayStates], fun _ => ?_, by simp⟩⟩
        rcases checkForMatchMultiOpen_spec hstr with ⟨h0, _⟩ | ⟨m, hm, hne, _, hcl, _⟩
        · exact absurd h0 hoj
        · exact Or.inr ⟨m, hm, hne, hcl⟩
      · cases hsl : checkForMatch c s.index endPoint lang.SingleLineComment s.fileJob with
        | none => simp [hsl] at h
        | some found =>
          simp only [hsl] at h
          split at h
          · cases h
            rename_i hfound
            rw [hfound] at hsl
            exact ⟨⟨Or.inl rfl, rfl, rfl⟩, Or.inl ⟨rfl, rfl, by simp [hs, stayStates], by simp,
              fun _ => Or.inr (checkForMatch_true hsl)⟩⟩
          · have tail : ∀ es', CountStats.complexity flags lang endPoint
                { s with endString := es' } c = some s' →
                Frame flags s s' ∧ (Stay lang s s' ∨ Push lang endPoint s s') := by
              intro es' hc
              obtain ⟨hj, hi, hst, hec, _, hd, hcl⟩ := complexity_frame hc
              refine ⟨⟨hj, hd, hcl⟩, Or.inl ⟨hi, hec, ?_, ?_, ?_⟩⟩
              · rw [hst]; simp [hs, stayStates]
              · rw [hst]; simp [hs]
              · rw [hst]; simp [hs]
            split at h
            · rename_i hguard
              cases hml : checkForMatchMultiOpen c s.index endPoint lang.MultiLineComment
                  s.fileJob with
              | none => simp [hml] at h
              | some r =>
                obtain ⟨oj2, es2⟩ := r
                simp only [hml] at h
                split at h
                · cases h
                  rename_i hoj
                  rcases checkForMatchMultiOpen_spec hml with
                    ⟨h0, _⟩ | ⟨m, hm, hne, hlen, hcl, hocc, hb⟩
                  · exact absurd h0 hoj
                  · refine ⟨⟨Or.inl rfl, rfl, rfl⟩, Or.inr ⟨m, hm, hne, hocc, hb, ?_, ?_, ?_,
                      by simp [hs], by simp [hs], by simp [hs], by simp [hs, pushState]⟩⟩
                    · simp [hlen]
                    · simp [hcl]
                    · rcases hguard with hg | hg
                      · right; exact List.length_eq_zero.mp hg
                      · left; exact hg
                · exact tail _ h
            · exact tail _ h

theorem caseString_spec (lang : LanguageFeature) (flags : Flags) {endPoint : Nat}
    {s s' : Scan} {c : Byte} (hs : s.currentState = S_STRING)
    (h : CountStats.caseString endPoint s c = some s') :
    Frame flags s s' ∧ Stay lang s s' := by
  unfold CountStats.caseString at h
  split at h
  · simp at h
  · cases hp : s.fileJob.Content[s.index - 1]? with
    | none => simp [hp] at h
    | some prev =>
      simp only [hp] at h
      split at h
      · cases hm : checkForMatchSingle c s.index endPoint s.endString s.fileJob with
        | none => simp [hm] at h
        | some found =>
          simp only [hm] at h
          split at h
          · cases h
            exact ⟨⟨Or.inl rfl, rfl, rfl⟩, rfl, rfl, by simp [hs, stayStates], by simp, by simp⟩
          · cases h
            exact ⟨⟨Or.inl rfl, rfl, rfl⟩, rfl, rfl, by simp [hs, stayStates],
              fun _ => Or.inl ⟨hs, rfl⟩, fun _ => Or.inl rfl⟩
      · cases h
        exact ⟨⟨Or.inl rfl, rfl, rfl⟩, rfl, rfl, by simp [hs, stayStates],
          fun _ => Or.inl ⟨hs, rfl⟩, fun _ => Or.inl rfl⟩

theorem caseMulti_spec {lang : LanguageFeature} {flags : Flags} {endPoint : Nat}
    {s s' : Scan} {c : Byte}
    (hs : s.currentState = S_MULTICOMMENT ∨ s.currentState = S_MULTICOMMENT_CODE)
    (h : CountStats.caseMulti lang endPoint s c = some s') :
    Frame flags s s' ∧ (Stay lang s s' ∨ Push lang endPoint s s' ∨ Pop endPoint s s') := by
  have hstay : Frame flags s s ∧ (Stay lang s s ∨ Push lang endPoint s s ∨ Pop endPoint s s) := by
    refine ⟨⟨Or.inl rfl, rfl, rfl⟩,
      Or.inl ⟨rfl, rfl, ?_, fun h => Or.inl ⟨h, rfl⟩, fun _ => Or.inl rfl⟩⟩
    rcases hs with hs | hs <;> simp [hs, stayStates]
  unfold CountStats.caseMulti at h
  cases ht : s.endComments.getLast? with
  | none => simp [ht] at h
  | some top =>
    simp only [ht] at h
    cases hm : checkForMatchSingle c s.index endPoint top s.fileJob with
    | none => simp [hm] at h
    | some found =>
      simp only [hm] at h
      cases found with
      | true =>
        simp only [if_true, Option.some.injEq] at h
        subst h
        obtain ⟨hne, hocc, hb⟩ := checkForMatchSingle_true hm
        refine ⟨⟨Or.inl rfl, rfl, rfl⟩, Or.inr (Or.inr ⟨top, ht, hne, hocc, hb, rfl, rfl, hs, ?_⟩)⟩
        have hiff : s.endComments.dropLast.length = 0 ↔ s.endComments.dropLast = [] :=
          List.length_eq_zero
        by_cases hd : s.endComments.dropLast = []
        · simp [hd]
        · simp only [hd, mt hiff.mp hd, if_false]
      | false =>
        simp only [Bool.false_eq_true, if_false] at h
        split at h
        · rename_i hguard
          cases hml : checkForMatchMultiOpen c s.index endPoint lang.MultiLineComment
              s.fileJob with
          | none => simp [hml] at h
          | some r =>
            obtain ⟨oj2, es2⟩ := r
            simp only [hml] at h
            split at h
            · cases h
              rename_i hoj
              rcases checkForMatchMultiOpen_spec hml with
                ⟨h0, _⟩ | ⟨m, hmem, hne, hlen, hcl, hocc, hb⟩
              · exact absurd h0 hoj
              · refine ⟨⟨Or.inl rfl, rfl, rfl⟩, Or.inr (Or.inl ⟨m, hmem, hne, hocc, hb, ?_, ?_, ?_,
                  ?_, ?_, ?_, ?_⟩)⟩
                · simp [hlen]
                · simp [hcl]
                · rcases hguard with hg | hg
                  · left; exact hg
                  · right; exact List.length_eq_zero.mp hg
                · rcases hs with hs | hs <;> simp [hs]
                · rcases hs with hs | hs <;> simp [hs]
                · rcases hs with hs | hs <;> simp [hs]
                · rcases hs with hs | hs <;> simp [hs, pushState]
            · cases h
              refine ⟨⟨Or.inl rfl, rfl, rfl⟩, Or.inl ⟨rfl, rfl, ?_, ?_, fun _ => Or.inl rfl⟩⟩
              · rcases hs with hs | hs <;> simp [hs, stayStates]
              · rcases hs with hs | hs <;> simp [hs]
        · cases h
          exact hstay

theorem caseBlankRest_spec {flags : Flags} {lang : LanguageFeature} {endPoint : Nat}
    {s s' : Scan} {c : Byte}
    (hs : s.currentState = S_BLANK ∨ s.currentState = S_MULTICOMMENT_BLANK)
    (h : CountStats.caseBlankRest flags lang endPoint s c = some s') :
    (s'.fileJob = s.fileJob ∨ (flags.Complexity = false ∧
      s'.fileJob = { s.fileJob with Complexity := s.fileJob.Complexity + 1 })) ∧
    s'.digest = s.digest ∧ s'.calls = s.calls ∧
    s'.index = s.index ∧ s'.endComments = s.endComments ∧
    stayStates s.currentState s'.currentState = true ∧
    (s'.currentState = S_STRING →
      ∃ m ∈ lang.StringChecks, m.Open ≠ [] ∧ s'.endString = m.Close) ∧
    (s'.currentState = S_COMMENT ∨ s'.currentState = S_COMMENT_CODE →
      ∃ m ∈ lang.SingleLineComment, m ≠ [] ∧ m <+: s.fileJob.Content.drop s.index) := by
  unfold CountStats.caseBlankRest at h
  cases hsl : checkForMatch c s.index endPoint lang.SingleLineComment s.fileJob with
  | none => simp [hsl] at h
  | some found =>
    simp only [hsl] at h
    split at h
    · cases h
      rename_i hfound
      rw [hfound] at hsl
      refine ⟨Or.inl rfl, rfl, rfl, rfl, rfl, ?_, by simp, fun _ => checkForMatch_true hsl⟩
      rcases hs with hs | hs <;> simp [hs, stayStates]
    · cases hstr : checkForMatchMultiOpen c s.index endPoint lang.StringChecks s.fileJob with
      | none => simp [hstr] at h
      | some r =>
        obtain ⟨oj, es⟩ := r
        simp only [hstr] at h
        split at h
        · cases h
          rename_i hoj
          refine ⟨Or.inl rfl, rfl, rfl, rfl, rfl, ?_, fun _ => ?_, by simp⟩
          · rcases hs with hs | hs <;> simp [hs, stayStates]
          · rcases checkForMatchMultiOpen_spec hstr with ⟨h0, _⟩ | ⟨m, hm, hne, _, hcl, _⟩
            · exact absurd h0 hoj
            · exact ⟨m, hm, hne, hcl⟩
        · obtain ⟨hj, hi, hst, hec, _, hd, hcl⟩ := complexity_frame h
          refine ⟨hj, hd, hcl, hi, hec, ?_, ?_, ?_⟩
          · rw [hst]; rcases hs with hs | hs <;> simp [hs, stayStates]
          · rw [hst]; simp
          · rw [hst]; simp

theorem caseBlank_spec {flags : Flags} {lang : LanguageFeature} {endPoint : Nat}
    {s s' : Scan} {c : Byte}
    (hs : s.currentState = S_BLANK ∨ s.currentState = S_MULTICOMMENT_BLANK)
    (h : CountStats.caseBlank flags lang endPoint s c = some s') :
    Frame flags s s' ∧ (Stay lang s s' ∨ Push lang endPoint s s') := by
  have rest : ∀ es', CountStats.caseBlankRest flags lang endPoint
      { s with endString := es' } c = some s' →
      Frame flags s s' ∧ (Stay lang s s' ∨ Push lang endPoint s s') := by
    intro es' hr
    obtain ⟨hj, hd, hcl, hi, hec, hst, hstr, hcom⟩ := @caseBlankRest_spec flags lang endPoint { s with endString := es' } s' c
      (by simpa using hs) hr
    exact ⟨⟨hj, hd, hcl⟩,
      Or.inl ⟨hi, hec, hst, fun h => Or.inr (hstr h), fun h => Or.inr (hcom h)⟩⟩
  unfold CountStats.caseBlank at h
  split at h
  · rename_i hguard
    cases hml : checkForMatchMultiOpen c s.index endPoint lang.MultiLineComment s.fileJob with
    | none => simp [hml] at h
    | some r =>
      obtain ⟨oj2, es2⟩ := r
      simp only [hml] at h
      split at h
      · cases h
        rename_i hoj
        rcases checkForMatchMultiOpen_spec hml with
          ⟨h0, _⟩ | ⟨m, hmem, hne, hlen, hcl, hocc, hb⟩
        · exact absurd h0 hoj
        · refine ⟨⟨Or.inl rfl, rfl, rfl⟩, Or.inr ⟨m, hmem, hne, hocc, hb, ?_, ?_, ?_,
            ?_, ?_, ?_, ?_⟩⟩
          · simp [hlen]
          · simp [hcl]
          · rcases hguard with hg | hg
            · left; exact hg
            · right; exact List.length_eq_zero.mp hg
          · rcases hs with hs | hs <;> simp [hs]
          · rcases hs with hs | hs <;> simp [hs]
          · rcases hs with hs | hs <;> simp [hs]
          · rcases hs with hs | hs <;> simp [hs, pushState]
      · exact rest _ h
  · have := rest s.endString (by simpa using h)
    exact this

theorem dispatch_spec {flags : Flags} {lang : LanguageFeature} {endPoint : Nat}
    {s s' : Scan} {c : Byte}
    (h : CountStats.dispatch flags lang endPoint s c = some s') :
    Frame flags s s' ∧ (Stay lang s s' ∨ Push lang endPoint s s' ∨ Pop endPoint s s') := by
  unfold CountStats.dispatch at h
  split at h
  · rename_i hs
    obtain ⟨hf, hm⟩ := caseCode_spec hs h
    exact ⟨hf, hm.elim Or.inl (fun x => Or.inr (Or.inl x))⟩
  · rename_i hs
    obtain ⟨hf, hm⟩ := caseString_spec lang flags hs h
    exact ⟨hf, Or.inl hm⟩
  · rename_i hs
    exact caseMulti_spec (Or.inl hs) h
  · rename_i hs
    exact caseMulti_spec (Or.inr hs) h
  · rename_i hs
    obtain ⟨hf, hm⟩ := caseBlank_spec (Or.inl hs) h
    exact ⟨hf, hm.elim Or.inl (fun x => Or.inr (Or.inl x))⟩
  · rename_i hs
    obtain ⟨hf, hm⟩ := caseBlank_spec (Or.inr hs) h
    exact ⟨hf, hm.elim Or.inl (fun x => Or.inr (Or.inl x))⟩
  · rename_i hs
    cases h
    exact ⟨⟨Or.inl rfl, rfl, rfl⟩,
      Or.inl ⟨rfl, rfl, by simp [hs, stayStates], by simp [hs], fun _ => Or.inl rfl⟩⟩
  · rename_i hs
    cases h
    exact ⟨⟨Or.inl rfl, rfl, rfl⟩,
      Or.inl ⟨rfl, rfl, by simp [hs, stayStates], by simp [hs], fun _ => Or.inl rfl⟩⟩

/-! ### The line commit, the loop body and the loop -/

theorem invoke_spec (callback : Option Callback) (s : Scan) (lineType : LineType) :
    ∃ s', s'.fileJob = s.fileJob ∧ s'.index = s.index ∧ s'.currentState = s.currentState ∧
      s'.endComments = s.endComments ∧ s'.endString = s.endString ∧ s'.digest = s.digest ∧
      ((callback = none ∧ s'.calls = s.calls ∧
          CountStats.invoke callback s lineType = Step.next s') ∨
       (∃ processLine, callback = some processLine ∧
          s'.calls = s.calls ++
            [{ job := s.fileJob, currentLine := s.fileJob.Lines, lineType := lineType }] ∧
          ((processLine s'.calls = true ∧
              CountStats.invoke callback s lineType = Step.next s') ∨
           (processLine s'.calls = false ∧
              CountStats.invoke callback s lineType = Step.ret s')))) := by
  unfold CountStats.invoke
  cases callback with
  | none => exact ⟨s, rfl, rfl, rfl, rfl, rfl, rfl, Or.inl ⟨rfl, rfl, rfl⟩⟩
  | some f =>
    simp only
    cases hf : f (s.calls ++
        [{ job := s.fileJob, currentLine := s.fileJob.Lines, lineType := lineType }]) with
    | false =>
      exact ⟨{ s with calls := s.calls ++
          [{ job := s.fileJob, currentLine := s.fileJob.Lines, lineType := lineType }] },
        rfl, rfl, rfl, rfl, rfl, rfl, Or.inr ⟨f, rfl, rfl, Or.inr ⟨hf, by simp⟩⟩⟩
    | true =>
      exact ⟨{ s with calls := s.calls ++
          [{ job := s.fileJob, currentLine := s.fileJob.Lines, lineType := lineType }] },
        rfl, rfl, rfl, rfl, rfl, rfl, Or.inr ⟨f, rfl, rfl, Or.inl ⟨hf, by simp⟩⟩⟩

theorem commit_eq (callback : Option Callback) (s : Scan) :
    CountStats.commit callback s =
      CountStats.invoke callback
        { s with
          fileJob := countLine (lineTypeOf s.currentState) s.fileJob
          currentState := resetState s.currentState } (lineTypeOf s.currentState) := by
  unfold CountStats.commit
  cases hs : s.currentState <;> simp [hs, countLine, lineTypeOf, resetState]

theorem countLine_Lines (lineType : LineType) (j : FileJob) :
    (countLine lineType j).Lines = j.Lines + 1 := by
  cases lineType <;> rfl

theorem commit_spec (callback : Option Callback) (s : Scan) :
    Committed callback s (CountStats.commit callback s) := by
  rw [commit_eq]
  obtain ⟨s', h1, h2, h3, h4, h5, _, h7⟩ := invoke_spec callback
    { s with
      fileJob := countLine (lineTypeOf s.currentState) s.fileJob
      currentState := resetState s.currentState } (lineTypeOf s.currentState)
  refine ⟨s', h1, h2, h3, h4, h5, ?_⟩
  rcases h7 with ⟨hc, hcalls, hout⟩ | ⟨f, hc, hcalls, hout⟩
  · exact Or.inl ⟨hc, hcalls, hout⟩
  · refine Or.inr ⟨f, hc, ?_, hout⟩
    rw [hcalls, h1]

theorem body_cases {flags : Flags} {lang : LanguageFeature} {callback : Option Callback}
    {endPoint : Nat} {s : Scan} {out : Step}
    (h : CountStats.body flags lang callback endPoint s = some out) :
    ∃ c, s.fileJob.Content[s.index]? = some c ∧
      ∃ s1 : Scan, s1.fileJob = s.fileJob ∧ s1.index = s.index ∧
        s1.currentState = s.currentState ∧ s1.endComments = s.endComments ∧
        s1.endString = s.endString ∧ s1.calls = s.calls ∧
      ((s1.index < 10000 ∧ isBinary flags c = true ∧
          out = Step.ret { s1 with fileJob := { s1.fileJob with Binary := true } }) ∨
       (¬ (s1.index < 10000 ∧ isBinary flags c = true) ∧
         ∃ s2, ((isWhitespace c = true ∧ s2 = s1) ∨
             (isWhitespace c = false ∧
               CountStats.dispatch flags lang endPoint s1 c = some s2)) ∧
           ∃ last, s2.fileJob.Content[s2.index]? = some last ∧
             (((last = 10 ∨ s2.index ≥ endPoint) ∧ out = CountStats.commit callback s2) ∨
              (¬ (last = 10 ∨ s2.index ≥ endPoint) ∧ out = Step.next s2)))) := by
  unfold CountStats.body at h
  cases hc : s.fileJob.Content[s.index]? with
  | none => simp [hc] at h
  | some c =>
    simp only [hc] at h
    refine ⟨c, rfl, (if flags.Duplicates = true then { s with digest := s.digest ++ [c] } else s),
      ?_, ?_, ?_, ?_, ?_, ?_, ?_⟩
    · split <;> rfl
    · split <;> rfl
    · split <;> rfl
    · split <;> rfl
    · split <;> rfl
    · split <;> rfl
    · generalize (if flags.Duplicates = true then { s with digest := s.digest ++ [c] } else s)
        = s1 at h
      by_cases hbin : s1.index < 10000 ∧ isBinary flags c = true
      · left
        rw [if_pos hbin] at h
        exact ⟨hbin.1, hbin.2, (Option.some.inj h).symm⟩
      · right
        rw [if_neg hbin] at h
        refine ⟨hbin, ?_⟩
        cases hw : isWhitespace c with
        | true =>
          simp only [hw, Bool.not_true, Bool.false_eq_true, if_false] at h
          refine ⟨s1, Or.inl ⟨rfl, rfl⟩, ?_⟩
          cases hl : s1.fileJob.Content[s1.index]? with
          | none => simp [hl] at h
          | some last =>
            simp only [hl] at h
            refine ⟨last, rfl, ?_⟩
            by_cases hcm : last = 10 ∨ s1.index ≥ endPoint
            · rw [if_pos hcm] at h; exact Or.inl ⟨hcm, (Option.some.inj h).symm⟩
            · rw [if_neg hcm] at h; exact Or.inr ⟨hcm, (Option.some.inj h).symm⟩
        | false =>
          simp only [hw, Bool.not_false, if_true] at h
          cases hd : CountStats.dispatch flags lang endPoint s1 c with
          | none => simp [hd] at h
          | some s2 =>
            simp only [hd] at h
            refine ⟨s2, Or.inr ⟨rfl, rfl⟩, ?_⟩
            cases hl : s2.fileJob.Content[s2.index]? with
            | none => simp [hl] at h
            | some last =>
              simp only [hl] at h
              refine ⟨last, rfl, ?_⟩
              by_cases hcm : last = 10 ∨ s2.index ≥ endPoint
              · rw [if_pos hcm] at h; exact Or.inl ⟨hcm, (Option.some.inj h).symm⟩
              · rw [if_neg hcm] at h; exact Or.inr ⟨hcm, (Option.some.inj h).symm⟩

theorem loop_invariant (flags : Flags) (lang : LanguageFeature) (callback : Option Callback)
    (endPoint : Nat) (Inv Post : Scan → Prop)
    (hnext : ∀ s s', Inv s → s.index < s.fileJob.Content.length →
      CountStats.body flags lang callback endPoint s = some (Step.next s') →
      Inv { s' with index := s'.index + 1 })
    (hret : ∀ s r, Inv s → s.index < s.fileJob.Content.length →
      CountStats.body flags lang callback endPoint s = some (Step.ret r) → Post r)
    (hfin : ∀ s, Inv s → ¬ s.index < s.fileJob.Content.length →
      Post (CountStats.finish flags s)) :
    ∀ (fuel : Nat) (s r : Scan), Inv s →
      CountStats.loop flags lang callback endPoint fuel s = some r → Post r := by
  intro fuel
  induction fuel with
  | zero =>
    intro s r hinv h
    unfold CountStats.loop at h
    by_cases hlt : s.index < s.fileJob.Content.length
    · simp [hlt] at h
    · rw [if_neg hlt] at h
      cases h
      exact hfin s hinv hlt
  | succ fuel ih =>
    intro s r hinv h
    unfold CountStats.loop at h
    by_cases hlt : s.index < s.fileJob.Content.length
    · rw [if_pos hlt] at h
      cases hb : CountStats.body flags lang callback endPoint s with
      | none => simp [hb] at h
      | some out =>
        cases out with
        | ret r' =>
          simp only [hb] at h
          cases h
          exact hret s r hinv hlt hb
        | next s' =>
          simp only [hb] at h
          exact ih _ r (hnext s s' hinv hlt hb) h
    · rw [if_neg hlt] at h
      cases h
      exact hfin s hinv hlt

theorem loop_total (flags : Flags) (lang : LanguageFeature) (callback : Option Callback)
    (endPoint : Nat) (Inv : Scan → Prop)
    (hbody : ∀ s, Inv s → s.index < s.fileJob.Content.length →
      ∃ out, CountStats.body flags lang callback endPoint s = some out ∧
        ∀ s', out = Step.next s' →
          Inv { s' with index := s'.index + 1 } ∧ s.index ≤ s'.index ∧
          s'.fileJob.Content.length = s.fileJob.Content.length) :
    ∀ (fuel : Nat) (s : Scan), Inv s → s.fileJob.Content.length - s.index ≤ fuel →
      ∃ r, CountStats.loop flags lang callback endPoint fuel s = some r := by
  intro fuel
  induction fuel with
  | zero =>
    intro s _ hf
    unfold CountStats.loop
    have hlt : ¬ s.index < s.fileJob.Content.length := by omega
    rw [if_neg hlt]
    exact ⟨_, rfl⟩
  | succ fuel ih =>
    intro s hinv hf
    unfold CountStats.loop
    by_cases hlt : s.index < s.fileJob.Content.length
    · rw [if_pos hlt]
      obtain ⟨out, hb, hn⟩ := hbody s hinv hlt
      rw [hb]
      cases out with
      | ret r' => exact ⟨_, rfl⟩
      | next s' =>
        obtain ⟨hinv', hidx, hlen⟩ := hn s' rfl
        simp only
        apply ih _ hinv'
        simp only [hlen]
        omega
    · rw [if_neg hlt]
      exact ⟨_, rfl⟩

/-! ### The coupling of state and comment stack -/

theorem Frame_content {flags : Flags} {s s' : Scan} (h : Frame flags s s') :
    s'.fileJob.Content = s.fileJob.Content := by
  rcases h.1 with h | ⟨_, h⟩ <;> rw [h]

theorem Coupled_start (lang : LanguageFeature) (fileJob : FileJob) :
    Coupled lang (CountStats.start fileJob) := by
  simp [Coupled, CountStats.start]

theorem Coupled_of_fields {lang : LanguageFeature} {s s' : Scan} (h : Coupled lang s)
    (h1 : s'.currentState = s.currentState) (h2 : s'.endComments = s.endComments)
    (h3 : s'.endString = s.endString) : Coupled lang s' := by
  unfold Coupled at h ⊢
  rw [h1, h2, h3]
  exact h

theorem Coupled_dispatch {flags : Flags} {lang : LanguageFeature} {endPoint : Nat}
    {s s' : Scan} {c : Byte} (hinv : Coupled lang s)
    (h : CountStats.dispatch flags lang endPoint s c = some s') : Coupled lang s' := by
  obtain ⟨hi1, hi2, hi3, hi4⟩ := hinv
  obtain ⟨_, hmove⟩ := dispatch_spec h
  rcases hmove with ⟨_, hstack, hst, hstr, _⟩ |
    ⟨m, hm, _, _, _, _, hstack, hguard, h1, h2, h3, hst⟩ |
    ⟨top, hlast, _, _, _, _, hstack, hin, hst⟩
  · refine ⟨?_, by rw [hstack]; exact hi2, by rw [hstack]; exact hi3, ?_⟩
    · rw [hstack, ← hi1]
      revert hst
      cases s.currentState <;> cases s'.currentState <;> simp [stayStates]
    · intro hs'
      rcases hstr hs' with ⟨hs, he⟩ | ⟨m, hm, _, he⟩
      · rw [he]; exact hi4 hs
      · exact ⟨m, hm, he⟩
  · refine ⟨?_, ?_, ?_, ?_⟩
    · rw [hstack, hst]
      have : pushState s.currentState = S_MULTICOMMENT ∨
          pushState s.currentState = S_MULTICOMMENT_CODE := by
        cases s.currentState <;> simp [pushState]
      simp [this]
    · intro hn
      rcases hguard with hg | hg
      · rw [hg] at hn; cases hn
      · rw [hstack, hg]; simp
    · intro e he
      rw [hstack] at he
      rcases List.mem_append.mp he with he | he
      · exact hi3 e he
      · exact ⟨m, hm, by simpa using he⟩
    · intro hs'
      rw [hst] at hs'
      revert hs'
      cases s.currentState <;> simp [pushState]
  · refine ⟨?_, ?_, ?_, ?_⟩
    · rw [hstack, hst]
      by_cases hd : s.endComments.dropLast = []
      · simp only [hd, if_true, ne_eq, not_true_eq_false, iff_false]
        split <;> simp
      · simp only [hd, if_false, ne_eq, not_false_eq_true, iff_true]
        exact hin
    · intro hn
      rw [hstack, List.length_dropLast]
      have := hi2 hn
      omega
    · intro e he
      rw [hstack] at he
      exact hi3 e (List.mem_of_mem_dropLast he)
    · intro hs'
      rw [hst] at hs'
      exfalso
      revert hs'
      rcases hin with hin | hin <;> rw [hin] <;> split <;> simp

theorem Coupled_reset {lang : LanguageFeature} {s s' : Scan} (h : Coupled lang s)
    (h1 : s'.currentState = resetState s.currentState) (h2 : s'.endComments = s.endComments)
    (h3 : s'.endString = s.endString) : Coupled lang s' := by
  obtain ⟨hi1, hi2, hi3, hi4⟩ := h
  refine ⟨?_, by rw [h2]; exact hi2, by rw [h2]; exact hi3, ?_⟩
  · rw [h2, ← hi1, h1]
    cases s.currentState <;> simp [resetState]
  · intro hs'
    rw [h3]
    apply hi4
    rw [h1] at hs'
    revert hs'
    cases s.currentState <;> simp [resetState]

/-! ### No out-of-range access -/

theorem complexity_isSome (flags : Flags) {lang : LanguageFeature} {endPoint : Nat}
    (s : Scan) (c : Byte) (hne : lang.NonEmpty)
    (hend : endPoint < s.fileJob.Content.length) (hidx : s.index ≤ s.fileJob.Content.length) :
    ∃ s', CountStats.complexity flags lang endPoint s c = some s' := by
  unfold CountStats.complexity
  obtain ⟨n, hn⟩ := checkComplexity_isSome c s.index endPoint s.fileJob hend hidx
    lang.ComplexityChecks lang.ComplexityBytes hne.2.2.2
  rw [hn]
  split
  · simp only
    split <;> exact ⟨_, rfl⟩
  · exact ⟨_, rfl⟩

theorem caseCode_isSome (flags : Flags) {lang : LanguageFeature} {endPoint : Nat}
    (s : Scan) (c : Byte) (hne : lang.NonEmpty)
    (hend : endPoint < s.fileJob.Content.length) (hidx : s.index ≤ s.fileJob.Content.length) :
    ∃ s', CountStats.caseCode flags lang endPoint s c = some s' := by
  unfold CountStats.caseCode
  obtain ⟨r1, h1⟩ := checkForMatchMultiOpen_isSome c s.index endPoint lang.StringChecks
    s.fileJob hend (fun m hm => (hne.2.2.1 m hm).1)
  obtain ⟨b, h2⟩ := checkForMatch_isSome c s.index endPoint s.fileJob (Nat.le_of_lt hend)
    lang.SingleLineComment hne.1
  obtain ⟨r3, h3⟩ := checkForMatchMultiOpen_isSome c s.index endPoint lang.MultiLineComment
    s.fileJob hend (fun m hm => (hne.2.1 m hm).1)
  obtain ⟨n1, e1⟩ := r1
  obtain ⟨n3, e3⟩ := r3
  simp only [h1, h2, h3]
  have hc : ∀ es, ∃ s', CountStats.complexity flags lang endPoint
      { s with endString := es } c = some s' :=
    fun es => complexity_isSome flags { s with endString := es } c hne hend hidx
  split
  · exact ⟨_, rfl⟩
  · split
    · exact ⟨_, rfl⟩
    · split
      · exact ⟨_, rfl⟩
      · split
        · split
          · exact ⟨_, rfl⟩
          · exact hc _
        · exact hc _

theorem caseString_isSome {endPoint : Nat} (s : Scan) (c : Byte)
    (hend : endPoint < s.fileJob.Content.length) (hidx : s.index ≤ s.fileJob.Content.length)
    (hpos : 0 < s.index) (hes : s.endString ≠ []) :
    ∃ s', CountStats.caseString endPoint s c = some s' := by
  unfold CountStats.caseString
  have h0 : ¬ s.index = 0 := by omega
  have hlt : s.index - 1 < s.fileJob.Content.length := by omega
  obtain ⟨b, hb⟩ := checkForMatchSingle_isSome c s.index endPoint s.fileJob hes
    (Nat.le_of_lt hend)
  rw [if_neg h0, List.getElem?_eq_getElem hlt, hb]
  simp only
  split
  · split <;> exact ⟨_, rfl⟩
  · exact ⟨_, rfl⟩

theorem caseMulti_isSome {lang : LanguageFeature} {endPoint : Nat}
    (s : Scan) (c : Byte) (hne : lang.NonEmpty)
    (hend : endPoint < s.fileJob.Content.length)
    (hstack : s.endComments ≠ []) (hclose : ∀ e ∈ s.endComments, e ≠ []) :
    ∃ s', CountStats.caseMulti lang endPoint s c = some s' := by
  unfold CountStats.caseMulti
  cases ht : s.endComments.getLast? with
  | none => exact absurd (List.getLast?_eq_none_iff.mp ht) hstack
  | some top =>
    have htop : top ≠ [] := hclose top (List.mem_of_getLast?_eq_some ht)
    obtain ⟨b, hb⟩ := checkForMatchSingle_isSome c s.index endPoint s.fileJob htop
      (Nat.le_of_lt hend)
    obtain ⟨r3, h3⟩ := checkForMatchMultiOpen_isSome c s.index endPoint lang.MultiLineComment
      s.fileJob hend (fun m hm => (hne.2.1 m hm).1)
    obtain ⟨n3, e3⟩ := r3
    simp only [hb, h3]
    split
    · exact ⟨_, rfl⟩
    · split
      · split <;> exact ⟨_, rfl⟩
      · exact ⟨_, rfl⟩

theorem caseBlankRest_isSome (flags : Flags) {lang : LanguageFeature} {endPoint : Nat}
    (s : Scan) (c : Byte) (hne : lang.NonEmpty)
    (hend : endPoint < s.fileJob.Content.length) (hidx : s.index ≤ s.fileJob.Content.length) :
    ∃ s', CountStats.caseBlankRest flags lang endPoint s c = some s' := by
  unfold CountStats.caseBlankRest
  obtain ⟨r1, h1⟩ := checkForMatchMultiOpen_isSome c s.index endPoint lang.StringChecks
    s.fileJob hend (fun m hm => (hne.2.2.1 m hm).1)
  obtain ⟨b, h2⟩ := checkForMatch_isSome c s.index endPoint s.fileJob (Nat.le_of_lt hend)
    lang.SingleLineComment hne.1
  obtain ⟨n1, e1⟩ := r1
  simp only [h1, h2]
  split
  · exact ⟨_, rfl⟩
  · split
    · exact ⟨_, rfl⟩
    · exact complexity_isSome flags _ c hne hend hidx

theorem caseBlank_isSome (flags : Flags) {lang : LanguageFeature} {endPoint : Nat}
    (s : Scan) (c : Byte) (hne : lang.NonEmpty)
    (hend : endPoint < s.fileJob.Content.length) (hidx : s.index ≤ s.fileJob.Content.length) :
    ∃ s', CountStats.caseBlank flags lang endPoint s c = some s' := by
  unfold CountStats.caseBlank
  obtain ⟨r3, h3⟩ := checkForMatchMultiOpen_isSome c s.index endPoint lang.MultiLineComment
    s.fileJob hend (fun m hm => (hne.2.1 m hm).1)
  obtain ⟨n3, e3⟩ := r3
  rw [h3]
  split
  · simp only
    split
    · exact ⟨_, rfl⟩
    · exact caseBlankRest_isSome flags { s with endString := e3 } c hne hend hidx
  · exact caseBlankRest_isSome flags s c hne hend hidx

theorem dispatch_isSome (flags : Flags) {lang : LanguageFeature} {endPoint : Nat}
    (s : Scan) (c : Byte) (hne : lang.NonEmpty) (hinv : Coupled lang s)
    (hend : endPoint < s.fileJob.Content.length) (hidx : s.index ≤ s.fileJob.Content.length)
    (hpos : s.currentState = S_STRING → 0 < s.index) :
    ∃ s', CountStats.dispatch flags lang endPoint s c = some s' := by
  obtain ⟨hi1, _, hi3, hi4⟩ := hinv
  have hclose : ∀ e ∈ s.endComments, e ≠ [] := by
    intro e he
    obtain ⟨m, hm, rfl⟩ := hi3 e he
    exact (hne.2.1 m hm).2
  unfold CountStats.dispatch
  split
  · exact caseCode_isSome flags s c hne hend hidx
  · rename_i hs
    obtain ⟨m, hm, he⟩ := hi4 hs
    exact caseString_isSome s c hend hidx (hpos hs) (by rw [he]; exact (hne.2.2.1 m hm).2)
  · rename_i hs
    exact caseMulti_isSome s c hne hend (hi1.mp (Or.inl hs)) hclose
  · rename_i hs
    exact caseMulti_isSome s c hne hend (hi1.mp (Or.inr hs)) hclose
  · exact caseBlank_isSome flags s c hne hend hidx
  · exact caseBlank_isSome flags s c hne hend hidx
  · exact ⟨_, rfl⟩
  · exact ⟨_, rfl⟩

theorem dispatch_index {flags : Flags} {lang : LanguageFeature} {endPoint : Nat}
    {s s' : Scan} {c : Byte} (h : CountStats.dispatch flags lang endPoint s c = some s')
    (hidx : s.index ≤ endPoint) : s.index ≤ s'.index ∧ s'.index ≤ endPoint := by
  obtain ⟨_, hmove⟩ := dispatch_spec h
  rcases hmove with ⟨hi, _⟩ | ⟨m, _, hne, _, hb, hi, _⟩ | ⟨top, _, hne, _, hb, hi, _⟩
  · omega
  · have := List.length_pos.mpr hne; omega
  · have := List.length_pos.mpr hne; omega

theorem Safe_start (lang : LanguageFeature) (fileJob : FileJob) :
    Safe lang fileJob.Content (CountStats.start fileJob) :=
  ⟨rfl, Coupled_start lang fileJob, Nat.zero_le _, by simp [CountStats.start]⟩

/-- One iteration keeps `Safe`, and the index it leaves (before `index++`) lies
between the index it started from and `endPoint`. -/
theorem body_safe {flags : Flags} {lang : LanguageFeature} {callback : Option Callback}
    {endPoint : Nat} {content : List Byte} {s : Scan} {out : Step}
    (hend : endPoint + 1 = content.length) (hinv : Safe lang content s)
    (hlt : s.index < content.length)
    (h : CountStats.body flags lang callback endPoint s = some out) :
    ∀ s', out = Step.next s' ∨ out = Step.ret s' →
      (out = Step.next s' → Safe lang content { s' with index := s'.index + 1 }) ∧
      s'.fileJob.Content = content ∧ s.index ≤ s'.index ∧ s'.index ≤ endPoint := by
  obtain ⟨hcont, hcoup, _, _⟩ := hinv
  obtain ⟨c, _, s1, e1, e2, e3, e4, e5, _, hcases⟩ := body_cases h
  have hcoup1 : Coupled lang s1 := Coupled_of_fields hcoup e3 e4 e5
  intro s' hout
  rcases hcases with ⟨_, _, hret⟩ | ⟨_, s2, hmv, last, _, hcm⟩
  · subst hret
    rcases hout with hout | hout
    · cases hout
    · cases hout
      refine ⟨fun hn => (by cases hn), ?_, ?_, ?_⟩
      · simp [e1, hcont]
      · simp [e2]
      · simp only [e2]; omega
  · have h2 : Coupled lang s2 ∧ s2.fileJob.Content = content ∧ s.index ≤ s2.index ∧
        s2.index ≤ endPoint := by
      rcases hmv with ⟨_, rfl⟩ | ⟨_, hd⟩
      · exact ⟨hcoup1, by rw [e1, hcont], by rw [e2], by rw [e2]; omega⟩
      · have hi := dispatch_index hd (by rw [e2]; omega)
        refine ⟨Coupled_dispatch hcoup1 hd, ?_, ?_, hi.2⟩
        · rw [Frame_content (dispatch_spec hd).1, e1, hcont]
        · rw [← e2]; exact hi.1
    obtain ⟨hc2, hcont2, hle2, hep2⟩ := h2
    rcases hcm with ⟨_, hout'⟩ | ⟨_, hout'⟩
    · obtain ⟨s3, hj, hi, hst, hec, hes, hs3⟩ := commit_spec callback s2
      have hs3' : s' = s3 := by
        rw [hout'] at hout
        rcases hs3 with ⟨_, _, hs3⟩ | ⟨_, _, _, ⟨_, hs3⟩ | ⟨_, hs3⟩⟩ <;> rw [hs3] at hout <;>
          rcases hout with hout | hout <;> cases hout <;> rfl
      subst hs3'
      have hcont3 : s'.fileJob.Content = content := by
        rw [hj, ← hcont2]
        cases lineTypeOf s2.currentState <;> rfl
      refine ⟨fun _ => ⟨hcont3, ?_, ?_, ?_⟩, hcont3, by omega, by omega⟩
      · exact Coupled_of_fields (Coupled_reset hc2 hst hec hes) rfl rfl rfl
      · simp only; omega
      · intro _; simp
    · have hs2 : s' = s2 := by
        rw [hout'] at hout
        rcases hout with hout | hout <;> cases hout
        rfl
      subst hs2
      refine ⟨fun _ => ⟨hcont2, ?_, ?_, ?_⟩, hcont2, hle2, hep2⟩
      · exact Coupled_of_fields hc2 rfl rfl rfl
      · simp only; omega
      · intro _; simp

theorem body_isSome (flags : Flags) {lang : LanguageFeature} (callback : Option Callback)
    {endPoint : Nat} {content : List Byte} {s : Scan} (hne : lang.NonEmpty)
    (hend : endPoint + 1 = content.length) (hinv : Safe lang content s)
    (hlt : s.index < content.length) :
    ∃ out, CountStats.body flags lang callback endPoint s = some out := by
  obtain ⟨hcont, hcoup, _, hstr⟩ := hinv
  unfold CountStats.body
  have hlt' : s.index < s.fileJob.Content.length := by rw [hcont]; exact hlt
  rw [List.getElem?_eq_getElem hlt']
  simp only
  generalize hs1 : (if flags.Duplicates = true
    then ({ s with digest := s.digest ++ [s.fileJob.Content[s.index]] } : Scan) else s) = s1
  have e1 : s1.fileJob = s.fileJob := by subst hs1; split <;> rfl
  have e2 : s1.index = s.index := by subst hs1; split <;> rfl
  have e3 : s1.currentState = s.currentState := by subst hs1; split <;> rfl
  have e4 : s1.endComments = s.endComments := by subst hs1; split <;> rfl
  have e5 : s1.endString = s.endString := by subst hs1; split <;> rfl
  have hcoup1 : Coupled lang s1 := Coupled_of_fields hcoup e3 e4 e5
  split
  · exact ⟨_, rfl⟩
  · have hd : ∃ s2, (if (!isWhitespace s.fileJob.Content[s.index]) = true
          then CountStats.dispatch flags lang endPoint s1 s.fileJob.Content[s.index]
          else some s1) = some s2 ∧ s2.fileJob.Content = content ∧ s2.index ≤ endPoint := by
      split
      · obtain ⟨s2, hs2⟩ := @dispatch_isSome flags lang endPoint s1
          s.fileJob.Content[s.index] hne hcoup1
          (by rw [e1, hcont]; omega) (by rw [e1, e2, hcont]; omega)
          (by rw [e2, e3]; exact hstr)
        refine ⟨s2, hs2, ?_, ?_⟩
        · rw [Frame_content (dispatch_spec hs2).1, e1, hcont]
        · exact (dispatch_index hs2 (by rw [e2]; omega)).2
      · exact ⟨s1, rfl, by rw [e1, hcont], by rw [e2]; omega⟩
    obtain ⟨s2, hs2, hc2, hi2⟩ := hd
    rw [hs2]
    have hlt2 : s2.index < s2.fileJob.Content.length := by rw [hc2]; omega
    simp only [List.getElem?_eq_getElem hlt2]
    split <;> exact ⟨_, rfl⟩

/-! ### The whole run -/

theorem run_eq (flags : Flags) (lang : LanguageFeature) (callback : Option Callback)
    (fileJob : FileJob) :
    CountStats.run flags lang callback fileJob =
      if fileJob.Content = [] then
        some { CountStats.start fileJob with
          fileJob := { fileJob with Bytes := fileJob.Content.length, Lines := 0 } }
      else
        CountStats.loop flags lang callback (fileJob.Content.length - 1) fileJob.Content.length
          (CountStats.start fileJob) := by
  unfold CountStats.run CountStats.start
  by_cases h : fileJob.Content = []
  · simp [h]
  · have hpos : 0 < fileJob.Content.length := List.length_pos.mpr h
    have h0 : ¬ ((fileJob.Content.length : Int) = 0) := by omega
    have h1 : ((fileJob.Content.length : Int) - 1).toNat = fileJob.Content.length - 1 := by omega
    simp only [h, h0, if_false, h1]

theorem loop_isSome (flags : Flags) {lang : LanguageFeature} (callback : Option Callback)
    {endPoint : Nat} {content : List Byte} (hne : lang.NonEmpty)
    (hend : endPoint + 1 = content.length) (fuel : Nat) (s : Scan)
    (hinv : Safe lang content s) (hfuel : content.length - s.index ≤ fuel) :
    ∃ r, CountStats.loop flags lang callback endPoint fuel s = some r := by
  refine loop_total flags lang callback endPoint (Safe lang content) ?_ fuel s hinv
    (by rw [hinv.1]; exact hfuel)
  intro s hs hlt
  have hlt' : s.index < content.length := by rw [← hs.1]; exact hlt
  obtain ⟨out, hout⟩ := body_isSome flags callback hne hend hs hlt'
  refine ⟨out, hout, fun s' hs' => ?_⟩
  obtain ⟨h1, h2, h3, _⟩ := body_safe hend hs hlt' hout s' (Or.inl hs')
  exact ⟨h1 hs', h3, by rw [h2, hs.1]⟩

theorem run_isSome (flags : Flags) {lang : LanguageFeature} (callback : Option Callback)
    (fileJob : FileJob) (hne : lang.NonEmpty) :
    ∃ r, CountStats.run flags lang callback fileJob = some r := by
  rw [run_eq]
  split
  · exact ⟨_, rfl⟩
  · rename_i h
    have hpos : 0 < fileJob.Content.length := List.length_pos.mpr h
    exact loop_isSome flags callback hne (by omega) _ _ (Safe_start lang fileJob)
      (by simp [CountStats.start])

/-- Invariant rule for the whole run: an invariant of the loop head
that holds of the start and is kept by the body gives a postcondition. -/
theorem run_invariant (flags : Flags) (lang : LanguageFeature) (callback : Option Callback)
    (fileJob : FileJob) (Inv Post : Scan → Prop)
    (hempty : fileJob.Content = [] → Post { CountStats.start fileJob with
          fileJob := { fileJob with Bytes := fileJob.Content.length, Lines := 0 } })
    (hstart : fileJob.Content ≠ [] → Inv (CountStats.start fileJob))
    (hnext : ∀ s s', Safe lang fileJob.Content s → Inv s → s.index < fileJob.Content.length →
      CountStats.body flags lang callback (fileJob.Content.length - 1) s = some (Step.next s') →
      Inv { s' with index := s'.index + 1 })
    (hret : ∀ s r, Safe lang fileJob.Content s → Inv s → s.index < fileJob.Content.length →
      CountStats.body flags lang callback (fileJob.Content.length - 1) s = some (Step.ret r) →
      Post r)
    (hfin : ∀ s, Safe lang fileJob.Content s → Inv s → s.index = fileJob.Content.length →
      Post (CountStats.finish flags s))
    {r : Scan} (h : CountStats.run flags lang callback fileJob = some r) : Post r := by
  rw [run_eq] at h
  by_cases he : fileJob.Content = []
  · rw [if_pos he] at h
    cases h
    exact hempty he
  · rw [if_neg he] at h
    have hpos : 0 < fileJob.Content.length := List.length_pos.mpr he
    have hend : fileJob.Content.length - 1 + 1 = fileJob.Content.length := by omega
    refine loop_invariant flags lang callback (fileJob.Content.length - 1)
      (fun s => Safe lang fileJob.Content s ∧ Inv s) Post ?_ ?_ ?_ _ _ r
      ⟨Safe_start lang fileJob, hstart he⟩ h
    · intro s s' ⟨hs, hi⟩ hlt hb
      have hlt' : s.index < fileJob.Content.length := by rw [← hs.1]; exact hlt
      exact ⟨(body_safe hend hs hlt' hb s' (Or.inl rfl)).1 rfl, hnext s s' hs hi hlt' hb⟩
    · intro s r' ⟨hs, hi⟩ hlt hb
      have hlt' : s.index < fileJob.Content.length := by rw [← hs.1]; exact hlt
      exact hret s r' hs hi hlt' hb
    · intro s ⟨hs, hi⟩ hlt
      have hle := hs.2.2.1
      rw [hs.1] at hlt
      exact hfin s hs hi (by omega)

theorem Moved_content {flags : Flags} {lang : LanguageFeature} {endPoint : Nat} {c : Byte}
    {s s2 : Scan} (h : Moved flags lang endPoint c s s2) :
    s2.fileJob.Content = s.fileJob.Content := by
  rcases h with ⟨_, h, _⟩ | ⟨_, h | ⟨_, h⟩, _⟩ <;> rw [h]

/-- One loop iteration, summarised: either the binary return, or a move
followed by the end-of-line block when the byte under the (moved) index is a
newline or the index has reached `endPoint`. -/
theorem body_step {flags : Flags} {lang : LanguageFeature} {callback : Option Callback}
    {endPoint : Nat} {s : Scan} {out : Step}
    (h : CountStats.body flags lang callback endPoint s = some out) :
    ∃ c, s.fileJob.Content[s.index]? = some c ∧
      ((s.index < 10000 ∧ isBinary flags c = true ∧
          ∃ r, out = Step.ret r ∧ r.fileJob = { s.fileJob with Binary := true } ∧
            r.calls = s.calls) ∨
       (¬ (s.index < 10000 ∧ isBinary flags c = true) ∧
         ∃ s2, Moved flags lang endPoint c s s2 ∧
           ∃ last, s.fileJob.Content[s2.index]? = some last ∧
             (((last = 10 ∨ s2.index ≥ endPoint) ∧ Committed callback s2 out) ∨
              (¬ (last = 10 ∨ s2.index ≥ endPoint) ∧ out = Step.next s2)))) := by
  obtain ⟨c, hc, s1, e1, e2, e3, e4, e5, e6, hcases⟩ := body_cases h
  refine ⟨c, hc, ?_⟩
  rcases hcases with ⟨hb1, hb2, hret⟩ | ⟨hnb, s2, hmv, last, hlast, hcm⟩
  · left
    exact ⟨by rw [← e2]; exact hb1, hb2, _, hret, by simp [e1], by simp [e6]⟩
  · right
    refine ⟨by rw [← e2]; exact hnb, s2, ?_⟩
    have hmoved : Moved flags lang endPoint c s s2 := by
      rcases hmv with ⟨hw, rfl⟩ | ⟨hw, hd⟩
      · exact Or.inl ⟨hw, e1, e2, e3, e4, e5, e6⟩
      · obtain ⟨⟨hj, _, hcalls⟩, hmove⟩ := dispatch_spec hd
        refine Or.inr ⟨hw, by rw [← e1]; exact hj, by rw [← e6]; exact hcalls, ?_⟩
        unfold Stay Push Pop at *
        rw [e1, e2, e3, e4, e5] at hmove
        exact hmove
    refine ⟨hmoved, last, by rw [← Moved_content hmoved]; exact hlast, ?_⟩
    rcases hcm with ⟨hcond, hout⟩ | ⟨hcond, hout⟩
    · left
      refine ⟨hcond, ?_⟩
      rw [hout]
      exact commit_spec callback s2
    · right
      exact ⟨hcond, hout⟩

theorem Moved_job {flags : Flags} {lang : LanguageFeature} {endPoint : Nat} {c : Byte}
    {s s2 : Scan} (h : Moved flags lang endPoint c s s2) :
    s2.fileJob = s.fileJob ∨ (flags.Complexity = false ∧
      s2.fileJob = { s.fileJob with Complexity := s.fileJob.Complexity + 1 }) := by
  rcases h with ⟨_, h, _⟩ | ⟨_, h, _⟩
  · exact Or.inl h
  · exact h

/-- What one iteration does to the job: the binary flag is set, or the
complexity counter may go up by one and then at most one line is counted. -/
theorem body_job {flags : Flags} {lang : LanguageFeature} {callback : Option Callback}
    {endPoint : Nat} {s s' : Scan} {out : Step}
    (h : CountStats.body flags lang callback endPoint s = some out)
    (hout : out = Step.next s' ∨ out = Step.ret s') :
    s'.fileJob = { s.fileJob with Binary := true } ∨
    ∃ j, (j = s.fileJob ∨ (flags.Complexity = false ∧
          j = { s.fileJob with Complexity := s.fileJob.Complexity + 1 })) ∧
      (s'.fileJob = j ∨ ∃ lineType, s'.fileJob = countLine lineType j) := by
  obtain ⟨c, _, hcases⟩ := body_step h
  rcases hcases with ⟨_, _, r, hr, hj, _⟩ | ⟨_, s2, hmv, last, _, hcm⟩
  · left
    subst hr
    rcases hout with hout | hout <;> cases hout
    exact hj
  · right
    refine ⟨s2.fileJob, Moved_job hmv, ?_⟩
    rcases hcm with ⟨_, s3, hj, _, _, _, _, hs3⟩ | ⟨_, hn⟩
    · right
      refine ⟨lineTypeOf s2.currentState, ?_⟩
      rcases hs3 with ⟨_, _, hs3⟩ | ⟨_, _, _, ⟨_, hs3⟩ | ⟨_, hs3⟩⟩ <;> subst hs3 <;>
        rcases hout with hout | hout <;> cases hout <;> exact hj
    · left
      subst hn
      rcases hout with hout | hout <;> cases hout
      rfl

theorem CountStats_eq (flags : Flags) (lang : LanguageFeature) (callback : Option Callback)
    (fileJob r : FileJob) :
    CountStats flags lang callback fileJob = some r ↔
      ∃ s, CountStats.run flags lang callback fileJob = some s ∧ s.fileJob = r := by
  unfold CountStats
  simp [Option.map_eq_some']

theorem CountStats_isSome (flags : Flags) {lang : LanguageFeature} (callback : Option Callback)
    (fileJob : FileJob) (hne : lang.NonEmpty) :
    ∃ r, CountStats flags lang callback fileJob = some r := by
  obtain ⟨s, hs⟩ := run_isSome flags callback fileJob hne
  exact ⟨s.fileJob, (CountStats_eq _ _ _ _ _).mpr ⟨s, hs, rfl⟩⟩

/-- An invariant of the job alone that survives the binary flag, `Complexity++`
and the counting of a line holds of the job `CountStats` returns. -/
theorem CountStats_job_invariant (flags : Flags) (lang : LanguageFeature)
    (callback : Option Callback) (fileJob : FileJob) (P : FileJob → Prop)
    (hempty : fileJob.Content = [] →
      P { fileJob with Bytes := fileJob.Content.length, Lines := 0 })
    (hstart : fileJob.Content ≠ [] → P { fileJob with Bytes := fileJob.Content.length })
    (hbin : ∀ j, P j → P { j with Binary := true })
    (hcx : ∀ j, P j → flags.Complexity = false →
      P { j with Complexity := j.Complexity + 1 })
    (hline : ∀ j lineType, P j → P (countLine lineType j))
    (hhash : ∀ j h, P j → P { j with Hash := h })
    (hcontent : ∀ j, P j → P { j with Content := [] })
    {r : FileJob} (h : CountStats flags lang callback fileJob = some r) : P r := by
  obtain ⟨s, hs, rfl⟩ := (CountStats_eq _ _ _ _ _).mp h
  have step : ∀ (s s' : Scan) (out : Step), P s.fileJob →
      CountStats.body flags lang callback (fileJob.Content.length - 1) s = some out →
      (out = Step.next s' ∨ out = Step.ret s') → P s'.fileJob := by
    intro s s' out hp hb hout
    rcases body_job hb hout with hj | ⟨j, hj, hj'⟩
    · rw [hj]; exact hbin _ hp
    · have hpj : P j := by
        rcases hj with rfl | ⟨hf, rfl⟩
        · exact hp
        · exact hcx _ hp hf
      rcases hj' with hj' | ⟨lt, hj'⟩
      · rw [hj']; exact hpj
      · rw [hj']; exact hline _ _ hpj
  refine run_invariant flags lang callback fileJob (fun s => P s.fileJob) (fun s => P s.fileJob)
    hempty hstart ?_ ?_ ?_ hs
  · intro s s' _ hp _ hb
    exact step s s' _ hp hb (Or.inl rfl)
  · intro s r _ hp _ hb
    exact step s r _ hp hb (Or.inr rfl)
  · intro s _ hp _
    unfold CountStats.finish
    split
    · exact hcontent _ (hhash _ _ hp)
    · exact hcontent _ hp

theorem Committed_next {callback : Option Callback} {s2 s' : Scan}
    (h : Committed callback s2 (Step.next s')) :
    s'.fileJob = countLine (lineTypeOf s2.currentState) s2.fileJob ∧
    s'.index = s2.index ∧ s'.currentState = resetState s2.currentState ∧
    s'.endComments = s2.endComments ∧ s'.endString = s2.endString := by
  obtain ⟨s3, h1, h2, h3, h4, h5, hs3⟩ := h
  have : s' = s3 := by
    rcases hs3 with ⟨_, _, hs3⟩ | ⟨_, _, _, ⟨_, hs3⟩ | ⟨_, hs3⟩⟩ <;> cases hs3 <;> rfl
  subst this
  exact ⟨h1, h2, h3, h4, h5⟩

theorem Committed_ret {callback : Option Callback} {s2 r : Scan}
    (h : Committed callback s2 (Step.ret r)) :
    (s2.fileJob.Lines + 1 = r.fileJob.Lines ∧
      r.fileJob = countLine (lineTypeOf s2.currentState) s2.fileJob) ∧
    ∃ processLine, callback = some processLine ∧ processLine r.calls = false := by
  obtain ⟨s3, h1, _, _, _, _, hs3⟩ := h
  rcases hs3 with ⟨_, _, hs3⟩ | ⟨f, hf, _, ⟨_, hs3⟩ | ⟨hstop, hs3⟩⟩
  · cases hs3
  · cases hs3
  · cases hs3
    exact ⟨⟨by rw [h1, countLine_Lines], h1⟩, f, hf, hstop⟩

/-- An iteration that falls through to `index++`. -/
theorem body_next {flags : Flags} {lang : LanguageFeature} {callback : Option Callback}
    {endPoint : Nat} {s s' : Scan}
    (h : CountStats.body flags lang callback endPoint s = some (Step.next s')) :
    ∃ c, s.fileJob.Content[s.index]? = some c ∧
      ¬ (s.index < 10000 ∧ isBinary flags c = true) ∧
      ∃ s2, Moved flags lang endPoint c s s2 ∧
        ∃ last, s.fileJob.Content[s2.index]? = some last ∧
          (((last = 10 ∨ s2.index ≥ endPoint) ∧
              s'.fileJob = countLine (lineTypeOf s2.currentState) s2.fileJob ∧
              s'.index = s2.index ∧ s'.currentState = resetState s2.currentState ∧
              s'.endComments = s2.endComments ∧ s'.endString = s2.endString) ∨
           (¬ (last = 10 ∨ s2.index ≥ endPoint) ∧ s' = s2)) := by
  obtain ⟨c, hc, hcases⟩ := body_step h
  refine ⟨c, hc, ?_⟩
  rcases hcases with ⟨_, _, r, hr, _⟩ | ⟨hnb, s2, hmv, last, hlast, hcm⟩
  · cases hr
  · refine ⟨hnb, s2, hmv, last, hlast, ?_⟩
    rcases hcm with ⟨hcond, hcom⟩ | ⟨hcond, hn⟩
    · exact Or.inl ⟨hcond, Committed_next hcom⟩
    · cases hn
      exact Or.inr ⟨hcond, rfl⟩

/-- An iteration in which `CountStats` returns: on a NUL byte, or because the
callback stopped the scan after a line was counted. -/
theorem body_ret {flags : Flags} {lang : LanguageFeature} {callback : Option Callback}
    {endPoint : Nat} {s r : Scan}
    (h : CountStats.body flags lang callback endPoint s = some (Step.ret r)) :
    ∃ c, s.fileJob.Content[s.index]? = some c ∧
      ((s.index < 10000 ∧ isBinary flags c = true ∧
          r.fileJob = { s.fileJob with Binary := true } ∧ r.calls = s.calls) ∨
       (¬ (s.index < 10000 ∧ isBinary flags c = true) ∧
         ∃ s2, Moved flags lang endPoint c s s2 ∧
           r.fileJob = countLine (lineTypeOf s2.currentState) s2.fileJob ∧
           ∃ processLine, callback = some processLine ∧ processLine r.calls = false)) := by
  obtain ⟨c, hc, hcases⟩ := body_step h
  refine ⟨c, hc, ?_⟩
  rcases hcases with ⟨h1, h2, r', hr, hj, hcalls⟩ | ⟨hnb, s2, hmv, last, hlast, hcm⟩
  · cases hr
    exact Or.inl ⟨h1, h2, hj, hcalls⟩
  · right
    refine ⟨hnb, s2, hmv, ?_⟩
    rcases hcm with ⟨_, hcom⟩ | ⟨_, hn⟩
    · obtain ⟨⟨_, hj⟩, hstop⟩ := Committed_ret hcom
      exact ⟨hj, hstop⟩
    · cases hn

theorem Moved_Lines {flags : Flags} {lang : LanguageFeature} {endPoint : Nat} {c : Byte}
    {s s2 : Scan} (h : Moved flags lang endPoint c s s2) :
    s2.fileJob.Lines = s.fileJob.Lines ∧ s2.fileJob.Code = s.fileJob.Code ∧
    s2.fileJob.Comment = s.fileJob.Comment ∧ s2.fileJob.Blank = s.fileJob.Blank ∧
    s2.fileJob.Binary = s.fileJob.Binary := by
  rcases Moved_job h with h | ⟨_, h⟩ <;> rw [h] <;> simp

theorem finish_fields (flags : Flags) (s : Scan) :
    (CountStats.finish flags s).fileJob.Lines = s.fileJob.Lines ∧
    (CountStats.finish flags s).fileJob.Code = s.fileJob.Code ∧
    (CountStats.finish flags s).fileJob.Comment = s.fileJob.Comment ∧
    (CountStats.finish flags s).fileJob.Blank = s.fileJob.Blank ∧
    (CountStats.finish flags s).fileJob.Binary = s.fileJob.Binary ∧
    (CountStats.finish flags s).fileJob.Complexity = s.fileJob.Complexity ∧
    (CountStats.finish flags s).fileJob.Content = [] ∧
    (CountStats.finish flags s).calls = s.calls := by
  unfold CountStats.finish
  split <;> simp

/-! ### Bytes jumped over -/

theorem prefix_getElem? {d content : List Byte} {i : Nat}
    (h : d <+: content.drop i) {k : Nat} (hk : k < d.length) :
    content[i + k]? = some d[k] := by
  obtain ⟨t, ht⟩ := h
  rw [← List.getElem?_drop, ← ht, List.getElem?_append_left hk, List.getElem?_eq_getElem hk]

theorem Moved_whitespace {flags : Flags} {lang : LanguageFeature} {endPoint : Nat} {c : Byte}
    {s s2 : Scan} (h : Moved flags lang endPoint c s s2) (hne : s2.index ≠ s.index) :
    isWhitespace c = false := by
  rcases h with ⟨_, _, hi, _⟩ | ⟨hw, _⟩
  · exact absurd hi hne
  · exact hw

/-- The bytes an iteration jumps over, from the one after the index to the one
it lands on, are bytes of a multi-line comment delimiter of the profile. -/
theorem Moved_skip {flags : Flags} {lang : LanguageFeature} {endPoint : Nat} {c : Byte}
    {s s2 : Scan} {b : Byte} (h : Moved flags lang endPoint c s s2) (hcoup : Coupled lang s)
    (hfree : lang.MultiLineFree b) {k : Nat} (h1 : s.index < k) (h2 : k ≤ s2.index) :
    s.fileJob.Content[k]? ≠ some b := by
  have key : ∀ d : List Byte, b ∉ d → d <+: s.fileJob.Content.drop s.index →
      s2.index = s.index + (d.length - 1) → s.fileJob.Content[k]? ≠ some b := by
    intro d hd hocc hidx
    have hk : k - s.index < d.length := by omega
    have := prefix_getElem? hocc hk
    rw [show s.index + (k - s.index) = k by omega] at this
    rw [this]
    intro heq
    have hb : d[k - s.index] = b := Option.some.inj heq
    exact hd (hb ▸ List.getElem_mem hk)
  rcases h with ⟨_, _, hi, _⟩ | ⟨_, _, _, ⟨hi, _⟩ | ⟨m, hm, _, hocc, _, hi, _⟩ |
    ⟨top, hlast, _, hocc, _, hi, _⟩⟩
  · omega
  · omega
  · exact key m.Open (hfree m hm).1 hocc hi
  · obtain ⟨m, hm, rfl⟩ := hcoup.2.2.1 top (List.mem_of_getLast?_eq_some hlast)
    exact key m.Close (hfree m hm).2 hocc hi

theorem count_take_succ (content : List Byte) (b : Byte) (n : Nat) :
    (content.take (n + 1)).count b =
      (content.take n).count b + (if content[n]? = some b then 1 else 0) := by
  rw [List.take_succ, List.count_append]
  cases h : content[n]? with
  | none => simp
  | some x =>
    by_cases hx : x = b
    · subst hx; simp
    · simp [hx, List.count_singleton]

theorem count_take_skip (content : List Byte) (b : Byte) (i : Nat) :
    ∀ n, (∀ k, i ≤ k → k < i + n → content[k]? ≠ some b) →
      (content.take (i + n)).count b = (content.take i).count b := by
  intro n
  induction n with
  | zero => intro _; rfl
  | succ n ih =>
    intro h
    rw [← Nat.add_assoc, count_take_succ, ih (fun k hk1 hk2 => h k hk1 (by omega))]
    have := h (i + n) (by omega) (by omega)
    simp [this]

/-- An iteration jumps over no newline when the multi-line delimiters of the
profile hold none. -/
theorem Moved_count_newlines {flags : Flags} {lang : LanguageFeature} {endPoint : Nat}
    {c : Byte} {s s2 : Scan} (h : Moved flags lang endPoint c s s2) (hcoup : Coupled lang s)
    (hfree : lang.MultiLineFree 10) (hc : s.fileJob.Content[s.index]? = some c)
    (hle : s.index ≤ s2.index) :
    (s.fileJob.Content.take s2.index).count 10 = (s.fileJob.Content.take s.index).count 10 := by
  have := count_take_skip s.fileJob.Content 10 s.index (s2.index - s.index) (by
    intro k hk1 hk2
    by_cases hk : k = s.index
    · subst hk
      have hw := Moved_whitespace h (by omega)
      rw [hc]
      intro heq
      cases heq
      simp [isWhitespace] at hw
    · exact Moved_skip h hcoup hfree (by omega) (by omega))
  rw [show s.index + (s2.index - s.index) = s2.index by omega] at this
  exact this

/-- C1: for a profile whose sequences are all non-empty, any flags, any callback
and any content, a job whose `Lines`, `Code`, `Comment` and `Blank` are zero
before the scan is returned by `CountStats` with
`Code + Comment + Blank = Lines` (binary and callback-stop returns included). -/
theorem C1_code_comment_blank_sum_to_lines (flags : Flags) (lang : LanguageFeature)
    (callback : Option Callback) (fileJob : FileJob) (hne : lang.NonEmpty)
    (hLines : fileJob.Lines = 0) (hCode : fileJob.Code = 0)
    (hComment : fileJob.Comment = 0) (hBlank : fileJob.Blank = 0) :
    ∃ r, CountStats flags lang callback fileJob = some r ∧
      r.Code + r.Comment + r.Blank = r.Lines := by
  obtain ⟨r, hr⟩ := CountStats_isSome flags callback fileJob hne
  refine ⟨r, hr, ?_⟩
  refine CountStats_job_invariant flags lang callback fileJob
    (fun j => j.Code + j.Comment + j.Blank = j.Lines) ?_ ?_ ?_ ?_ ?_ ?_ ?_ hr
  · intro _; simp [hCode, hComment, hBlank]
  · intro _; simp [hLines, hCode, hComment, hBlank]
  · intro j hj; exact hj
  · intro j hj _; exact hj
  · intro j lineType hj
    cases lineType <;> simp only [countLine] <;> omega
  · intro j h hj; exact hj
  · intro j hj; exact hj

theorem C1_witness :
    cProfile.NonEmpty ∧
    ∃ r, CountStats flagsOff cProfile none (freshJob (ascii "int x = 1; // hi\n")) = some r ∧
      r.Code + r.Comment + r.Blank = r.Lines :=
  ⟨by decide, C1_code_comment_blank_sum_to_lines flagsOff cProfile none
    (freshJob (ascii "int x = 1; // hi\n")) (by decide) rfl rfl rfl rfl⟩

/-- C9: with the `Complexity` flag true (counting disabled) `CountStats` returns
the job with its `Complexity` counter unchanged, for every profile, callback and
content; so a job that starts at 0 ends at 0.  (For a profile whose sequences
are non-empty the run always returns.) -/
theorem C9_complexity_flag_disables_counting (flags : Flags) (lang : LanguageFeature)
    (callback : Option Callback) (fileJob : FileJob) (hflag : flags.Complexity = true) :
    (lang.NonEmpty → ∃ r, CountStats flags lang callback fileJob = some r) ∧
    ∀ r, CountStats flags lang callback fileJob = some r →
      r.Complexity = fileJob.Complexity ∧ (fileJob.Complexity = 0 → r.Complexity = 0) := by
  refine ⟨fun hne => CountStats_isSome flags callback fileJob hne, fun r hr => ?_⟩
  have h : r.Complexity = fileJob.Complexity := by
    refine CountStats_job_invariant flags lang callback fileJob
      (fun j => j.Complexity = fileJob.Complexity) ?_ ?_ ?_ ?_ ?_ ?_ ?_ hr
    · intro _; rfl
    · intro _; rfl
    · intro j hj; exact hj
    · intro j _ hf; rw [hflag] at hf; cases hf
    · intro j lineType hj
      cases lineType <;> exact hj
    · intro j h hj; exact hj
    · intro j hj; exact hj
  exact ⟨h, fun h0 => by rw [h, h0]⟩

theorem C9_witness :
    (CountStats { flagsOff with Complexity := true } cProfile none
      (freshJob (ascii "if x:\n    pass\n"))).map (fun r => r.Complexity) = some 0 := by
  have h := (C9_complexity_flag_disables_counting { flagsOff with Complexity := true } cProfile
    none (freshJob (ascii "if x:\n    pass\n")) rfl).2
  cases hr : CountStats { flagsOff with Complexity := true } cProfile none
      (freshJob (ascii "if x:\n    pass\n")) with
  | none => exact absurd hr (by decide)
  | some r => simpa using (h r hr).2 rfl

theorem Moved_index_le {flags : Flags} {lang : LanguageFeature} {endPoint : Nat} {c : Byte}
    {s s2 : Scan} (h : Moved flags lang endPoint c s s2) (hidx : s.index ≤ endPoint) :
    s.index ≤ s2.index ∧ s2.index ≤ endPoint := by
  rcases h with ⟨_, _, hi, _⟩ | ⟨_, _, _, ⟨hi, _⟩ | ⟨m, _, hne, _, hb, hi, _⟩ |
    ⟨top, _, hne, _, hb, hi, _⟩⟩
  · omega
  · omega
  · have := List.length_pos.mpr hne; omega
  · have := List.length_pos.mpr hne; omega

/-- The index an iteration hands to `index++` is at least the index it started
from and at most `endPoint`, whatever the locals are. -/
theorem body_index {flags : Flags} {lang : LanguageFeature} {callback : Option Callback}
    {endPoint : Nat} {s s' : Scan}
    (h : CountStats.body flags lang callback endPoint s = some (Step.next s'))
    (hidx : s.index ≤ endPoint) : s.index ≤ s'.index ∧ s'.index ≤ endPoint := by
  obtain ⟨c, _, hcases⟩ := body_step h
  rcases hcases with ⟨_, _, r, hr, _⟩ | ⟨_, s2, hmv, last, _, hcm⟩
  · cases hr
  · have h2 := Moved_index_le hmv hidx
    rcases hcm with ⟨_, s3, _, hi, _, _, _, hs3⟩ | ⟨_, hn⟩
    · have : s' = s3 := by
        rcases hs3 with ⟨_, _, hs3⟩ | ⟨_, _, _, ⟨_, hs3⟩ | ⟨_, hs3⟩⟩ <;> cases hs3
        · rfl
        · rfl
      subst this
      omega
    · cases hn
      exact h2

/-- C8: for a profile in which every single-line, multi-line open and close,
string open and close and complexity sequence is non-empty, and for every
content, flag setting and callback: `CountStats` returns (no out-of-range read,
no fuel exhaustion); the four match helpers return for every index when called,
as `CountStats` calls them, with an `endPoint` below the content length; and an
iteration started at an index up to `endPoint` hands an index between that one
and `endPoint` to `index++`, so the loop index strictly increases and never
passes the length. -/
theorem C8_scan_runs_to_completion (flags : Flags) (lang : LanguageFeature)
    (callback : Option Callback) (fileJob : FileJob) (hne : lang.NonEmpty) :
    (∃ r, CountStats flags lang callback fileJob = some r) ∧
    (∀ (c : Byte) (index endPoint : Nat), endPoint < fileJob.Content.length →
      (∃ b, checkForMatch c index endPoint lang.SingleLineComment fileJob = some b) ∧
      (∀ m : OpenClose, m ∈ lang.MultiLineComment ∨ m ∈ lang.StringChecks →
        ∃ b, checkForMatchSingle c index endPoint m.Close fileJob = some b) ∧
      (∃ p, checkForMatchMultiOpen c index endPoint lang.MultiLineComment fileJob = some p) ∧
      (∃ p, checkForMatchMultiOpen c index endPoint lang.StringChecks fileJob = some p) ∧
      (index ≤ fileJob.Content.length →
        ∃ n, checkComplexity c index endPoint lang.ComplexityChecks lang.ComplexityBytes
          fileJob = some n)) ∧
    (∀ (endPoint : Nat) (s s' : Scan), s.index ≤ endPoint →
      CountStats.body flags lang callback endPoint s = some (Step.next s') →
      s.index < s'.index + 1 ∧ s'.index + 1 ≤ endPoint + 1) := by
  refine ⟨CountStats_isSome flags callback fileJob hne, ?_, ?_⟩
  · intro c index endPoint hend
    refine ⟨?_, ?_, ?_, ?_, ?_⟩
    · exact checkForMatch_isSome c index endPoint fileJob (Nat.le_of_lt hend) _ hne.1
    · intro m hm
      refine checkForMatchSingle_isSome c index endPoint fileJob ?_ (Nat.le_of_lt hend)
      rcases hm with hm | hm
      · exact (hne.2.1 m hm).2
      · exact (hne.2.2.1 m hm).2
    · exact checkForMatchMultiOpen_isSome c index endPoint _ fileJob hend
        (fun m hm => (hne.2.1 m hm).1)
    · exact checkForMatchMultiOpen_isSome c index endPoint _ fileJob hend
        (fun m hm => (hne.2.2.1 m hm).1)
    · intro hidx
      exact checkComplexity_isSome c index endPoint fileJob hend hidx _ _ hne.2.2.2
  · intro endPoint s s' hidx hb
    have := body_index hb hidx
    omega

theorem C8_witness :
    cProfile.NonEmpty ∧
    ∃ r, CountStats flagsOff cProfile none (freshJob (ascii "i = 1 /* c */ + 2\n")) = some r :=
  ⟨by decide, (C8_scan_runs_to_completion flagsOff cProfile none
    (freshJob (ascii "i = 1 /* c */ + 2\n")) (by decide)).1⟩

/-- C2: for a profile whose sequences are non-empty, every flag setting, every
callback and every content, `CountStats` run on a job with `Lines = 0` returns,
and when the returned job is not flagged binary, `Lines = 0` exactly when the
content has length 0 and `Lines ≥ 1` for every non-empty content (with or
without a trailing newline). -/
theorem C2_lines_zero_iff_empty (flags : Flags) (lang : LanguageFeature)
    (callback : Option Callback) (fileJob : FileJob) (hne : lang.NonEmpty)
    (hLines : fileJob.Lines = 0) :
    ∃ r, CountStats flags lang callback fileJob = some r ∧
      (r.Binary = false →
        (r.Lines = 0 ↔ fileJob.Content.length = 0) ∧
        (fileJob.Content ≠ [] → 1 ≤ r.Lines)) := by
  obtain ⟨r, hr⟩ := CountStats_isSome flags callback fileJob hne
  refine ⟨r, hr, ?_⟩
  obtain ⟨s, hs, rfl⟩ := (CountStats_eq _ _ _ _ _).mp hr
  refine run_invariant flags lang callback fileJob
    (fun s => fileJob.Content ≠ [] ∧ 0 ≤ s.fileJob.Lines ∧
      (s.index = fileJob.Content.length → 1 ≤ s.fileJob.Lines))
    (fun r => r.fileJob.Binary = false →
        (r.fileJob.Lines = 0 ↔ fileJob.Content.length = 0) ∧
        (fileJob.Content ≠ [] → 1 ≤ r.fileJob.Lines)) ?_ ?_ ?_ ?_ ?_ hs
  · intro he _
    simp [he]
  · intro he
    exact ⟨he, by simp [CountStats.start, hLines], by
      intro h0
      have := List.length_pos.mpr he
      simp [CountStats.start] at h0
      omega⟩
  · intro s s' _ ⟨hc, h0, _⟩ hlt hb
    obtain ⟨c, _, _, s2, hmv, last, _, hcm⟩ := body_next hb
    have hL := (Moved_Lines hmv).1
    refine ⟨hc, ?_, ?_⟩
    · rcases hcm with ⟨_, hj, _⟩ | ⟨_, rfl⟩
      · simp only [hj, countLine_Lines]; omega
      · simp only; omega
    · intro hidx
      rcases hcm with ⟨_, hj, _⟩ | ⟨hcond, rfl⟩
      · simp only [hj, countLine_Lines]; omega
      · simp only at hidx ⊢
        omega
  · intro s r _ ⟨hc, h0, _⟩ hlt hb hbin
    obtain ⟨c, _, hcases⟩ := body_ret hb
    have hlen : fileJob.Content.length ≠ 0 := by
      have := List.length_pos.mpr hc; omega
    rcases hcases with ⟨_, _, hj, _⟩ | ⟨_, s2, hmv, hj, _⟩
    · rw [hj] at hbin; simp at hbin
    · have hL := (Moved_Lines hmv).1
      have h1 : 1 ≤ r.fileJob.Lines := by rw [hj, countLine_Lines]; omega
      exact ⟨⟨fun h => by omega, fun h => absurd h hlen⟩, fun _ => h1⟩
  · intro s _ ⟨hc, h0, h1⟩ hidx _
    have hlen : fileJob.Content.length ≠ 0 := by
      have := List.length_pos.mpr hc; omega
    have := h1 hidx
    rw [(finish_fields flags s).1]
    exact ⟨⟨fun h => by omega, fun h => absurd h hlen⟩, fun _ => this⟩

theorem C2_witness :
    cProfile.NonEmpty ∧
    ∃ r, CountStats flagsOff cProfile none (freshJob (ascii "x\n// hi")) = some r ∧
      (r.Binary = false →
        (r.Lines = 0 ↔ (freshJob (ascii "x\n// hi")).Content.length = 0) ∧
        ((freshJob (ascii "x\n// hi")).Content ≠ [] → 1 ≤ r.Lines)) :=
  ⟨by decide, C2_lines_zero_iff_empty flagsOff cProfile none (freshJob (ascii "x\n// hi"))
    (by decide) rfl⟩

/-- The line counter at the head of an iteration, for a scan that is never
stopped by a callback and whose profile has newline-free multi-line delimiters:
the newlines before the index, plus one once the index has passed a last byte
that is not a newline. -/
theorem lines_invariant (flags : Flags) (lang : LanguageFeature)
    (callback : Option Callback) (fileJob : FileJob)
    (hfree : lang.MultiLineFree 10) (hcb : NeverStops callback)
    (hLines : fileJob.Lines = 0) {r : Scan}
    (h : CountStats.run flags lang callback fileJob = some r) :
    r.fileJob.Binary = false → fileJob.Content ≠ [] →
      r.fileJob.Lines = newlineLines fileJob.Content := by
  refine run_invariant flags lang callback fileJob
    (fun s => s.fileJob.Lines = ((fileJob.Content.take s.index).count 10 : Nat) +
      (if s.index = fileJob.Content.length ∧ fileJob.Content.getLast? ≠ some 10
        then (1 : Int) else 0))
    (fun r => r.fileJob.Binary = false → fileJob.Content ≠ [] →
      r.fileJob.Lines = newlineLines fileJob.Content) ?_ ?_ ?_ ?_ ?_ h
  · intro he _ hne
    exact absurd he hne
  · intro he
    have hpos := List.length_pos.mpr he
    have : ¬ (0 = fileJob.Content.length ∧ fileJob.Content.getLast? ≠ some 10) := by omega
    simp [CountStats.start, hLines, this]
  · intro s s' hsafe hinv hlt hb
    obtain ⟨hcont, hcoup, _, _⟩ := hsafe
    obtain ⟨c, hc, _, s2, hmv, last, hlast, hcm⟩ := body_next hb
    have hi2 := Moved_index_le hmv (show s.index ≤ fileJob.Content.length - 1 by omega)
    have hcnt := Moved_count_newlines hmv hcoup hfree hc hi2.1
    have hL := (Moved_Lines hmv).1
    rw [hcont] at hcnt hlast
    have h0 : ¬ (s.index = fileJob.Content.length ∧ fileJob.Content.getLast? ≠ some 10) := by
      omega
    simp only [h0, if_false, Int.add_zero] at hinv
    have hsucc := count_take_succ fileJob.Content 10 s2.index
    have hgl : s2.index + 1 = fileJob.Content.length →
        fileJob.Content.getLast? = some last := by
      intro hl
      rw [List.getLast?_eq_getElem?, ← hl, Nat.add_sub_cancel, hlast]
    rcases hcm with ⟨hcond, hj, hidx, _⟩ | ⟨hcond, rfl⟩
    · simp only [hj, hidx, countLine_Lines, hL, hinv, hsucc, hlast, hcnt]
      by_cases h10 : last = 10
      · subst h10
        have : ¬ (s2.index + 1 = fileJob.Content.length ∧
            fileJob.Content.getLast? ≠ some 10) := fun ⟨h1, h2⟩ => h2 (hgl h1)
        simp [this]
      · have hend : s2.index + 1 = fileJob.Content.length := by
          rcases hcond with hcond | hcond
          · exact absurd hcond h10
          · omega
        have hg := hgl hend
        have : (s2.index + 1 = fileJob.Content.length ∧
            fileJob.Content.getLast? ≠ some 10) := ⟨hend, by rw [hg]; simpa using h10⟩
        simp [this, h10]
    · have h10 : last ≠ 10 := fun h => hcond (Or.inl h)
      have hend : ¬ (s'.index + 1 = fileJob.Content.length ∧
          fileJob.Content.getLast? ≠ some 10) := by
        intro ⟨h1, _⟩
        exact hcond (Or.inr (by omega))
      simp only [hL, hinv, hsucc, hlast, hcnt, hend, if_false]
      simp [h10]
  · intro s r _ _ _ hb hbin _
    obtain ⟨c, _, hcases⟩ := body_ret hb
    rcases hcases with ⟨_, _, hj, _⟩ | ⟨_, s2, _, _, f, hf, hstop⟩
    · rw [hj] at hbin; simp at hbin
    · rw [hcb f hf] at hstop; cases hstop
  · intro s _ hinv hidx _ _
    rw [(finish_fields flags s).1, hinv, hidx, List.take_length]
    unfold newlineLines
    by_cases hg : fileJob.Content.getLast? = some 10
    · simp [hg]
    · simp [hg]

/-- C3: for a profile whose multi-line comment open and close delimiters hold no
newline byte, any flags, no callback or one that never stops, and a non-empty
content scanned from `Lines = 0`: whenever `CountStats` returns a job not
flagged binary, its `Lines` is the number of newline bytes of the content plus
one if the last byte is not a newline.  (With non-empty sequences the run
always returns.) -/
theorem C3_lines_is_newline_count (flags : Flags) (lang : LanguageFeature)
    (callback : Option Callback) (fileJob : FileJob)
    (hfree : lang.MultiLineFree 10) (hcb : NeverStops callback)
    (hcontent : fileJob.Content ≠ []) (hLines : fileJob.Lines = 0) :
    (lang.NonEmpty → ∃ r, CountStats flags lang callback fileJob = some r) ∧
    ∀ r, CountStats flags lang callback fileJob = some r → r.Binary = false →
      r.Lines = (fileJob.Content.count 10 : Nat) +
        (if fileJob.Content.getLast? = some 10 then 0 else 1) := by
  refine ⟨fun hne => CountStats_isSome flags callback fileJob hne, fun r hr hbin => ?_⟩
  obtain ⟨s, hs, rfl⟩ := (CountStats_eq _ _ _ _ _).mp hr
  exact lines_invariant flags lang callback fileJob hfree hcb hLines hs hbin hcontent

theorem C3_witness :
    ∃ r, CountStats flagsOff cProfile none (freshJob (ascii "x\n// hi")) = some r ∧
      r.Binary = false ∧ r.Lines = 2 :=
  ⟨_, rfl, rfl,
    ((C3_lines_is_newline_count flagsOff cProfile none (freshJob (ascii "x\n// hi"))
      (by decide) (fun _ hf => by cases hf) (by decide) rfl).2 _ rfl rfl).trans (by decide)⟩

theorem lines_of_empty {flags : Flags} {lang : LanguageFeature} {callback : Option Callback}
    {fileJob r : FileJob} (he : fileJob.Content = [])
    (h : CountStats flags lang callback fileJob = some r) : r.Lines = 0 := by
  obtain ⟨s, hs, rfl⟩ := (CountStats_eq _ _ _ _ _).mp h
  rw [run_eq, if_pos he] at hs
  cases hs
  rfl

theorem newlineLines_append (a b : List Byte) (hb : b ≠ []) :
    newlineLines (a ++ b) =
      newlineLines a + newlineLines b - (if a.getLast? = some 10 then 0 else 1) := by
  unfold newlineLines
  have hlast : (a ++ b).getLast? = b.getLast? := by
    rw [List.getLast?_append]
    cases hbl : b.getLast? with
    | none => exact absurd (List.getLast?_eq_none_iff.mp hbl) hb
    | some x => rfl
  rw [hlast, List.count_append]
  push_cast
  by_cases h1 : a.getLast? = some 10 <;> by_cases h2 : b.getLast? = some 10 <;>
    simp only [h1, h2, if_true, if_false] <;> omega

/-- C10: for a profile whose multi-line comment delimiters hold no newline byte,
no callback, and contents `a`, `b` scanned from `Lines = 0`: when the scans of
`a`, `b` and `a ++ b` return jobs none of which is flagged binary,
`Lines(a ++ b) = Lines(a) + Lines(b)` if `a` is empty, `b` is empty or `a` ends
with a newline, and `Lines(a ++ b) = Lines(a) + Lines(b) - 1` otherwise; the
sum exceeds `Lines(a ++ b)` by 0 or 1.  (With non-empty sequences the three
scans always return.) -/
theorem C10_lines_of_concatenation (flags : Flags) (lang : LanguageFeature)
    (fileJob : FileJob) (a b : List Byte)
    (hfree : lang.MultiLineFree 10) (hLines : fileJob.Lines = 0) :
    (lang.NonEmpty →
      (∃ ra, CountStats flags lang none { fileJob with Content := a } = some ra) ∧
      (∃ rb, CountStats flags lang none { fileJob with Content := b } = some rb) ∧
      (∃ rab, CountStats flags lang none { fileJob with Content := a ++ b } = some rab)) ∧
    ∀ ra rb rab,
      CountStats flags lang none { fileJob with Content := a } = some ra →
      CountStats flags lang none { fileJob with Content := b } = some rb →
      CountStats flags lang none { fileJob with Content := a ++ b } = some rab →
      ra.Binary = false → rb.Binary = false → rab.Binary = false →
      ((a = [] ∨ b = [] ∨ a.getLast? = some 10) → rab.Lines = ra.Lines + rb.Lines) ∧
      (¬ (a = [] ∨ b = [] ∨ a.getLast? = some 10) → rab.Lines = ra.Lines + rb.Lines - 1) ∧
      (0 ≤ ra.Lines + rb.Lines - rab.Lines ∧ ra.Lines + rb.Lines - rab.Lines ≤ 1) := by
  refine ⟨fun hne => ⟨CountStats_isSome flags none _ hne, CountStats_isSome flags none _ hne,
    CountStats_isSome flags none _ hne⟩, ?_⟩
  intro ra rb rab hra hrb hrab hba hbb hbab
  have hnever : NeverStops none := fun _ hf => by cases hf
  have lines : ∀ (x : List Byte) (r : FileJob),
      CountStats flags lang none { fileJob with Content := x } = some r → r.Binary = false →
      r.Lines = if x = [] then 0 else newlineLines x := by
    intro x r hr hbin
    by_cases hx : x = []
    · rw [if_pos hx]
      exact lines_of_empty (by simpa using hx) hr
    · rw [if_neg hx]
      obtain ⟨s, hs, rfl⟩ := (CountStats_eq _ _ _ _ _).mp hr
      exact lines_invariant flags lang none { fileJob with Content := x } hfree hnever hLines
        hs hbin hx
  have ea := lines a ra hra hba
  have eb := lines b rb hrb hbb
  have eab := lines (a ++ b) rab hrab hbab
  by_cases ha : a = []
  · subst ha
    simp only [List.nil_append, if_true] at ea eab
    rw [← eb] at eab
    simp only [true_or, not_true_eq_false, forall_true_left, false_implies, true_and]
    omega
  · by_cases hb : b = []
    · subst hb
      simp only [List.append_nil, if_true] at eb eab
      rw [← ea] at eab
      simp only [true_or, or_true, not_true_eq_false, forall_true_left, false_implies, true_and]
      omega
    · have hab : a ++ b ≠ [] := by simp [ha]
      rw [if_neg ha] at ea
      rw [if_neg hb] at eb
      rw [if_neg hab, newlineLines_append a b hb, ← ea, ← eb] at eab
      by_cases hl : a.getLast? = some 10
      · simp only [hl, if_true] at eab
        simp only [hl, or_true, not_true_eq_false, forall_true_left, false_implies, true_and]
        omega
      · simp only [hl, if_false] at eab
        simp only [ha, hb, hl, or_self, not_false_eq_true, forall_true_left, false_implies,
          true_and]
        omega

theorem C10_witness :
    ∃ ra rb rab,
      CountStats flagsOff cProfile none (freshJob (ascii "x")) = some ra ∧
      CountStats flagsOff cProfile none (freshJob (ascii "y\n")) = some rb ∧
      CountStats flagsOff cProfile none (freshJob (ascii "xy\n")) = some rab ∧
      rab.Lines = ra.Lines + rb.Lines - 1 :=
  ⟨_, _, _, rfl, rfl, rfl,
    ((C10_lines_of_concatenation flagsOff cProfile (freshJob []) (ascii "x") (ascii "y\n")
      (by decide) rfl).2 _ _ _ rfl rfl rfl rfl rfl rfl).2.1 (by decide)⟩

theorem countLine_Binary (lineType : LineType) (j : FileJob) :
    (countLine lineType j).Binary = j.Binary := by
  cases lineType <;> rfl

/-- When no byte among the first 10000 makes `isBinary` true, the job comes
back with its binary flag as it was. -/
theorem binary_unchanged (flags : Flags) (lang : LanguageFeature)
    (callback : Option Callback) (fileJob : FileJob)
    (hno : ∀ k c, k < 10000 → fileJob.Content[k]? = some c → isBinary flags c = false)
    {r : FileJob} (h : CountStats flags lang callback fileJob = some r) :
    r.Binary = fileJob.Binary := by
  obtain ⟨s, hs, rfl⟩ := (CountStats_eq _ _ _ _ _).mp h
  refine run_invariant flags lang callback fileJob
    (fun s => s.fileJob.Binary = fileJob.Binary)
    (fun s => s.fileJob.Binary = fileJob.Binary) ?_ ?_ ?_ ?_ ?_ hs
  · intro _; rfl
  · intro _; rfl
  · intro s s' _ hinv _ hb
    obtain ⟨c, _, _, s2, hmv, last, _, hcm⟩ := body_next hb
    have hB := (Moved_Lines hmv).2.2.2.2
    rcases hcm with ⟨_, hj, _⟩ | ⟨_, rfl⟩
    · simp only [hj, countLine_Binary, hB, hinv]
    · simp only [hB, hinv]
  · intro s r hsafe hinv _ hb
    obtain ⟨c, hc, hcases⟩ := body_ret hb
    rcases hcases with ⟨h1, h2, _⟩ | ⟨_, s2, hmv, hj, _⟩
    · rw [hsafe.1] at hc
      rw [hno s.index c h1 hc] at h2
      cases h2
    · rw [hj, countLine_Binary, (Moved_Lines hmv).2.2.2.2, hinv]
  · intro s _ hinv _
    rw [(finish_fields flags s).2.2.2.2.1, hinv]

/-- A scan without callback of a content with a NUL byte among its first 10000
bytes, with binary detection on and NUL-free multi-line delimiters, can only
return through the binary exit. -/
theorem binary_detected (flags : Flags) (lang : LanguageFeature) (fileJob : FileJob)
    (hflag : flags.DisableCheckBinary = false) (hfree : lang.MultiLineFree 0)
    (hnul : ∃ k, k < 10000 ∧ fileJob.Content[k]? = some 0)
    {r : FileJob} (h : CountStats flags lang none fileJob = some r) : r.Binary = true := by
  obtain ⟨s, hs, rfl⟩ := (CountStats_eq _ _ _ _ _).mp h
  obtain ⟨k0, hk0, hk0'⟩ := hnul
  refine run_invariant flags lang none fileJob
    (fun s => ∀ k, k < s.index → k < 10000 → fileJob.Content[k]? ≠ some 0)
    (fun s => s.fileJob.Binary = true) ?_ ?_ ?_ ?_ ?_ hs
  · intro he
    rw [he] at hk0'
    simp at hk0'
  · intro _ k hk
    simp [CountStats.start] at hk
  · intro s s' hsafe hinv hlt hb k hk hk'
    obtain ⟨hcont, hcoup, _, _⟩ := hsafe
    obtain ⟨c, hc, hnb, s2, hmv, last, _, hcm⟩ := body_next hb
    have hidx : s'.index = s2.index := by
      rcases hcm with ⟨_, _, hi, _⟩ | ⟨_, rfl⟩
      · exact hi
      · rfl
    simp only [hidx] at hk
    by_cases h1 : k < s.index
    · exact hinv k h1 hk'
    · by_cases h2 : k = s.index
      · subst h2
        rw [← hcont, hc]
        intro heq
        cases heq
        exact hnb ⟨hk', by simp [isBinary, hflag]⟩
      · rw [← hcont]
        exact Moved_skip hmv hcoup hfree (by omega) (by omega)
  · intro s r _ _ _ hb
    obtain ⟨c, _, hcases⟩ := body_ret hb
    rcases hcases with ⟨_, _, hj, _⟩ | ⟨_, s2, _, _, f, hf, _⟩
    · rw [hj]
    · cases hf
  · intro s _ hinv hidx
    exfalso
    have hlt : k0 < fileJob.Content.length := by
      obtain ⟨h, _⟩ := List.getElem?_eq_some.mp hk0'
      exact h
    exact hinv k0 (by omega) hk0 hk0'

/-- C4: for a profile whose multi-line comment delimiters hold no newline byte
and any content.  With `DisableCheckBinary = false` and no callback: (1) if the
content has a NUL byte at an index below 10000 and no delimiter of the profile
holds a NUL byte, every job `CountStats` returns has `Binary = true`; (2) if the
content has no NUL byte at any index below 10000, `CountStats` returns the job
with `Binary` as it was (false for a job not flagged before), also with a
callback.  With `DisableCheckBinary = true`, `CountStats` never changes
`Binary`.  (With non-empty sequences the run always returns.) -/
theorem C4_binary_flag (flags : Flags) (lang : LanguageFeature) (fileJob : FileJob)
    (_hnewline : lang.MultiLineFree 10) :
    (lang.NonEmpty → ∀ callback, ∃ r, CountStats flags lang callback fileJob = some r) ∧
    (flags.DisableCheckBinary = false →
      ((∃ k, k < 10000 ∧ fileJob.Content[k]? = some 0) → lang.DelimiterFree 0 →
        ∀ r, CountStats flags lang none fileJob = some r → r.Binary = true) ∧
      ((∀ k, k < 10000 → fileJob.Content[k]? ≠ some 0) →
        ∀ callback r, CountStats flags lang callback fileJob = some r →
          r.Binary = fileJob.Binary ∧ (fileJob.Binary = false → r.Binary = false))) ∧
    (flags.DisableCheckBinary = true →
      ∀ callback r, CountStats flags lang callback fileJob = some r →
        r.Binary = fileJob.Binary) := by
  refine ⟨fun hne callback => CountStats_isSome flags callback fileJob hne, ?_, ?_⟩
  · intro hflag
    refine ⟨?_, ?_⟩
    · intro hnul hfree r hr
      exact binary_detected flags lang fileJob hflag hfree.2.1 hnul hr
    · intro hno callback r hr
      have := binary_unchanged flags lang callback fileJob (by
        intro k c hk hc
        have hc0 : c ≠ 0 := by
          intro h0
          subst h0
          exact hno k hk hc
        simp [isBinary, hc0]) hr
      exact ⟨this, fun h => by rw [this, h]⟩
  · intro hflag callback r hr
    exact binary_unchanged flags lang callback fileJob (by
      intro k c _ _
      simp [isBinary, hflag]) hr

theorem getElem?_replicate_append_at (n : Nat) (a b : Byte) :
    (List.replicate n a ++ [b])[n]? = some b := by
  rw [List.getElem?_append_right (by simp)]
  simp

theorem getElem?_replicate_append_below (n k : Nat) (a b : Byte) (hk : k < n) :
    (List.replicate n a ++ [b])[k]? = some a := by
  rw [List.getElem?_append_left (by simpa using hk)]
  simp [List.getElem?_replicate, hk]

theorem C4_witness :
    (∃ r, CountStats flagsOff cProfile none (freshJob [97, 0, 98]) = some r ∧
      r.Binary = true) ∧
    (∃ r, CountStats flagsOff cProfile none
        (freshJob (List.replicate 9999 97 ++ [0])) = some r ∧ r.Binary = true) ∧
    (∃ r, CountStats flagsOff cProfile none
        (freshJob (List.replicate 10001 97 ++ [0])) = some r ∧ r.Binary = false) ∧
    (∃ r, CountStats { flagsOff with DisableCheckBinary := true } cProfile none
        (freshJob [97, 0, 98]) = some r ∧ r.Binary = false) := by
  have hfree : cProfile.MultiLineFree 10 := by decide
  have hne : cProfile.NonEmpty := by decide
  refine ⟨?_, ?_, ?_, ?_⟩
  · exact ⟨_, rfl, ((C4_binary_flag flagsOff cProfile (freshJob [97, 0, 98]) hfree).2.1 rfl).1
      ⟨1, by decide, rfl⟩ (by decide) _ rfl⟩
  · have h := C4_binary_flag flagsOff cProfile (freshJob (List.replicate 9999 97 ++ [0])) hfree
    obtain ⟨r, hr⟩ := h.1 hne none
    exact ⟨r, hr, (h.2.1 rfl).1 ⟨9999, by decide, getElem?_replicate_append_at 9999 97 0⟩
      (by decide) r hr⟩
  · have h := C4_binary_flag flagsOff cProfile (freshJob (List.replicate 10001 97 ++ [0])) hfree
    obtain ⟨r, hr⟩ := h.1 hne none
    refine ⟨r, hr, (((h.2.1 rfl).2 ?_) none r hr).2 rfl⟩
    intro k hk
    have hk' : k < 10001 := by omega
    have := getElem?_replicate_append_below 10001 k 97 0 hk'
    intro h0
    have h1 : some (97 : Byte) = some 0 := this.symm.trans h0
    exact absurd (Option.some.inj h1) (by decide)
  · exact ⟨_, rfl, (C4_binary_flag { flagsOff with DisableCheckBinary := true } cProfile
      (freshJob [97, 0, 98]) hfree).2.2 rfl none _ rfl⟩

/-! ### Profiles without comments and strings -/

theorem isWhitespace_eq_blankByte (b : Byte) : isWhitespace b = blankByte b := by
  unfold isWhitespace blankByte
  by_cases h1 : b = 32 <;> by_cases h2 : b = 9 <;> by_cases h3 : b = 10 <;>
    by_cases h4 : b = 13 <;> simp [h1, h2, h3, h4]

theorem isCodeLine_append (cur : List Byte) (b : Byte) :
    isCodeLine (cur ++ [b]) = (isCodeLine cur || !isWhitespace b) := by
  simp [isCodeLine, isWhitespace_eq_blankByte]

/-- With no comment and no string delimiters an iteration keeps the index and
the empty stack, and from `S_BLANK` or `S_CODE` it goes to `S_CODE` on a
non-whitespace byte and stays put on whitespace. -/
theorem Moved_plain {flags : Flags} {lang : LanguageFeature} {endPoint : Nat} {c : Byte}
    {s s2 : Scan} (h : Moved flags lang endPoint c s s2) (hplain : lang.Plain)
    (hstate : s.currentState = S_BLANK ∨ s.currentState = S_CODE)
    (hstack : s.endComments = []) :
    s2.index = s.index ∧ s2.endComments = [] ∧
    s2.currentState = (if isWhitespace c = true then s.currentState else S_CODE) := by
  obtain ⟨hsl, hml, hstr⟩ := hplain
  rcases h with ⟨hw, _, hi, hst, hec, _⟩ | ⟨hw, _, _, ⟨hi, hec, hst, hs1, hs2⟩ |
    ⟨m, hm, _⟩ | ⟨top, hlast, _⟩⟩
  · exact ⟨hi, by rw [hec, hstack], by simp [hw, hst]⟩
  · refine ⟨hi, by rw [hec, hstack], ?_⟩
    simp only [hw, Bool.false_eq_true, if_false]
    have hnostr : s2.currentState ≠ S_STRING := by
      intro hs
      rcases hs1 hs with ⟨h', _⟩ | ⟨m, hm, _⟩
      · rcases hstate with h'' | h'' <;> rw [h''] at h' <;> cases h'
      · rw [hstr] at hm; cases hm
    have hnocom : s2.currentState ≠ S_COMMENT ∧ s2.currentState ≠ S_COMMENT_CODE := by
      refine ⟨fun hs => ?_, fun hs => ?_⟩ <;>
      · rcases hs2 (by simp [hs]) with h' | ⟨m, hm, _⟩
        · rw [hs] at h'
          rcases hstate with h'' | h'' <;> rw [h''] at h' <;> cases h'
        · rw [hsl] at hm; cases hm
    revert hst hnostr hnocom
    rcases hstate with h'' | h'' <;> rw [h''] <;> cases s2.currentState <;>
      simp [stayStates]
  · rw [hml] at hm; cases hm
  · rw [hstack] at hlast; cases hlast

theorem go_newline (cur rest : List Byte) :
    splitLines.go cur (10 :: rest) = (cur ++ [10]) :: splitLines.go [] rest := by
  simp [splitLines.go]

theorem go_other (cur rest : List Byte) (b : Byte) (hb : b ≠ 10) :
    splitLines.go cur (b :: rest) = splitLines.go (cur ++ [b]) rest := by
  simp [splitLines.go, hb]

theorem go_last (cur : List Byte) (b : Byte) :
    splitLines.go (cur ++ [b]) [] = [cur ++ [b]] := by
  simp [splitLines.go]

theorem countLine_plain (st : State) (j : FileJob) (hst : st = S_BLANK ∨ st = S_CODE) :
    (countLine (lineTypeOf st) j).Code = j.Code + (if st = S_CODE then 1 else 0) ∧
    (countLine (lineTypeOf st) j).Blank = j.Blank + (if st = S_CODE then 0 else 1) ∧
    (countLine (lineTypeOf st) j).Comment = j.Comment := by
  rcases hst with rfl | rfl <;> simp [countLine, lineTypeOf]

/-- The counters of a scan with a profile without comments and strings, no
callback: at the head of every iteration, `Code` and `Blank` plus the code and
blank lines still to come (the line begun included) are the code and blank
lines of the content. -/
theorem plain_invariant (flags : Flags) (lang : LanguageFeature) (fileJob : FileJob)
    (hplain : lang.Plain) (hCode : fileJob.Code = 0) (hComment : fileJob.Comment = 0)
    (hBlank : fileJob.Blank = 0) {r : Scan}
    (h : CountStats.run flags lang none fileJob = some r) :
    r.fileJob.Binary = false →
      r.fileJob.Code = ((splitLines fileJob.Content).countP isCodeLine : Nat) ∧
      r.fileJob.Blank = ((splitLines fileJob.Content).countP (fun l => !isCodeLine l) : Nat) ∧
      r.fileJob.Comment = 0 := by
  refine run_invariant flags lang none fileJob
    (fun s => (s.currentState = S_BLANK ∨ s.currentState = S_CODE) ∧ s.endComments = [] ∧
      s.fileJob.Comment = 0 ∧
      (s.index < fileJob.Content.length → ∃ cur,
        (isCodeLine cur = true ↔ s.currentState = S_CODE) ∧
        (((splitLines fileJob.Content).countP isCodeLine : Nat) : Int) = s.fileJob.Code +
          (((splitLines.go cur (fileJob.Content.drop s.index)).countP isCodeLine : Nat) : Int) ∧
        (((splitLines fileJob.Content).countP (fun l => !isCodeLine l) : Nat) : Int) =
          s.fileJob.Blank +
          (((splitLines.go cur (fileJob.Content.drop s.index)).countP
            (fun l => !isCodeLine l) : Nat) : Int)) ∧
      (s.index = fileJob.Content.length →
        (((splitLines fileJob.Content).countP isCodeLine : Nat) : Int) = s.fileJob.Code ∧
        (((splitLines fileJob.Content).countP (fun l => !isCodeLine l) : Nat) : Int) =
          s.fileJob.Blank))
    (fun r => r.fileJob.Binary = false →
      r.fileJob.Code = ((splitLines fileJob.Content).countP isCodeLine : Nat) ∧
      r.fileJob.Blank = ((splitLines fileJob.Content).countP (fun l => !isCodeLine l) : Nat) ∧
      r.fileJob.Comment = 0) ?_ ?_ ?_ ?_ ?_ h
  · intro he _
    simp [he, splitLines, splitLines.go, hCode, hBlank, hComment]
  · intro he
    have hpos := List.length_pos.mpr he
    refine ⟨Or.inl rfl, rfl, hComment, fun _ => ⟨[], ?_, ?_, ?_⟩, fun h0 => ?_⟩
    · simp [CountStats.start, isCodeLine]
    · simp [CountStats.start, hCode, splitLines]
    · simp [CountStats.start, hBlank, splitLines]
    · simp [CountStats.start] at h0
      omega
  · intro s s' hsafe ⟨hstate, hstack, hcom, hlt', _⟩ hlt hb
    obtain ⟨cur, hcur, hcode, hblank⟩ := hlt' hlt
    obtain ⟨hcont, _, _, _⟩ := hsafe
    obtain ⟨c, hc, _, s2, hmv, last, hlast, hcm⟩ := body_next hb
    obtain ⟨hi2, hst2, hstate2⟩ := Moved_plain hmv hplain hstate hstack
    obtain ⟨_, hCode2, hComment2, hBlank2, _⟩ := Moved_Lines hmv
    rw [hcont] at hc hlast
    rw [hi2, hc] at hlast
    have hlc : last = c := (Option.some.inj hlast).symm
    subst hlc
    have hdrop := drop_of_getElem? hc
    rw [hdrop] at hcode hblank
    have hstate2' : s2.currentState = S_BLANK ∨ s2.currentState = S_CODE := by
      rw [hstate2]; split
      · exact hstate
      · exact Or.inr rfl
    have hcur2 : isCodeLine (cur ++ [last]) = true ↔ s2.currentState = S_CODE := by
      rw [isCodeLine_append, hstate2]
      cases hw : isWhitespace last <;> simp [hw, hcur]
    rcases hcm with ⟨hcond, hj, hidx, hst', hec', _⟩ | ⟨hcond, rfl⟩
    · obtain ⟨hC, hB, hM⟩ := countLine_plain s2.currentState s2.fileJob hstate2'
      have hreset : s'.currentState = S_BLANK := by
        rw [hst']
        rcases hstate2' with h' | h' <;> rw [h'] <;> rfl
      refine ⟨Or.inl hreset, by rw [hec', hst2], by rw [hj, hM, hComment2, hcom], ?_, ?_⟩
      · intro hlt2
        simp only [hidx, hi2] at hlt2 ⊢
        have h10 : last = 10 := by
          rcases hcond with h10 | hge
          · exact h10
          · rw [hi2] at hge; omega
        subst h10
        rw [go_newline] at hcode hblank
        refine ⟨[], by simp [isCodeLine, hreset], ?_, ?_⟩
        · rw [hj, hC, hCode2, hcode, List.countP_cons]
          by_cases hcl : s2.currentState = S_CODE
          · simp [hcl, hcur2.mpr hcl]; omega
          · have : isCodeLine (cur ++ [10]) = false := by
              cases hx : isCodeLine (cur ++ [10])
              · rfl
              · exact absurd (hcur2.mp hx) hcl
            simp [hcl, this]
        · rw [hj, hB, hBlank2, hblank, List.countP_cons]
          by_cases hcl : s2.currentState = S_CODE
          · simp [hcl, hcur2.mpr hcl]
          · have : isCodeLine (cur ++ [10]) = false := by
              cases hx : isCodeLine (cur ++ [10])
              · rfl
              · exact absurd (hcur2.mp hx) hcl
            simp [hcl, this]; omega
      · intro hend
        simp only [hidx, hi2] at hend
        have hnil : fileJob.Content.drop (s.index + 1) = [] := by
          rw [List.drop_eq_nil_iff]; omega
        rw [hnil] at hcode hblank
        have hgo : splitLines.go cur [last] = [cur ++ [last]] := by
          by_cases h10 : last = 10
          · subst h10; rw [go_newline]; simp [splitLines.go]
          · rw [go_other _ _ _ h10, go_last]
        rw [hgo] at hcode hblank
        rw [hj, hC, hB, hCode2, hBlank2, hcode, hblank]
        by_cases hcl : s2.currentState = S_CODE
        · simp [hcl, hcur2.mpr hcl]
        · have : isCodeLine (cur ++ [last]) = false := by
            cases hx : isCodeLine (cur ++ [last])
            · rfl
            · exact absurd (hcur2.mp hx) hcl
          simp [hcl, this]
    · have h10 : last ≠ 10 := fun h => hcond (Or.inl h)
      have hlt2 : s'.index + 1 < fileJob.Content.length := by
        have : ¬ s'.index ≥ fileJob.Content.length - 1 := fun h => hcond (Or.inr h)
        omega
      rw [go_other _ _ _ h10] at hcode hblank
      refine ⟨hstate2', hst2, by rw [hComment2, hcom], ?_, ?_⟩
      · intro _
        simp only [hi2]
        exact ⟨cur ++ [last], hcur2, by rw [hCode2]; exact hcode, by rw [hBlank2]; exact hblank⟩
      · intro hend
        simp only at hend
        omega
  · intro s r _ _ _ hb hbin
    obtain ⟨c, _, hcases⟩ := body_ret hb
    rcases hcases with ⟨_, _, hj, _⟩ | ⟨_, s2, _, _, f, hf, _⟩
    · rw [hj] at hbin; simp at hbin
    · cases hf
  · intro s _ ⟨_, _, hcom, _, hfin⟩ hidx _
    obtain ⟨h1, h2⟩ := hfin hidx
    obtain ⟨_, hC, hM, hB, _⟩ := finish_fields flags s
    rw [hC, hM, hB]
    exact ⟨h1.symm, h2.symm, hcom⟩

/-- C5: for a profile whose single-line comment, multi-line comment and string
sets are empty, no callback and counters initially 0: whenever `CountStats`
returns a job not flagged binary, `Code` is the number of lines of the content
holding a byte outside space, tab, newline and carriage return, `Blank` is the
number of lines holding only such bytes, and `Comment = 0`.  (With non-empty
complexity tokens the run always returns.) -/
theorem C5_plain_profile_code_and_blank (flags : Flags) (lang : LanguageFeature)
    (fileJob : FileJob) (hplain : lang.Plain) (hCode : fileJob.Code = 0)
    (hComment : fileJob.Comment = 0) (hBlank : fileJob.Blank = 0) :
    (lang.NonEmpty → ∃ r, CountStats flags lang none fileJob = some r) ∧
    ∀ r, CountStats flags lang none fileJob = some r → r.Binary = false →
      r.Code = ((splitLines fileJob.Content).countP
        (fun line => line.any (fun b => !blankByte b)) : Nat) ∧
      r.Blank = ((splitLines fileJob.Content).countP
        (fun line => line.all blankByte) : Nat) ∧
      r.Comment = 0 := by
  refine ⟨fun hne => CountStats_isSome flags none fileJob hne, fun r hr hbin => ?_⟩
  obtain ⟨s, hs, rfl⟩ := (CountStats_eq _ _ _ _ _).mp hr
  obtain ⟨h1, h2, h3⟩ := plain_invariant flags lang fileJob hplain hCode hComment hBlank hs hbin
  refine ⟨h1, ?_, h3⟩
  rw [h2]
  congr 2
  funext line
  simp [isCodeLine, List.all_eq_not_any_not]

theorem C5_witness :
    ∃ r, CountStats flagsOff plainProfile none (freshJob [10]) = some r ∧
      r.Lines = 1 ∧ r.Blank = 1 ∧ r.Code = 0 ∧ r.Comment = 0 :=
  ⟨_, rfl, rfl,
    ((C5_plain_profile_code_and_blank flagsOff plainProfile (freshJob [10]) (by decide)
      rfl rfl rfl).2 _ rfl rfl).2.1.trans (by decide), rfl, rfl⟩

theorem Moved_codeState {flags : Flags} {lang : LanguageFeature} {endPoint : Nat} {c : Byte}
    {s s2 : Scan} (h : Moved flags lang endPoint c s s2)
    (hcode : codeState s.currentState = true) : codeState s2.currentState = true := by
  rcases h with ⟨_, _, _, hst, _⟩ | ⟨_, _, _, ⟨_, _, hst, _⟩ |
    ⟨m, _, _, _, _, _, _, _, h1, h2, h3, hst⟩ | ⟨top, _, _, _, _, _, _, hin, hst⟩⟩
  · rw [hst]; exact hcode
  · revert hst hcode
    cases s.currentState <;> cases s2.currentState <;> simp [stayStates, codeState]
  · rw [hst]
    revert hcode h1 h2 h3
    cases s.currentState <;> simp [pushState, codeState]
  · rw [hst]
    rcases hin with hin | hin
    · rw [hin] at hcode
      simp [codeState] at hcode
    · rw [hin]
      by_cases hd : s.endComments.dropLast = [] <;> simp [hd, codeState]

/-- C6: an iteration of the scan that starts in one of `S_CODE`, `S_STRING`,
`S_COMMENT_CODE`, `S_MULTICOMMENT_CODE` ends in one of three ways, for every
profile, flag setting, callback and content: the binary exit (only `Binary`
changes); the line goes on, the state is still one of the four and no counter
of lines moved; or the line is committed, and then as code (`Lines` and `Code`
go up by one, `Comment` and `Blank` stay).  In the C-like profile an inline
`//` comment and a `/* */` comment opened and closed after code leave the line
counted as code. -/
theorem C6_code_states_commit_as_code :
    (∀ (flags : Flags) (lang : LanguageFeature) (callback : Option Callback) (endPoint : Nat)
      (s s' : Scan) (out : Step),
      codeState s.currentState = true →
      CountStats.body flags lang callback endPoint s = some out →
      (out = Step.next s' ∨ out = Step.ret s') →
        (out = Step.ret s' ∧ s'.fileJob = { s.fileJob with Binary := true }) ∨
        (out = Step.next s' ∧ codeState s'.currentState = true ∧
          s'.fileJob.Lines = s.fileJob.Lines ∧ s'.fileJob.Code = s.fileJob.Code ∧
          s'.fileJob.Comment = s.fileJob.Comment ∧ s'.fileJob.Blank = s.fileJob.Blank) ∨
        (s'.fileJob.Lines = s.fileJob.Lines + 1 ∧ s'.fileJob.Code = s.fileJob.Code + 1 ∧
          s'.fileJob.Comment = s.fileJob.Comment ∧ s'.fileJob.Blank = s.fileJob.Blank)) ∧
    (CountStats flagsOff cProfile none (freshJob (ascii "int x = 1; // hi\n"))).map
        (fun r => (r.Lines, r.Code, r.Comment)) = some (1, 1, 0) ∧
    (CountStats flagsOff cProfile none (freshJob (ascii "i = 1 /* c */ + 2\n"))).map
        (fun r => (r.Lines, r.Code, r.Comment)) = some (1, 1, 0) := by
  refine ⟨?_, by decide, by decide⟩
  intro flags lang callback endPoint s s' out hcode hb hout
  obtain ⟨c, _, hcases⟩ := body_step hb
  rcases hcases with ⟨_, _, r, hr, hj, _⟩ | ⟨_, s2, hmv, last, _, hcm⟩
  · left
    subst hr
    rcases hout with hout | hout <;> cases hout
    exact ⟨rfl, hj⟩
  · right
    have hcode2 := Moved_codeState hmv hcode
    obtain ⟨hL, hC, hM, hB, _⟩ := Moved_Lines hmv
    rcases hcm with ⟨_, s3, hj, _, _, _, _, hs3⟩ | ⟨_, hn⟩
    · right
      have hs' : s' = s3 := by
        rcases hs3 with ⟨_, _, hs3⟩ | ⟨_, _, _, ⟨_, hs3⟩ | ⟨_, hs3⟩⟩ <;> subst hs3 <;>
          rcases hout with hout | hout <;> cases hout <;> rfl
      subst hs'
      have hlt : lineTypeOf s2.currentState = LINE_CODE := by
        revert hcode2
        cases s2.currentState <;> simp [codeState, lineTypeOf]
      rw [hj, hlt]
      simp [countLine, hL, hC, hM, hB]
    · left
      subst hn
      rcases hout with hout | hout <;> cases hout
      exact ⟨rfl, hcode2, hL, hC, hM, hB⟩

theorem C6_witness :
    ∃ s', CountStats.body flagsOff cProfile none 6 commentAfterCode = some (Step.next s') ∧
      s'.currentState = S_COMMENT_CODE ∧ codeState s'.currentState = true ∧
      s'.fileJob.Code = commentAfterCode.fileJob.Code := by
  refine ⟨{ commentAfterCode with currentState := S_COMMENT_CODE }, rfl, rfl, ?_⟩
  rcases C6_code_states_commit_as_code.1 flagsOff cProfile none 6 commentAfterCode
    { commentAfterCode with currentState := S_COMMENT_CODE }
    (Step.next { commentAfterCode with currentState := S_COMMENT_CODE }) rfl rfl (Or.inl rfl)
    with ⟨h, _⟩ | ⟨_, h1, _, h2, _⟩ | ⟨h, _⟩
  · cases h
  · exact ⟨h1, h2⟩
  · exact absurd h (by decide)

/-! ### A multi-line comment that is never closed -/

theorem checkForMatchMultiOpen_congr (c : Byte) (index endPoint : Nat) (l : List OpenClose)
    (j1 j2 : FileJob) (h : j1.Content = j2.Content) :
    checkForMatchMultiOpen c index endPoint l j1 =
      checkForMatchMultiOpen c index endPoint l j2 := by
  induction l with
  | nil => rfl
  | cons m rest ih =>
    unfold checkForMatchMultiOpen
    rw [h, ih]

theorem infix_of_prefix_drop {d content : List Byte} {n i : Nat} (hle : n ≤ i)
    (h : d <+: content.drop i) : d <:+: content.drop n :=
  h.isInfix.trans (List.drop_suffix_drop_left content hle).isInfix

/-- Inside a comment whose bottom close delimiter does not occur from `n` on,
the move of an iteration stays inside the comment. -/
theorem InsideComment_dispatch {flags : Flags} {lang : LanguageFeature} {endPoint : Nat}
    {fileJob : FileJob} {n : Nat} {close : List Byte} {s s2 : Scan} {c : Byte}
    (hcont : s.fileJob.Content = fileJob.Content)
    (hnever : ¬ close <:+: fileJob.Content.drop n) (hidx : n ≤ s.index)
    (hin : InsideComment fileJob n close s)
    (h : CountStats.dispatch flags lang endPoint s c = some s2) :
    InsideComment fileJob n close s2 := by
  obtain ⟨_, hst, hhead, hC, hB, hM⟩ := hin
  obtain ⟨hframe, hmove⟩ := dispatch_spec h
  have hjob : s2.fileJob.Code = s.fileJob.Code ∧ s2.fileJob.Blank = s.fileJob.Blank ∧
      s2.fileJob.Comment = s.fileJob.Comment ∧ s2.fileJob.Lines = s.fileJob.Lines := by
    rcases hframe.1 with hj | ⟨_, hj⟩ <;> rw [hj] <;> simp
  obtain ⟨e1, e2, e3, e4⟩ := hjob
  have hne : s.endComments ≠ [] := by
    intro he; rw [he] at hhead; cases hhead
  rcases hmove with ⟨hi, hstack, hstay, _⟩ | ⟨m, _, _, _, _, hi, hstack, _, _, _, _, hpush⟩ |
    ⟨top, hlast, _, hocc, _, hi, hstack, _, hpop⟩
  · refine ⟨by omega, ?_, by rw [hstack]; exact hhead, by rw [e1, hC], by rw [e2, hB],
      by rw [e3, e4]; exact hM⟩
    rw [hst] at hstay
    revert hstay
    cases s2.currentState <;> simp [stayStates]
  · refine ⟨by omega, by rw [hpush, hst]; rfl, ?_, by rw [e1, hC], by rw [e2, hB],
      by rw [e3, e4]; exact hM⟩
    rw [hstack, List.head?_append, hhead]
    rfl
  · have hlen : s.endComments.dropLast ≠ [] := by
      intro hd
      apply hnever
      have h1 : s.endComments.length = 1 := by
        have := congrArg List.length hd
        rw [List.length_dropLast] at this
        have := List.length_pos.mpr hne
        simp at *
        omega
      obtain ⟨x, hx⟩ := List.length_eq_one.mp h1
      rw [hx] at hhead hlast
      simp at hhead hlast
      subst hhead
      subst hlast
      rw [hcont] at hocc
      exact infix_of_prefix_drop hidx hocc
    refine ⟨by omega, by rw [hpop, if_neg hlen, hst], ?_, by rw [e1, hC], by rw [e2, hB],
      by rw [e3, e4]; exact hM⟩
    rw [hstack, List.head?_dropLast]
    have : 1 < s.endComments.length := by
      have h0 : s.endComments.dropLast.length ≠ 0 := fun h => hlen (List.length_eq_zero.mp h)
      rw [List.length_dropLast] at h0
      omega
    rw [if_pos this, hhead]

/-- The first iteration of a scan whose content begins with a multi-line comment
opener (first byte not whitespace) enters the comment. -/
theorem InsideComment_first {flags : Flags} {lang : LanguageFeature} {endPoint : Nat}
    {fileJob : FileJob} {n : Nat} {close : List Byte} {s s2 : Scan} {c : Byte}
    (hidx : s.index = 0) (hst : s.currentState = S_BLANK) (hstack : s.endComments = [])
    (hcont : s.fileJob.Content = fileJob.Content)
    (hC : s.fileJob.Code = fileJob.Code) (hB : s.fileJob.Blank = fileJob.Blank)
    (hM : s.fileJob.Comment - fileJob.Comment = s.fileJob.Lines - fileJob.Lines)
    (hopen : checkForMatchMultiOpen c 0 endPoint lang.MultiLineComment fileJob =
      some (n, close))
    (hn : n ≠ 0)
    (h : CountStats.dispatch flags lang endPoint s c = some s2) :
    InsideComment fileJob n close s2 := by
  obtain ⟨job, idx, st, ec, es, dg, cl⟩ := s
  simp only at hidx hst hstack hcont hC hB hM
  subst hidx hst hstack
  have hcongr := checkForMatchMultiOpen_congr c 0 endPoint lang.MultiLineComment job fileJob
    hcont
  simp only [CountStats.dispatch, CountStats.caseBlank, List.length_nil, or_true, if_true,
    hcongr, hopen, ne_eq, hn, not_false_eq_true] at h
  cases h
  exact ⟨by simp only; omega, rfl, by simp, hC, hB, hM⟩

theorem countLine_comment (j : FileJob) :
    (countLine (lineTypeOf S_MULTICOMMENT) j).Code = j.Code ∧
    (countLine (lineTypeOf S_MULTICOMMENT) j).Blank = j.Blank ∧
    (countLine (lineTypeOf S_MULTICOMMENT) j).Comment = j.Comment + 1 ∧
    (countLine (lineTypeOf S_MULTICOMMENT) j).Lines = j.Lines + 1 := by
  simp [countLine, lineTypeOf]

/-- A scan whose content begins with a multi-line comment opener (first byte
not whitespace) whose paired close delimiter never occurs after it counts every
line as comment. -/
theorem unclosed_comment_invariant (flags : Flags) (lang : LanguageFeature)
    (callback : Option Callback) (fileJob : FileJob) (c : Byte) (n : Nat) (close : List Byte)
    (hc : fileJob.Content[0]? = some c) (hws : isWhitespace c = false)
    (hopen : checkForMatchMultiOpen c 0 (fileJob.Content.length - 1) lang.MultiLineComment
      fileJob = some (n, close))
    (hn : n ≠ 0) (hnever : ¬ close <:+: fileJob.Content.drop n) {r : Scan}
    (h : CountStats.run flags lang callback fileJob = some r) :
    r.fileJob.Binary = false →
      r.fileJob.Comment - fileJob.Comment = r.fileJob.Lines - fileJob.Lines ∧
      r.fileJob.Code = fileJob.Code ∧ r.fileJob.Blank = fileJob.Blank := by
  have hne : fileJob.Content ≠ [] := by
    intro he; rw [he] at hc; cases hc
  have step : ∀ (s : Scan) (out : Step), s.fileJob.Content = fileJob.Content →
      ((s.index = 0 ∧ s.currentState = S_BLANK ∧ s.endComments = [] ∧
        s.fileJob.Code = fileJob.Code ∧ s.fileJob.Blank = fileJob.Blank ∧
        s.fileJob.Comment - fileJob.Comment = s.fileJob.Lines - fileJob.Lines) ∨
       (n ≤ s.index ∧ InsideComment fileJob n close s)) →
      CountStats.body flags lang callback (fileJob.Content.length - 1) s = some out →
      (∃ r', out = Step.ret r' ∧ r'.fileJob.Binary = true) ∨
      ∃ s2, InsideComment fileJob n close s2 ∧
        (out = Step.next s2 ∨ Committed callback s2 out) := by
    intro s out hcont hinv hb
    obtain ⟨c', hc', s1, e1, e2, e3, e4, e5, _, hcases⟩ := body_cases hb
    rcases hcases with ⟨_, _, hret⟩ | ⟨_, s2, hmv, last, _, hcm⟩
    · left
      exact ⟨_, hret, rfl⟩
    · right
      have hin2 : InsideComment fileJob n close s2 := by
        rcases hinv with ⟨hi, hst, hstack, hC, hB, hM⟩ | ⟨hi, hin⟩
        · rw [hi, hcont, hc] at hc'
          cases hc'
          rcases hmv with ⟨hw, _⟩ | ⟨_, hd⟩
          · rw [hws] at hw; cases hw
          · exact InsideComment_first (by rw [e2, hi]) (by rw [e3, hst]) (by rw [e4, hstack])
              (by rw [e1, hcont]) (by rw [e1, hC]) (by rw [e1, hB]) (by rw [e1]; exact hM)
              hopen hn hd
        · have hin1 : InsideComment fileJob n close s1 := by
            unfold InsideComment at hin ⊢
            rw [e1, e2, e3, e4]
            exact hin
          rcases hmv with ⟨_, rfl⟩ | ⟨_, hd⟩
          · exact hin1
          · exact InsideComment_dispatch (by rw [e1, hcont]) hnever (by rw [e2]; exact hi)
              hin1 hd
      refine ⟨s2, hin2, ?_⟩
      rcases hcm with ⟨_, hout⟩ | ⟨_, hout⟩
      · right
        rw [hout]
        exact commit_spec callback s2
      · left
        exact hout
  refine run_invariant flags lang callback fileJob
    (fun s => (s.index = 0 ∧ s.currentState = S_BLANK ∧ s.endComments = [] ∧
        s.fileJob.Code = fileJob.Code ∧ s.fileJob.Blank = fileJob.Blank ∧
        s.fileJob.Comment - fileJob.Comment = s.fileJob.Lines - fileJob.Lines) ∨
       (n ≤ s.index ∧ InsideComment fileJob n close s))
    (fun r => r.fileJob.Binary = false →
      r.fileJob.Comment - fileJob.Comment = r.fileJob.Lines - fileJob.Lines ∧
      r.fileJob.Code = fileJob.Code ∧ r.fileJob.Blank = fileJob.Blank) ?_ ?_ ?_ ?_ ?_ h
  · intro he
    exact absurd he hne
  · intro _
    left
    simp [CountStats.start]
  · intro s s' hsafe hinv _ hb
    right
    rcases step s _ hsafe.1 hinv hb with ⟨r', hr', _⟩ | ⟨s2, hin2, hout⟩
    · cases hr'
    · obtain ⟨hi2, hst2, hhead2, hC2, hB2, hM2⟩ := hin2
      rcases hout with hout | hout
      · cases hout
        exact ⟨hi2, by simp only; omega, hst2, hhead2, hC2, hB2, hM2⟩
      · obtain ⟨hj, hidx, hst, hec, _⟩ := Committed_next hout
        rw [hst2] at hj hst
        obtain ⟨k1, k2, k3, k4⟩ := countLine_comment s2.fileJob
        refine ⟨by simp only; omega, by simp only; omega, hst, by simp only [hec, hhead2],
          by simp only [hj, k1, hC2], by simp only [hj, k2, hB2], ?_⟩
        simp only [hj, k3, k4]
        omega
  · intro s r hsafe hinv _ hb hbin
    rcases step s _ hsafe.1 hinv hb with ⟨r', hr', hb'⟩ | ⟨s2, hin2, hout⟩
    · cases hr'
      rw [hb'] at hbin
      cases hbin
    · obtain ⟨_, hst2, _, hC2, hB2, hM2⟩ := hin2
      rcases hout with hout | hout
      · cases hout
      · obtain ⟨⟨_, hj⟩, _⟩ := Committed_ret hout
        rw [hst2] at hj
        obtain ⟨k1, k2, k3, k4⟩ := countLine_comment s2.fileJob
        refine ⟨?_, by rw [hj, k1, hC2], by rw [hj, k2, hB2]⟩
        rw [hj, k3, k4]
        omega
  · intro s _ hinv hidx _
    obtain ⟨f1, f2, f3, f4, _⟩ := finish_fields flags s
    rw [f1, f2, f3, f4]
    rcases hinv with ⟨hi, _⟩ | ⟨_, _, _, _, hC, hB, hM⟩
    · have := List.length_pos.mpr hne
      omega
    · exact ⟨hM, hC, hB⟩

/-- C7 does not hold when the open delimiter starts with a whitespace byte:
the profile `spaceCommentProfile` (sequences non-empty, no newline in its
delimiters) pairs the opener at index 0 of the content space, slash, star,
space, `a`, newline with the close delimiter `*/`, which occurs nowhere after
it; yet the scanner skips the leading space without looking for delimiters and
counts the line as code. -/
theorem C7_counterexample :
    spaceCommentProfile.NonEmpty ∧ spaceCommentProfile.MultiLineFree 10 ∧
    checkForMatchMultiOpen 32 0 5 spaceCommentProfile.MultiLineComment
      (freshJob (ascii " /* a\n")) = some (3, ascii "*/") ∧
    ¬ (ascii "*/" <:+: (ascii " /* a\n").drop 3) ∧
    ∃ r, CountStats flagsOff spaceCommentProfile none (freshJob (ascii " /* a\n")) = some r ∧
      r.Binary = false ∧ r.Lines = 1 ∧ r.Code = 1 ∧ r.Comment = 0 ∧ r.Comment ≠ r.Lines :=
  ⟨by decide, by decide, by decide, by decide, _, rfl, rfl, rfl, rfl, rfl, by decide⟩

/-- C7, for an opener whose first byte is not whitespace: for a profile whose
sequences are non-empty (multi-line delimiters without newline), any flags and
callback, and a job whose line counters start at 0 and whose content has a
first byte `c` that is not whitespace and at whose index 0 the open/close match
finds an opener of length `n > 0` paired with the close delimiter `close`,
where `close` occurs nowhere in the content from index `n` on: `CountStats`
returns, and if the job is not flagged binary every line counted was counted as
comment, `Comment = Lines` and `Code = Blank = 0`. -/
theorem C7_unclosed_comment_counts_as_comment (flags : Flags) (lang : LanguageFeature)
    (callback : Option Callback) (fileJob : FileJob) (c : Byte) (n : Nat) (close : List Byte)
    (hne : lang.NonEmpty) (_hfree : lang.MultiLineFree 10)
    (hLines : fileJob.Lines = 0) (hCode : fileJob.Code = 0)
    (hComment : fileJob.Comment = 0) (hBlank : fileJob.Blank = 0)
    (hc : fileJob.Content[0]? = some c) (hws : isWhitespace c = false)
    (hopen : checkForMatchMultiOpen c 0 (fileJob.Content.length - 1) lang.MultiLineComment
      fileJob = some (n, close))
    (hn : n ≠ 0) (hnever : ¬ close <:+: fileJob.Content.drop n) :
    ∃ r, CountStats flags lang callback fileJob = some r ∧
      (r.Binary = false → r.Comment = r.Lines ∧ r.Code = 0 ∧ r.Blank = 0) := by
  obtain ⟨r, hr⟩ := CountStats_isSome flags callback fileJob hne
  refine ⟨r, hr, fun hbin => ?_⟩
  obtain ⟨s, hs, rfl⟩ := (CountStats_eq _ _ _ _ _).mp hr
  obtain ⟨h1, h2, h3⟩ := unclosed_comment_invariant flags lang callback fileJob c n close hc hws
    hopen hn hnever hs hbin
  refine ⟨?_, by rw [h2, hCode], by rw [h3, hBlank]⟩
  rw [hLines, hComment] at h1
  omega

theorem C7_witness :
    ∃ r, CountStats flagsOff cProfile none (freshJob (ascii "/* a\n\n b")) = some r ∧
      r.Lines = 3 ∧ r.Comment = r.Lines ∧ r.Code = 0 ∧ r.Blank = 0 := by
  obtain ⟨r, hr, h⟩ := C7_unclosed_comment_counts_as_comment flagsOff cProfile none
    (freshJob (ascii "/* a\n\n b")) 47 2 (ascii "*/") (by decide) (by decide) rfl rfl rfl rfl
    (by decide) (by decide) (by decide) (by decide) (by decide)
  have hr' : CountStats flagsOff cProfile none (freshJob (ascii "/* a\n\n b")) =
      some { freshJob [] with Bytes := 8, Lines := 3, Comment := 3 } := by decide
  have he : r = { freshJob [] with Bytes := 8, Lines := 3, Comment := 3 } :=
    Option.some.inj (hr.symm.trans hr')
  subst he
  exact ⟨_, hr, rfl, h rfl⟩

/-! ### What the match helpers compute -/

theorem prefix_drop_cons {a c : Byte} {rest content : List Byte} {i : Nat}
    (hc : content[i]? = some c) :
    (a :: rest <+: content.drop i) ↔ (a = c ∧ rest <+: content.drop (i + 1)) := by
  rw [drop_of_getElem? hc, List.cons_prefix_cons]

theorem prefix_length_le {d content : List Byte} {i : Nat} (h : d <+: content.drop i) :
    i + d.length ≤ content.length ∨ d = [] := by
  by_cases hd : d = []
  · exact Or.inr hd
  · left
    have hle := h.length_le
    rw [List.length_drop] at hle
    have := List.length_pos.mpr hd
    omega

theorem matchLoopGT_of_occurs {content : List Byte} {index endPoint : Nat} {m : List Byte}
    {j : Nat} (h : m <+: content.drop (index + j))
    (hb : m ≠ [] → index + j + m.length ≤ endPoint + 1) :
    matchLoopGT content index endPoint m j = some true := by
  induction m generalizing j with
  | nil => rfl
  | cons a rest ih =>
    have hlen := hb (by simp)
    simp only [List.length_cons] at hlen
    have hle : ¬ index + j > endPoint := by omega
    have hpos : 0 < (content.drop (index + j)).length := by
      have := h.length_le
      simp only [List.length_cons] at this
      omega
    have hlt : index + j < content.length := by
      rw [List.length_drop] at hpos
      omega
    have hc := List.getElem?_eq_getElem hlt
    obtain ⟨hac, hrest⟩ := (prefix_drop_cons hc).mp h
    unfold matchLoopGT
    simp only [hle, if_false, hc]
    have hne : ¬ ((a != content[index + j]) = true) := by simp [hac]
    simp only [hne, if_false]
    apply ih
    · simpa [Nat.add_assoc] using hrest
    · intro _
      omega

theorem matchLoopGE_of_occurs {content : List Byte} {index endPoint : Nat} {m : List Byte}
    {j : Nat} (h : m <+: content.drop (index + j))
    (hb : m ≠ [] → index + j + m.length ≤ endPoint) :
    matchLoopGE content index endPoint m j = some true := by
  induction m generalizing j with
  | nil => rfl
  | cons a rest ih =>
    have hlen := hb (by simp)
    simp only [List.length_cons] at hlen
    have hle : ¬ index + j ≥ endPoint := by omega
    have hpos : 0 < (content.drop (index + j)).length := by
      have := h.length_le
      simp only [List.length_cons] at this
      omega
    have hlt : index + j < content.length := by
      rw [List.length_drop] at hpos
      omega
    have hc := List.getElem?_eq_getElem hlt
    obtain ⟨hac, hrest⟩ := (prefix_drop_cons hc).mp h
    unfold matchLoopGE
    simp only [hle, if_false, hc]
    have hne : ¬ ((a != content[index + j]) = true) := by simp [hac]
    simp only [hne, if_false]
    apply ih
    · simpa [Nat.add_assoc] using hrest
    · intro _
      omega

/-- The inner loop with the `>` bound test, for an `endPoint` inside the
content: it runs to its end exactly when the candidate stands in the content at
`index + j` and ends at or before `endPoint`. -/
theorem matchLoopGT_eq (content : List Byte) (index endPoint : Nat)
    (hend : endPoint < content.length) (m : List Byte) (j : Nat) :
    matchLoopGT content index endPoint m j =
      some (decide (m <+: content.drop (index + j) ∧
        (m ≠ [] → index + j + m.length ≤ endPoint + 1))) := by
  by_cases h : m <+: content.drop (index + j) ∧ (m ≠ [] → index + j + m.length ≤ endPoint + 1)
  · rw [matchLoopGT_of_occurs h.1 h.2, decide_eq_true h]
  · obtain ⟨b, hb⟩ := matchLoopGT_isSome content index endPoint hend m j
    cases b with
    | true => exact absurd (matchLoopGT_true hb) h
    | false => rw [hb, decide_eq_false h]

/-- The inner loop with the `>=` bound test: it runs to its end exactly when the
candidate stands in the content at `index + j` and ends before `endPoint`. -/
theorem matchLoopGE_eq (content : List Byte) (index endPoint : Nat)
    (hend : endPoint ≤ content.length) (m : List Byte) (j : Nat) :
    matchLoopGE content index endPoint m j =
      some (decide (m <+: content.drop (index + j) ∧
        (m ≠ [] → index + j + m.length ≤ endPoint))) := by
  by_cases h : m <+: content.drop (index + j) ∧ (m ≠ [] → index + j + m.length ≤ endPoint)
  · rw [matchLoopGE_of_occurs h.1 h.2, decide_eq_true h]
  · obtain ⟨b, hb⟩ := matchLoopGE_isSome content index endPoint hend m j
    cases b with
    | true => exact absurd (matchLoopGE_true hb) h
    | false => rw [hb, decide_eq_false h]

/-- What `checkForMatchSingle` computes when called on the byte at `index`: the
candidate must stand at `index` and end before `endPoint`. -/
theorem checkForMatchSingle_eq (c : Byte) (index endPoint : Nat) (m : List Byte)
    (fileJob : FileJob) (hm : m ≠ []) (hc : fileJob.Content[index]? = some c)
    (hend : endPoint ≤ fileJob.Content.length) :
    checkForMatchSingle c index endPoint m fileJob =
      some (decide (m <+: fileJob.Content.drop index ∧ index + m.length ≤ endPoint)) := by
  cases m with
  | nil => exact absurd rfl hm
  | cons a tl =>
    unfold checkForMatchSingle
    simp only [List.getElem?_cons_zero]
    by_cases hca : (c == a) = true
    · rw [if_pos hca, matchLoopGE_eq fileJob.Content index endPoint hend (a :: tl) 0]
      simp only [Nat.add_zero, ne_eq, reduceCtorEq, not_false_eq_true, forall_true_left]
      split <;> rename_i hdec
      · rw [hdec]
      · have : decide (a :: tl <+: List.drop index fileJob.Content ∧
            index + (a :: tl).length ≤ endPoint) = false := by simpa using hdec
        rw [this]
    · rw [if_neg hca]
      have hne : ¬ (a :: tl <+: fileJob.Content.drop index ∧
          index + (a :: tl).length ≤ endPoint) := by
        intro ⟨hp, _⟩
        have := ((prefix_drop_cons hc).mp hp).1
        exact hca (by simp [this])
      rw [decide_eq_false hne]

/-- What `checkForMatchMultiOpen` computes when called on the byte at `index`
with `endPoint` the index of the last byte. -/
theorem checkForMatchMultiOpen_eq (c : Byte) (index endPoint : Nat) (l : List OpenClose)
    (fileJob : FileJob) (hopen : ∀ m ∈ l, m.Open ≠ [])
    (hc : fileJob.Content[index]? = some c)
    (hend : endPoint + 1 = fileJob.Content.length) :
    checkForMatchMultiOpen c index endPoint l fileJob =
      some (firstOpen fileJob.Content index l) := by
  induction l with
  | nil => rfl
  | cons m rest ih =>
    have hm : m.Open ≠ [] := hopen m (by simp)
    have ih' := ih (fun x hx => hopen x (by simp [hx]))
    unfold checkForMatchMultiOpen firstOpen
    rw [List.find?_cons]
    cases hmo : m.Open with
    | nil => exact absurd hmo hm
    | cons a tl =>
      simp only [List.getElem?_cons_zero]
      by_cases hp : a :: tl <+: fileJob.Content.drop index
      · have hca : (c == a) = true := by
          have := ((prefix_drop_cons hc).mp hp).1
          simp [this]
        have hbound : a :: tl ≠ [] → index + 0 + (a :: tl).length ≤ endPoint + 1 := by
          intro _
          rcases prefix_length_le hp with h | h
          · omega
          · cases h
        rw [if_pos hca, matchLoopGT_eq fileJob.Content index endPoint (by omega) (a :: tl) 0,
          decide_eq_true (show _ ∧ _ from ⟨by simpa using hp, hbound⟩)]
        simp [hp, hmo]
      · have hrest : checkForMatchMultiOpen c index endPoint rest fileJob =
            some (match rest.find? (fun m => decide (m.Open <+: fileJob.Content.drop index)) with
              | some m => (m.Open.length, m.Close)
              | none => (0, [])) := ih'
        have hfalse : decide (a :: tl <+: fileJob.Content.drop index) = false :=
          decide_eq_false hp
        by_cases hca : (c == a) = true
        · rw [if_pos hca, matchLoopGT_eq fileJob.Content index endPoint (by omega) (a :: tl) 0,
            decide_eq_false (fun h => hp (by simpa using h.1))]
          simp only [Bool.false_eq_true, if_false, hfalse]
          exact hrest
        · rw [if_neg hca]
          simp only [hfalse]
          exact hrest

theorem hasMatch_iff (c : Byte) (l : List Byte) :
    checkComplexity.hasMatch c l = true ↔ c ∈ l := by
  induction l with
  | nil => simp [checkComplexity.hasMatch]
  | cons b rest ih =>
    unfold checkComplexity.hasMatch
    by_cases hb : b = c
    · simp [hb]
    · have hb' : ¬ c = b := fun h => hb h.symm
      simp [hb, hb', ih]

/-- The candidate loop of `checkComplexity` on the byte at `index`: a non-zero
length exactly when some candidate stands in the content at `index`. -/
theorem checkComplexity_loop_spec (c : Byte) (index endPoint : Nat) (fileJob : FileJob)
    (l : List (List Byte)) (hl : ∀ m ∈ l, m ≠ [])
    (hc : fileJob.Content[index]? = some c)
    (hend : endPoint + 1 = fileJob.Content.length) :
    ∃ n, checkComplexity.loop c index endPoint fileJob l = some n ∧
      (n ≠ 0 ↔ ∃ m ∈ l, m <+: fileJob.Content.drop index) := by
  induction l with
  | nil => exact ⟨0, rfl, by simp⟩
  | cons m rest ih =>
    have hm : m ≠ [] := hl m (by simp)
    obtain ⟨n, hn, hiff⟩ := ih (fun x hx => hl x (by simp [hx]))
    cases m with
    | nil => exact absurd rfl hm
    | cons a tl =>
      have hskip : ¬ (a :: tl <+: fileJob.Content.drop index) →
          ((n ≠ 0) ↔ ∃ x ∈ (a :: tl) :: rest, x <+: fileJob.Content.drop index) := by
        intro hp
        rw [hiff]
        constructor
        · rintro ⟨x, hx, hxp⟩
          exact ⟨x, by simp [hx], hxp⟩
        · rintro ⟨x, hx, hxp⟩
          rcases List.mem_cons.mp hx with rfl | hx
          · exact absurd hxp hp
          · exact ⟨x, hx, hxp⟩
      unfold checkComplexity.loop
      simp only
      by_cases hca : (c == a) = true
      · have hac : a = c := (eq_of_beq hca).symm
        rw [if_pos hca, matchLoopGT_eq fileJob.Content index endPoint (by omega) tl 1]
        by_cases hp : tl <+: fileJob.Content.drop (index + 1)
        · have hbound : tl ≠ [] → index + 1 + tl.length ≤ endPoint + 1 := by
            intro hne
            rcases prefix_length_le hp with h | h
            · omega
            · exact absurd h hne
          rw [decide_eq_true (show _ ∧ _ from ⟨hp, hbound⟩)]
          refine ⟨(a :: tl).length, by simp, ?_⟩
          constructor
          · intro _
            exact ⟨a :: tl, by simp, (prefix_drop_cons hc).mpr ⟨hac, hp⟩⟩
          · intro _
            simp
        · rw [decide_eq_false (fun h => hp h.1)]
          simp only [Bool.false_eq_true, if_false]
          exact ⟨n, hn, hskip (fun h => hp ((prefix_drop_cons hc).mp h).2)⟩
      · rw [if_neg hca]
        refine ⟨n, hn, hskip (fun h => hca ?_)⟩
        have := ((prefix_drop_cons hc).mp h).1
        simp [this]

/-- C12: `CountStats` does not always return the job with an empty `Content`.
It clears the content only when the loop runs to its end (or the content was
empty); the two `return`s inside the loop leave it in place: a file flagged
binary (bytes `a`, NUL) and a scan stopped by the callback at its first line
both come back with the content they had.  In general the returned content is
empty, or it is the input content and the job is flagged binary or the callback
answered stop to its last invocation. -/
theorem C12_content_kept_on_early_return :
    (∃ r, CountStats flagsOff cProfile none (freshJob [97, 0]) = some r ∧
      r.Binary = true ∧ r.Content = [97, 0]) ∧
    (∃ r, CountStats flagsOff cProfile (some stopAtOnce) (freshJob (ascii "a\nb\n")) = some r ∧
      r.Lines = 1 ∧ r.Content = ascii "a\nb\n") ∧
    (∃ r, CountStats flagsOff cProfile none (freshJob (ascii "a\nb\n")) = some r ∧
      r.Lines = 2 ∧ r.Content = []) ∧
    (∀ (flags : Flags) (lang : LanguageFeature) (callback : Option Callback)
      (fileJob : FileJob) (s : Scan),
      CountStats.run flags lang callback fileJob = some s →
        s.fileJob.Content = [] ∨
        (s.fileJob.Content = fileJob.Content ∧
          (s.fileJob.Binary = true ∨
            ∃ processLine, callback = some processLine ∧ processLine s.calls = false))) := by
  refine ⟨⟨_, rfl, rfl, rfl⟩, ⟨_, rfl, rfl, rfl⟩, ⟨_, rfl, rfl, rfl⟩, ?_⟩
  intro flags lang callback fileJob s hs
  refine run_invariant flags lang callback fileJob (fun _ => True)
    (fun s => s.fileJob.Content = [] ∨
        (s.fileJob.Content = fileJob.Content ∧
          (s.fileJob.Binary = true ∨
            ∃ processLine, callback = some processLine ∧ processLine s.calls = false)))
    ?_ ?_ ?_ ?_ ?_ hs
  · intro he
    exact Or.inl he
  · intro _; trivial
  · intro _ _ _ _ _ _; trivial
  · intro s r hsafe _ _ hb
    right
    obtain ⟨c, _, hcases⟩ := body_ret hb
    rcases hcases with ⟨_, _, hj, _⟩ | ⟨_, s2, hmv, hj, hstop⟩
    · exact ⟨by rw [hj]; exact hsafe.1, Or.inl (by rw [hj])⟩
    · refine ⟨?_, Or.inr hstop⟩
      rw [hj, ← hsafe.1, ← Moved_content hmv]
      cases lineTypeOf s2.currentState <;> rfl
  · intro s _ _ _
    exact Or.inl (finish_fields flags s).2.2.2.2.2.2.1

/-- C13: `checkForMatch` misses occurrences.  With the candidates `//!`, `//`
(longer first) at index 0 of the content slash, slash, space, `h`, `i`, newline
it answers false although `//` stands there, well inside the content: the
failed first candidate leaves `potentialMatch` false for all later ones (with
`//` alone it answers true).  It also answers false for `//` at index 0 of the
two-byte content `//`, where the occurrence ends on the last byte: the bound
test is `index+j >= endPoint`.  A true answer always comes with an
occurrence. -/
theorem C13_checkForMatch_misses_occurrences :
    (checkForMatch 47 0 5 [ascii "//!", ascii "//"] (freshJob (ascii "// hi\n")) = some false ∧
      ascii "//" <+: (ascii "// hi\n").drop 0 ∧ (ascii "//").length ≤ 5 - 0 + 1) ∧
    checkForMatch 47 0 5 [ascii "//"] (freshJob (ascii "// hi\n")) = some true ∧
    (checkForMatch 47 0 1 [ascii "//"] (freshJob (ascii "//")) = some false ∧
      ascii "//" <+: (ascii "//").drop 0 ∧ (ascii "//").length ≤ 1 - 0 + 1) ∧
    (∀ (c : Byte) (index endPoint : Nat) (candidates : List (List Byte)) (fileJob : FileJob),
      checkForMatch c index endPoint candidates fileJob = some true →
      ∃ m ∈ candidates, m ≠ [] ∧ m <+: fileJob.Content.drop index) :=
  ⟨⟨by decide, by decide, by decide⟩, by decide, ⟨by decide, by decide, by decide⟩,
    fun _ _ _ _ _ h => checkForMatch_true h⟩

/-- C15: `checkForMatchSingle` misses an occurrence that ends on the last byte.
For the content `a*/` (endPoint 2) and the sequence `*/` at index 1 it answers
false although the sequence stands there and fits (`2 ≤ endPoint - index + 1`):
the bound test is `index+j >= endPoint`.  Called on the byte at `index` with a
non-empty sequence it answers true exactly when the sequence stands at `index`
and ends before `endPoint`. -/
theorem C15_checkForMatchSingle_misses_last_byte :
    (checkForMatchSingle 42 1 2 (ascii "*/") (freshJob (ascii "a*/")) = some false ∧
      ascii "*/" <+: (ascii "a*/").drop 1 ∧ (ascii "*/").length ≤ 2 - 1 + 1) ∧
    (∀ (c : Byte) (index endPoint : Nat) (m : List Byte) (fileJob : FileJob),
      m ≠ [] → fileJob.Content[index]? = some c → endPoint ≤ fileJob.Content.length →
      checkForMatchSingle c index endPoint m fileJob =
        some (decide (m <+: fileJob.Content.drop index ∧ index + m.length ≤ endPoint))) :=
  ⟨⟨by decide, by decide, by decide⟩,
    fun c index endPoint m fileJob hm hc hend =>
      checkForMatchSingle_eq c index endPoint m fileJob hm hc hend⟩

/-- C20: whether the last line ends with a newline does change how it is
classified.  In the C-like profile (sequences non-empty, no newline in the
multi-line delimiters) the content `//`, which holds no NUL byte and does not
end with a newline, is counted as one code line, and `//` followed by a newline
as one comment line: `checkForMatch` does not accept an opener that ends on the
last byte. -/
theorem C20_trailing_newline_changes_classification :
    cProfile.NonEmpty ∧ cProfile.MultiLineFree 10 ∧ (0 : Byte) ∉ ascii "//" ∧
    (ascii "//").getLast? ≠ some 10 ∧
    (CountStats flagsOff cProfile none (freshJob (ascii "//"))).map
      (fun r => (r.Lines, r.Code, r.Comment, r.Blank)) = some (1, 1, 0, 0) ∧
    (CountStats flagsOff cProfile none (freshJob (ascii "//" ++ [10]))).map
      (fun r => (r.Lines, r.Code, r.Comment, r.Blank)) = some (1, 0, 1, 0) :=
  ⟨by decide, by decide, by decide, by decide, by decide, by decide⟩

/-- C14: called on the byte at `index` (`0 ≤ index ≤ endPoint`, `endPoint` the
index of the last byte) with pairs whose openers are non-empty,
`checkForMatchMultiOpen` returns `(len(Open), Close)` of the first pair in
registered order whose opener stands in the content at `index` (it then ends at
or before `endPoint`), and `(0, nil)` when no opener stands there. -/
theorem C14_checkForMatchMultiOpen_first_pair (c : Byte) (index endPoint : Nat)
    (pairs : List OpenClose) (fileJob : FileJob) (hopen : ∀ m ∈ pairs, m.Open ≠ [])
    (hc : fileJob.Content[index]? = some c)
    (hend : endPoint + 1 = fileJob.Content.length) :
    (∀ m, pairs.find? (fun m => decide (m.Open <+: fileJob.Content.drop index)) = some m →
      checkForMatchMultiOpen c index endPoint pairs fileJob = some (m.Open.length, m.Close) ∧
      index + m.Open.length ≤ endPoint + 1) ∧
    (pairs.find? (fun m => decide (m.Open <+: fileJob.Content.drop index)) = none →
      checkForMatchMultiOpen c index endPoint pairs fileJob = some (0, [])) := by
  have h := checkForMatchMultiOpen_eq c index endPoint pairs fileJob hopen hc hend
  unfold firstOpen at h
  refine ⟨fun m hm => ?_, fun hnone => ?_⟩
  · rw [hm] at h
    refine ⟨h, ?_⟩
    have hp : m.Open <+: fileJob.Content.drop index := by
      simpa using List.find?_some hm
    rcases prefix_length_le hp with hle | he
    · omega
    · exact absurd he (hopen m (List.mem_of_find?_eq_some hm))
  · rw [hnone] at h
    exact h

theorem C14_witness :
    checkForMatchMultiOpen 47 2 5 cProfile.MultiLineComment (freshJob (ascii "x /* y")) =
      some (2, ascii "*/") :=
  ((C14_checkForMatchMultiOpen_first_pair 47 2 5 cProfile.MultiLineComment
    (freshJob (ascii "x /* y")) (by decide) (by decide) (by decide)).1
    { Open := ascii "/*", Close := ascii "*/" } (by decide)).1

/-- C17 does not hold at position 0: there `checkComplexity` makes no whitespace
test, so the `if ` that opens the content `if x:`, newline, four spaces, `pass`,
newline is reported (length 3) and the scan counts it (`Complexity = 1`). -/
theorem C17_counterexample :
    checkComplexity 105 0 14 cProfile.ComplexityChecks cProfile.ComplexityBytes
      (freshJob (ascii "if x:\n    pass\n")) = some 3 ∧
    (CountStats flagsOff cProfile none (freshJob (ascii "if x:\n    pass\n"))).map
      (fun r => r.Complexity) = some 1 :=
  ⟨by decide, by decide⟩

/-- C17, with position 0 allowed: called on the byte at `index` (`endPoint` the
index of the last byte) with non-empty complexity sequences, `checkComplexity`
returns a non-zero length exactly when (a) `index` is position 0 of the file or
the byte immediately before `index` is whitespace, (b) the byte at `index` is
in `complexityBytes`, and (c) some sequence of `complexityChecks` stands in the
content at `index`. -/
theorem C17_complexity_token (c : Byte) (index endPoint : Nat)
    (complexityChecks : List (List Byte)) (complexityBytes : List Byte) (fileJob : FileJob)
    (hne : ∀ m ∈ complexityChecks, m ≠ [])
    (hc : fileJob.Content[index]? = some c)
    (hend : endPoint + 1 = fileJob.Content.length) :
    ∃ n, checkComplexity c index endPoint complexityChecks complexityBytes fileJob = some n ∧
      (n ≠ 0 ↔
        (index = 0 ∨ ∃ p, fileJob.Content[index - 1]? = some p ∧ isWhitespace p = true) ∧
        c ∈ complexityBytes ∧
        ∃ m ∈ complexityChecks, m <+: fileJob.Content.drop index) := by
  obtain ⟨n, hn, hiff⟩ := checkComplexity_loop_spec c index endPoint fileJob complexityChecks
    hne hc hend
  have hrest : ∃ k, (if (!checkComplexity.hasMatch c complexityBytes) = true then some 0
        else checkComplexity.loop c index endPoint fileJob complexityChecks) = some k ∧
      (k ≠ 0 ↔ c ∈ complexityBytes ∧
        ∃ m ∈ complexityChecks, m <+: fileJob.Content.drop index) := by
    by_cases hb : c ∈ complexityBytes
    · have := (hasMatch_iff c complexityBytes).mpr hb
      simp only [this, Bool.not_true, Bool.false_eq_true, if_false]
      exact ⟨n, hn, by rw [hiff]; simp [hb]⟩
    · have : checkComplexity.hasMatch c complexityBytes = false := by
        cases h : checkComplexity.hasMatch c complexityBytes
        · rfl
        · exact absurd ((hasMatch_iff c complexityBytes).mp h) hb
      simp only [this, Bool.not_false, if_true]
      exact ⟨0, rfl, by simp [hb]⟩
  obtain ⟨k, hk, hkiff⟩ := hrest
  by_cases h0 : index = 0
  · have hval : checkComplexity c index endPoint complexityChecks complexityBytes fileJob =
        some k := by
      unfold checkComplexity
      simp only [hk]
      rw [if_neg (not_not.mpr h0)]
    exact ⟨k, hval, fun h => ⟨Or.inl h0, hkiff.mp h⟩, fun h => hkiff.mpr h.2⟩
  · have hlt : index - 1 < fileJob.Content.length := by
      have := (List.getElem?_eq_some.mp hc).1
      omega
    have hprev := List.getElem?_eq_getElem hlt
    have hval : checkComplexity c index endPoint complexityChecks complexityBytes fileJob =
        (if (!isWhitespace fileJob.Content[index - 1]) = true then some 0 else some k) := by
      unfold checkComplexity
      simp only [hk, ne_eq, h0, not_false_eq_true, if_true, hprev]
    cases hw : isWhitespace fileJob.Content[index - 1] with
    | true =>
      rw [hw] at hval
      exact ⟨k, hval, fun h => ⟨Or.inr ⟨_, hprev, hw⟩, hkiff.mp h⟩, fun h => hkiff.mpr h.2⟩
    | false =>
      rw [hw] at hval
      refine ⟨0, hval, fun h => absurd rfl h, fun h => ?_⟩
      rcases h.1 with h1 | ⟨p, hp, hpw⟩
      · exact absurd h1 h0
      · rw [hprev] at hp
        cases hp
        rw [hw] at hpw
        cases hpw

theorem C17_witness :
    ∃ n, checkComplexity 105 2 6 cProfile.ComplexityChecks cProfile.ComplexityBytes
        (freshJob (ascii "a if x\n")) = some n ∧ n ≠ 0 := by
  obtain ⟨n, hn, hiff⟩ := C17_complexity_token 105 2 6 cProfile.ComplexityChecks
    cProfile.ComplexityBytes (freshJob (ascii "a if x\n")) (by decide) (by decide) (by decide)
  refine ⟨n, hn, hiff.mpr ⟨Or.inr ⟨32, by decide, by decide⟩, by decide, ascii "if ",
    by decide, by decide⟩⟩

/-! ### The comment stack at every point of a scan -/

theorem StackMatchesState_dispatch {flags : Flags} {lang : LanguageFeature} {endPoint : Nat}
    {s s' : Scan} {c : Byte} (hinv : StackMatchesState lang s)
    (h : CountStats.dispatch flags lang endPoint s c = some s') :
    StackMatchesState lang s' := by
  obtain ⟨hi1, hi2⟩ := hinv
  obtain ⟨_, hmove⟩ := dispatch_spec h
  rcases hmove with ⟨_, hstack, hst, _⟩ |
    ⟨m, _, _, _, _, _, hstack, hguard, _, _, _, hst⟩ |
    ⟨top, _, _, _, _, _, hstack, hin, hst⟩
  · refine ⟨?_, by rw [hstack]; exact hi2⟩
    rw [hstack, ← hi1]
    revert hst
    cases s.currentState <;> cases s'.currentState <;> simp [stayStates]
  · refine ⟨?_, ?_⟩
    · rw [hstack, hst]
      have : pushState s.currentState = S_MULTICOMMENT ∨
          pushState s.currentState = S_MULTICOMMENT_CODE := by
        cases s.currentState <;> simp [pushState]
      simp [this]
    · intro hn
      rcases hguard with hg | hg
      · rw [hg] at hn; cases hn
      · rw [hstack, hg]; simp
  · refine ⟨?_, ?_⟩
    · rw [hstack, hst]
      by_cases hd : s.endComments.dropLast = []
      · simp only [hd, if_true, ne_eq, not_true_eq_false, iff_false]
        split <;> simp
      · simp only [hd, if_false, ne_eq, not_false_eq_true, iff_true]
        exact hin
    · intro hn
      rw [hstack, List.length_dropLast]
      have := hi2 hn
      omega

theorem StackMatchesState_commit {lang : LanguageFeature} {callback : Option Callback}
    {s s' : Scan} (hinv : StackMatchesState lang s)
    (h : CountStats.commit callback s = Step.next s' ∨
      CountStats.commit callback s = Step.ret s') :
    StackMatchesState lang s' := by
  obtain ⟨hi1, hi2⟩ := hinv
  obtain ⟨s3, _, _, hst, hec, _, hs3⟩ := commit_spec callback s
  have hs' : s' = s3 := by
    rcases hs3 with ⟨_, _, hs3⟩ | ⟨_, _, _, ⟨_, hs3⟩ | ⟨_, hs3⟩⟩ <;> rw [hs3] at h <;>
      rcases h with h | h <;> cases h <;> rfl
  subst hs'
  refine ⟨?_, by rw [hec]; exact hi2⟩
  rw [hec, ← hi1, hst]
  cases s.currentState <;> simp [resetState]

theorem headAt_safe {flags : Flags} {lang : LanguageFeature} {callback : Option Callback}
    {content : List Byte} :
    ∀ (k : Nat) (s0 s : Scan), Safe lang content s0 →
      CountStats.headAt flags lang callback (content.length - 1) k s0 = some s →
      Safe lang content s := by
  intro k
  induction k with
  | zero =>
    intro s0 s h0 h
    cases h
    exact h0
  | succ k ih =>
    intro s0 s h0 h
    unfold CountStats.headAt at h
    by_cases hlt : s0.index < s0.fileJob.Content.length
    · rw [if_pos hlt] at h
      have hlt' : s0.index < content.length := by rw [← h0.1]; exact hlt
      cases hb : CountStats.body flags lang callback (content.length - 1) s0 with
      | none => simp [hb] at h
      | some out =>
        cases out with
        | ret r => simp [hb] at h
        | next s1 =>
          simp only [hb] at h
          have hsafe := (body_safe (show content.length - 1 + 1 = content.length by omega)
            h0 hlt' hb s1 (Or.inl rfl)).1 rfl
          exact ih _ s hsafe h
    · rw [if_neg hlt] at h
      cases h

/-- C16: at every point of every scan the stack of pending close delimiters is
non-empty exactly when the state is `S_MULTICOMMENT` or `S_MULTICOMMENT_CODE`,
and with `nested = false` it never holds more than one entry: this holds at the
head of every loop iteration of every scan (any profile, flags, callback and
content), and the `switch` and the end-of-line block keep it.  With the nesting
profile the scan of `/* /* x */ */` plus newline reaches depth 2, ends with an
empty stack and gives `Lines = 1`, `Comment = 1`. -/
theorem C16_stack_matches_state :
    (∀ (flags : Flags) (lang : LanguageFeature) (callback : Option Callback)
      (fileJob : FileJob) (k : Nat) (s : Scan),
      CountStats.headAt flags lang callback (fileJob.Content.length - 1) k
        (CountStats.start fileJob) = some s →
      StackMatchesState lang s) ∧
    (∀ (flags : Flags) (lang : LanguageFeature) (endPoint : Nat) (s s' : Scan) (c : Byte),
      StackMatchesState lang s → CountStats.dispatch flags lang endPoint s c = some s' →
      StackMatchesState lang s') ∧
    (∀ (lang : LanguageFeature) (callback : Option Callback) (s s' : Scan),
      StackMatchesState lang s →
      (CountStats.commit callback s = Step.next s' ∨
        CountStats.commit callback s = Step.ret s') →
      StackMatchesState lang s') ∧
    (∃ s, CountStats.headAt flagsOff nestedProfile none 13 5
        (CountStats.start (freshJob (ascii "/* /* x */ */\n"))) = some s ∧
      s.endComments.length = 2 ∧ s.currentState = S_MULTICOMMENT) ∧
    (∃ r, CountStats.run flagsOff nestedProfile none (freshJob (ascii "/* /* x */ */\n")) =
        some r ∧ r.endComments = [] ∧ r.fileJob.Lines = 1 ∧ r.fileJob.Comment = 1) := by
  refine ⟨?_, ?_, ?_, ⟨_, rfl, rfl, rfl⟩, ⟨_, rfl, rfl, rfl, rfl⟩⟩
  · intro flags lang callback fileJob k s h
    have hsafe := headAt_safe k _ s (Safe_start lang fileJob) h
    exact ⟨hsafe.2.1.1, hsafe.2.1.2.1⟩
  · intro flags lang endPoint s s' c hinv h
    exact StackMatchesState_dispatch hinv h
  · intro lang callback s s' hinv h
    exact StackMatchesState_commit hinv h

theorem C16_witness :
    ∃ s, CountStats.headAt flagsOff nestedProfile none 13 5
        (CountStats.start (freshJob (ascii "/* /* x */ */\n"))) = some s ∧
      s.endComments.length = 2 ∧ StackMatchesState nestedProfile s :=
  ⟨_, rfl, rfl, C16_stack_matches_state.1 flagsOff nestedProfile none
    (freshJob (ascii "/* /* x */ */\n")) 5 _ rfl⟩

/-- C18: only multi-line comment delimiters are consumed.  A matched string
opener and a matched complexity token leave the index where it is, so the next
byte the scanner dispatches on is `i + 1`, inside the matched sequence.  In the
C-like profile, in the content `a if x` plus newline, the token `if ` (3 bytes)
is matched at index 2 (`Complexity` becomes 1) and the next iteration is at
index 3, not 5; with a three-quote string opener matched at index 0 the next
iteration is at index 1, not 3, already in `S_STRING`.  A multi-line comment
opener or close delimiter of length `L` matched at `i` does move the scan on to
`i + L` (the opener `/*` at index 0: next iteration at index 2). -/
theorem C18_string_and_complexity_matches_not_consumed :
    (∃ s, CountStats.headAt flagsOff cProfile none 6 2
        (CountStats.start (freshJob (ascii "a if x\n"))) = some s ∧
      s.index = 2 ∧ s.fileJob.Complexity = 0 ∧
      checkComplexity 105 2 6 cProfile.ComplexityChecks cProfile.ComplexityBytes
        s.fileJob = some 3) ∧
    (∃ s, CountStats.headAt flagsOff cProfile none 6 3
        (CountStats.start (freshJob (ascii "a if x\n"))) = some s ∧
      s.index = 3 ∧ s.fileJob.Complexity = 1) ∧
    (checkForMatchMultiOpen 34 0 7 tripleQuoteProfile.StringChecks
        (freshJob (ascii "\"\"\"a\"\"\"\n")) = some (3, ascii "\"\"\"") ∧
      ∃ s, CountStats.headAt flagsOff tripleQuoteProfile none 7 1
        (CountStats.start (freshJob (ascii "\"\"\"a\"\"\"\n"))) = some s ∧
      s.index = 1 ∧ s.currentState = S_STRING) ∧
    (∃ s, CountStats.headAt flagsOff cProfile none 7 1
        (CountStats.start (freshJob (ascii "/* a */\n"))) = some s ∧
      s.index = 2 ∧ s.currentState = S_MULTICOMMENT) ∧
    (∀ (flags : Flags) (lang : LanguageFeature) (endPoint : Nat) (s s' : Scan) (c : Byte),
      CountStats.dispatch flags lang endPoint s c = some s' →
      s'.endComments ≠ s.endComments →
      ∃ d : List Byte, d ≠ [] ∧ d <+: s.fileJob.Content.drop s.index ∧
        s'.index + 1 = s.index + d.length) := by
  refine ⟨⟨_, rfl, rfl, rfl, by decide⟩, ⟨_, rfl, rfl, rfl⟩, ⟨by decide, _, rfl, rfl, rfl⟩,
    ⟨_, rfl, rfl, rfl⟩, ?_⟩
  intro flags lang endPoint s s' c h hne
  obtain ⟨_, hmove⟩ := dispatch_spec h
  rcases hmove with ⟨_, hstack, _⟩ | ⟨m, _, hm, hocc, _, hi, _⟩ | ⟨top, _, hm, hocc, _, hi, _⟩
  · exact absurd hstack hne
  · have := List.length_pos.mpr hm
    exact ⟨m.Open, hm, hocc, by omega⟩
  · have := List.length_pos.mpr hm
    exact ⟨top, hm, hocc, by omega⟩

theorem commit_state (callback : Option Callback) (s : Scan) :
    ∃ r, (CountStats.commit callback s = Step.next r ∨ CountStats.commit callback s = Step.ret r) ∧
      r.currentState = resetState s.currentState := by
  obtain ⟨s3, _, _, hst, _, _, hout⟩ := commit_spec callback s
  rcases hout with ⟨_, _, ho⟩ | ⟨_, _, _, ⟨_, ho⟩ | ⟨_, ho⟩⟩
  · exact ⟨s3, Or.inl ho, hst⟩
  · exact ⟨s3, Or.inl ho, hst⟩
  · exact ⟨s3, Or.inr ho, hst⟩

theorem body_string_escaped {flags : Flags} {lang : LanguageFeature}
    {callback : Option Callback} {endPoint : Nat} {s : Scan} {c : Byte}
    (hs : s.currentState = S_STRING) (hi : 0 < s.index)
    (hp : s.fileJob.Content[s.index - 1]? = some 92)
    (hc : s.fileJob.Content[s.index]? = some c) :
    ∃ out r, CountStats.body flags lang callback endPoint s = some out ∧
      (out = Step.next r ∨ out = Step.ret r) ∧ r.currentState = S_STRING := by
  have hi0 : s.index ≠ 0 := by omega
  unfold CountStats.body
  simp only [hc]
  cases hd : flags.Duplicates <;> simp only [hd, if_true, if_false, Bool.false_eq_true] <;>
    split
  · exact ⟨_, _, rfl, Or.inr rfl, hs⟩
  · cases hw : isWhitespace c <;>
      simp only [hw, Bool.not_false, Bool.not_true, if_true, if_false, Bool.false_eq_true,
        CountStats.dispatch, hs, CountStats.caseString, hi0, hp, hc, bne_self_eq_false] <;>
      split
    all_goals first
      | (obtain ⟨r, hr, hst⟩ := commit_state callback s
         rw [hs] at hst
         rcases hr with hr | hr
         · exact ⟨_, r, rfl, Or.inl hr, hst⟩
         · exact ⟨_, r, rfl, Or.inr hr, hst⟩)
      | exact ⟨_, _, rfl, Or.inl rfl, hs⟩
  · exact ⟨_, _, rfl, Or.inr rfl, hs⟩
  · cases hw : isWhitespace c <;>
      simp only [hw, Bool.not_false, Bool.not_true, if_true, if_false, Bool.false_eq_true,
        CountStats.dispatch, hs, CountStats.caseString, hi0, hp, hc, bne_self_eq_false] <;>
      split
    all_goals first
      | (obtain ⟨r, hr, hst⟩ := commit_state callback
           { fileJob := s.fileJob, index := s.index, currentState := S_STRING,
             endComments := s.endComments, endString := s.endString,
             digest := s.digest ++ [c], calls := s.calls }
         replace hst : r.currentState = S_STRING := hst
         rcases hr with hr | hr
         · exact ⟨_, r, rfl, Or.inl hr, hst⟩
         · exact ⟨_, r, rfl, Or.inr hr, hst⟩)
      | exact ⟨_, _, rfl, Or.inl rfl, hs⟩
      | exact ⟨_, _, rfl, Or.inl rfl, rfl⟩

theorem body_string_closed {flags : Flags} {lang : LanguageFeature}
    {callback : Option Callback} {endPoint : Nat} {s : Scan} {prev c : Byte}
    (hs : s.currentState = S_STRING) (hi : 0 < s.index)
    (hp : s.fileJob.Content[s.index - 1]? = some prev) (hne : prev ≠ 92)
    (hc : s.fileJob.Content[s.index]? = some c) (hw : isWhitespace c = false)
    (hm : checkForMatchSingle c s.index endPoint s.endString s.fileJob = some true) :
    ∃ out, CountStats.body flags lang callback endPoint s = some out ∧
      ((s.index < 10000 ∧ isBinary flags c = true ∧ ∃ r, out = Step.ret r) ∨
       ∃ s', out = Step.next s' ∧ s'.currentState = S_CODE ∧ s'.index = s.index) := by
  have hi0 : s.index ≠ 0 := by omega
  have hbne : (prev != 92) = true := by simpa using hne
  obtain ⟨hm0, _, hle⟩ := checkForMatchSingle_true hm
  have hlen := List.length_pos.mpr hm0
  have hc10 : c ≠ 10 := by
    rintro rfl
    simp [isWhitespace] at hw
  have hcond : ¬ (c = 10 ∨ s.index ≥ endPoint) := by
    rintro (h | h)
    · exact hc10 h
    · omega
  unfold CountStats.body
  simp only [hc]
  cases hd : flags.Duplicates <;> simp only [hd, if_true, if_false, Bool.false_eq_true] <;>
    split
  · rename_i hb
    exact ⟨_, rfl, Or.inl ⟨hb.1, hb.2, _, rfl⟩⟩
  · simp only [hw, Bool.not_false, if_true, CountStats.dispatch, hs, CountStats.caseString,
      hi0, if_false, hp, hbne, hm, hc, hcond]
    exact ⟨_, rfl, Or.inr ⟨_, rfl, rfl, rfl⟩⟩
  · rename_i hb
    exact ⟨_, rfl, Or.inl ⟨hb.1, hb.2, _, rfl⟩⟩
  · simp only [hw, Bool.not_false, if_true, CountStats.dispatch, hs, CountStats.caseString,
      hi0, if_false, hp, hbne, hm, hc, hcond]
    exact ⟨_, rfl, Or.inr ⟨_, rfl, rfl, rfl⟩⟩

theorem body_string_open {flags : Flags} {lang : LanguageFeature}
    {callback : Option Callback} {endPoint : Nat} {s : Scan} {prev c : Byte}
    (hs : s.currentState = S_STRING) (hi : 0 < s.index)
    (hp : s.fileJob.Content[s.index - 1]? = some prev)
    (hc : s.fileJob.Content[s.index]? = some c)
    (hm : checkForMatchSingle c s.index endPoint s.endString s.fileJob = some false) :
    ∃ out r, CountStats.body flags lang callback endPoint s = some out ∧
      (out = Step.next r ∨ out = Step.ret r) ∧ r.currentState = S_STRING := by
  have hi0 : s.index ≠ 0 := by omega
  unfold CountStats.body
  simp only [hc]
  cases hd : flags.Duplicates <;> simp only [hd, if_true, if_false, Bool.false_eq_true] <;>
    split
  · exact ⟨_, _, rfl, Or.inr rfl, hs⟩
  · cases hb : (prev != 92) <;> cases hw : isWhitespace c <;>
      simp only [hw, Bool.not_false, Bool.not_true, if_true, if_false, Bool.false_eq_true,
        CountStats.dispatch, hs, CountStats.caseString, hi0, hp, hc, hb, hm] <;>
      split
    all_goals first
      | (obtain ⟨r, hr, hst⟩ := commit_state callback s
         rw [hs] at hst
         rcases hr with hr | hr
         · exact ⟨_, r, rfl, Or.inl hr, hst⟩
         · exact ⟨_, r, rfl, Or.inr hr, hst⟩)
      | exact ⟨_, _, rfl, Or.inl rfl, hs⟩
  · exact ⟨_, _, rfl, Or.inr rfl, hs⟩
  · cases hb : (prev != 92) <;> cases hw : isWhitespace c <;>
      simp only [hw, Bool.not_false, Bool.not_true, if_true, if_false, Bool.false_eq_true,
        CountStats.dispatch, hs, CountStats.caseString, hi0, hp, hc, hb, hm] <;>
      split
    all_goals first
      | (obtain ⟨r, hr, hst⟩ := commit_state callback
           { fileJob := s.fileJob, index := s.index, currentState := S_STRING,
             endComments := s.endComments, endString := s.endString,
             digest := s.digest ++ [c], calls := s.calls }
         replace hst : r.currentState = S_STRING := hst
         rcases hr with hr | hr
         · exact ⟨_, r, rfl, Or.inl hr, hst⟩
         · exact ⟨_, r, rfl, Or.inr hr, hst⟩)
      | exact ⟨_, _, rfl, Or.inl rfl, hs⟩
      | exact ⟨_, _, rfl, Or.inl rfl, rfl⟩

/-- C19: an unescaped close delimiter that ends on the last byte of the content
does not close the string.  In the C-like profile, in the 3-byte content quote,
`a`, quote, the scan is in `S_STRING` at index 2, the preceding byte is `a`,
the stored close delimiter (one quote) stands at index 2, and the state after
the byte is still `S_STRING`; with a newline appended the same byte closes the
string (`S_CODE`).  The cause is the bound test `index+j >= endPoint` of
`checkForMatchSingle`.  What holds in `S_STRING` at an index `i > 0`: after a
backslash the state stays `S_STRING` whatever stands at `i`; after any other
byte, at a byte that is not whitespace and does not end the scan as binary, the
state becomes `S_CODE` exactly when the stored (non-empty) close delimiter
stands at `i` and ends before `endPoint`, and stays `S_STRING` otherwise.
Whitespace bytes never reach the state switch: a close delimiter that is a
space does not close the string either.  The 7-byte example of the escape
rule (quote, `a`, backslash, quote, `b`, quote, newline) gives `Lines = 1`,
`Code = 1`. -/
theorem C19_close_delimiter_on_last_byte_missed :
    (CountStats.headAt flagsOff cProfile none 2 2
        (CountStats.start (freshJob (ascii "\"a\""))) =
      some (insideString (ascii "\"a\"") (ascii "\"") 2) ∧
     (ascii "\"a\"")[1]? = some 97 ∧ ascii "\"" <+: (ascii "\"a\"").drop 2 ∧
     (∃ s', CountStats.body flagsOff cProfile none 2
        (insideString (ascii "\"a\"") (ascii "\"") 2) = some (Step.next s') ∧
       s'.currentState = S_STRING)) ∧
    (CountStats.headAt flagsOff cProfile none 3 2
        (CountStats.start (freshJob (ascii "\"a\"\n"))) =
      some (insideString (ascii "\"a\"\n") (ascii "\"") 2) ∧
     (∃ s', CountStats.body flagsOff cProfile none 3
        (insideString (ascii "\"a\"\n") (ascii "\"") 2) = some (Step.next s') ∧
       s'.currentState = S_CODE)) ∧
    (∀ (flags : Flags) (lang : LanguageFeature) (callback : Option Callback) (endPoint : Nat)
      (s : Scan) (c : Byte),
      s.currentState = S_STRING → 0 < s.index → s.fileJob.Content[s.index]? = some c →
      s.fileJob.Content[s.index - 1]? = some 92 →
      ∃ out r, CountStats.body flags lang callback endPoint s = some out ∧
        (out = Step.next r ∨ out = Step.ret r) ∧ r.currentState = S_STRING) ∧
    (∀ (flags : Flags) (lang : LanguageFeature) (callback : Option Callback) (endPoint : Nat)
      (s : Scan) (prev c : Byte),
      s.currentState = S_STRING → 0 < s.index → s.fileJob.Content[s.index]? = some c →
      s.fileJob.Content[s.index - 1]? = some prev → prev ≠ 92 →
      isWhitespace c = false → ¬ (s.index < 10000 ∧ isBinary flags c = true) →
      s.endString ≠ [] → endPoint ≤ s.fileJob.Content.length →
      ∃ out r, CountStats.body flags lang callback endPoint s = some out ∧
        (out = Step.next r ∨ out = Step.ret r) ∧
        r.currentState =
          if s.endString <+: s.fileJob.Content.drop s.index ∧
              s.index + s.endString.length ≤ endPoint
          then S_CODE else S_STRING) ∧
    (CountStats.headAt flagsOff spaceCloseProfile none 5 3
        (CountStats.start (freshJob (ascii "'ab c\n"))) =
      some (insideString (ascii "'ab c\n") (ascii " ") 3) ∧
     (ascii "'ab c\n")[2]? = some 98 ∧ ascii " " <+: (ascii "'ab c\n").drop 3 ∧
     (∃ s', CountStats.body flagsOff spaceCloseProfile none 5
        (insideString (ascii "'ab c\n") (ascii " ") 3) = some (Step.next s') ∧
       s'.currentState = S_STRING)) ∧
    (∃ r, CountStats flagsOff cProfile none (freshJob escapedQuote) = some r ∧
      r.Lines = 1 ∧ r.Code = 1) := by
  refine ⟨⟨rfl, rfl, by decide, _, rfl, rfl⟩, ⟨rfl, _, rfl, rfl⟩, ?_, ?_,
    ⟨rfl, rfl, by decide, _, rfl, rfl⟩, ⟨_, rfl, rfl, rfl⟩⟩
  · intro flags lang callback endPoint s c hs hi hc hp
    exact body_string_escaped hs hi hp hc
  · intro flags lang callback endPoint s prev c hs hi hc hp hne hw hnb hm0 hend
    have heq := checkForMatchSingle_eq c s.index endPoint s.endString s.fileJob hm0 hc hend
    by_cases hP : s.endString <+: s.fileJob.Content.drop s.index ∧
        s.index + s.endString.length ≤ endPoint
    · rw [decide_eq_true hP] at heq
      obtain ⟨out, hout, hcase⟩ := body_string_closed hs hi hp hne hc hw heq
      rcases hcase with ⟨h1, h2, _⟩ | ⟨s', hs', hst, _⟩
      · exact absurd ⟨h1, h2⟩ hnb
      · exact ⟨out, s', hout, Or.inl hs', by rw [if_pos hP]; exact hst⟩
    · rw [decide_eq_false hP] at heq
      obtain ⟨out, r, hout, hor, hst⟩ := body_string_open hs hi hp hc heq
      exact ⟨out, r, hout, hor, by rw [if_neg hP]; exact hst⟩

theorem Moved_calls {flags : Flags} {lang : LanguageFeature} {endPoint : Nat} {c : Byte}
    {s s2 : Scan} (h : Moved flags lang endPoint c s s2) : s2.calls = s.calls := by
  rcases h with ⟨_, _, _, _, _, _, h⟩ | ⟨_, _, h, _⟩ <;> exact h

theorem CallsAgree_of_fields {calls : List LineCall} {j j' : FileJob}
    (h : CallsAgree calls j) (h1 : j'.Lines = j.Lines) (h2 : j'.Code = j.Code)
    (h3 : j'.Comment = j.Comment) (h4 : j'.Blank = j.Blank) : CallsAgree calls j' := by
  unfold CallsAgree at *
  rw [h1, h2, h3, h4]
  exact h

theorem CallsAgree_countLine {calls : List LineCall} {j : FileJob} (lineType : LineType)
    (h : CallsAgree calls j) :
    CallsAgree
      (calls ++ [{ job := countLine lineType j, currentLine := (countLine lineType j).Lines,
                   lineType := lineType }])
      (countLine lineType j) := by
  obtain ⟨hA, hB, hC, hM, hK⟩ := h
  unfold CallsAgree lineNumbers countType at *
  refine ⟨?_, ?_, ?_, ?_, ?_⟩
  · rw [List.map_append, hA, List.length_append, List.length_singleton, List.range_succ,
      List.map_append, countLine_Lines, ← hB]
    rfl
  · rw [List.length_append, List.length_singleton, countLine_Lines, ← hB]
    push_cast
    rfl
  all_goals
    rw [List.countP_append]
    cases lineType <;> simp [countLine, List.countP_cons, hC, hM, hK]

/-- The end-of-line block with a callback: one more invocation is recorded, for
the job as it is after the line was counted. -/
theorem Committed_calls {processLine : Callback} {s s2 : Scan} {out : Step}
    (hcalls : s2.calls = s.calls)
    (hfields : s2.fileJob.Lines = s.fileJob.Lines ∧ s2.fileJob.Code = s.fileJob.Code ∧
      s2.fileJob.Comment = s.fileJob.Comment ∧ s2.fileJob.Blank = s.fileJob.Blank)
    (hagree : CallsAgree s.calls s.fileJob)
    (hgo : ∀ k, 0 < k → k ≤ s.calls.length → processLine (s.calls.take k) = true)
    (h : Committed (some processLine) s2 out) :
    ∃ s3, CallsAgree s3.calls s3.fileJob ∧
      (∀ k, 0 < k → k < s3.calls.length → processLine (s3.calls.take k) = true) ∧
      (∃ call, s3.calls.getLast? = some call ∧ s3.fileJob = call.job) ∧
      ((out = Step.next s3 ∧ processLine s3.calls = true) ∨
       (out = Step.ret s3 ∧ processLine s3.calls = false)) := by
  obtain ⟨s3, hj, _, _, _, _, hout⟩ := h
  rcases hout with ⟨hnone, _⟩ | ⟨f, hf, hc3, hout⟩
  · cases hnone
  · cases hf
    have hagree2 : CallsAgree s2.calls s2.fileJob := by
      rw [hcalls]
      exact CallsAgree_of_fields hagree hfields.1 hfields.2.1 hfields.2.2.1 hfields.2.2.2
    refine ⟨s3, ?_, ?_, ?_, ?_⟩
    · rw [hc3, hj]
      exact CallsAgree_countLine _ hagree2
    · intro k hk hlt
      rw [hc3, List.length_append, List.length_singleton] at hlt
      rw [hc3, List.take_append_of_le_length (by omega), hcalls]
      exact hgo k hk (by rw [← hcalls]; omega)
    · exact ⟨_, by rw [hc3, List.getLast?_append, List.getLast?_singleton]; rfl, rfl⟩
    · rcases hout with ⟨h1, h2⟩ | ⟨h1, h2⟩
      · exact Or.inl ⟨h2, h1⟩
      · exact Or.inr ⟨h2, h1⟩

theorem calls_invariant (flags : Flags) (lang : LanguageFeature) (processLine : Callback)
    (fileJob : FileJob) (hLines : fileJob.Lines = 0) (hCode : fileJob.Code = 0)
    (hComment : fileJob.Comment = 0) (hBlank : fileJob.Blank = 0) {r : Scan}
    (h : CountStats.run flags lang (some processLine) fileJob = some r) :
    CallsAgree r.calls r.fileJob ∧
    ∀ k, 0 < k → k ≤ r.calls.length → processLine (r.calls.take k) = false →
      k = r.calls.length ∧ ∃ call, r.calls.getLast? = some call ∧ r.fileJob = call.job := by
  refine run_invariant flags lang (some processLine) fileJob
    (fun s => CallsAgree s.calls s.fileJob ∧
      ∀ k, 0 < k → k ≤ s.calls.length → processLine (s.calls.take k) = true)
    (fun r => CallsAgree r.calls r.fileJob ∧
      ∀ k, 0 < k → k ≤ r.calls.length → processLine (r.calls.take k) = false →
        k = r.calls.length ∧ ∃ call, r.calls.getLast? = some call ∧ r.fileJob = call.job)
    ?_ ?_ ?_ ?_ ?_ h
  · intro _
    refine ⟨?_, ?_⟩
    · simp [CallsAgree, CountStats.start, lineNumbers, countType, hCode, hComment, hBlank]
    · intro k hk hle
      simp [CountStats.start] at hle
      omega
  · intro _
    refine ⟨?_, ?_⟩
    · simp [CallsAgree, CountStats.start, lineNumbers, countType, hLines, hCode, hComment,
        hBlank]
    · intro k hk hle
      simp [CountStats.start] at hle
      omega
  · intro s s' _ ⟨hagree, hgo⟩ _ hb
    show CallsAgree s'.calls s'.fileJob ∧
      ∀ k, 0 < k → k ≤ s'.calls.length → processLine (s'.calls.take k) = true
    obtain ⟨c, _, hcases⟩ := body_step hb
    rcases hcases with ⟨_, _, _, hr, _⟩ | ⟨_, s2, hmv, _, _, hcm⟩
    · cases hr
    · have hcalls := Moved_calls hmv
      obtain ⟨f1, f2, f3, f4, _⟩ := Moved_Lines hmv
      rcases hcm with ⟨_, hcommit⟩ | ⟨_, hout⟩
      · obtain ⟨s3, hag3, hgo3, _, hout⟩ :=
          Committed_calls hcalls ⟨f1, f2, f3, f4⟩ hagree hgo hcommit
        rcases hout with ⟨hout, hlast⟩ | ⟨hout, _⟩
        · cases hout
          refine ⟨hag3, ?_⟩
          intro k hk hle
          rcases Nat.lt_or_ge k s'.calls.length with hlt | hge
          · exact hgo3 k hk hlt
          · have : k = s'.calls.length := by omega
            rw [this, List.take_length]
            exact hlast
        · cases hout
      · cases hout
        rw [hcalls]
        exact ⟨CallsAgree_of_fields hagree f1 f2 f3 f4, hgo⟩
  · intro s r _ ⟨hagree, hgo⟩ _ hb
    obtain ⟨c, _, hcases⟩ := body_step hb
    rcases hcases with ⟨_, _, r', hr, hj, hcalls⟩ | ⟨_, s2, hmv, _, _, hcm⟩
    · cases hr
      refine ⟨?_, ?_⟩
      · rw [hcalls]
        exact CallsAgree_of_fields hagree (by rw [hj]) (by rw [hj]) (by rw [hj]) (by rw [hj])
      · intro k hk hle hstop
        rw [hcalls] at hle hstop
        rw [hgo k hk hle] at hstop
        cases hstop
    · have hcalls := Moved_calls hmv
      obtain ⟨f1, f2, f3, f4, _⟩ := Moved_Lines hmv
      rcases hcm with ⟨_, hcommit⟩ | ⟨_, hout⟩
      · obtain ⟨s3, hag3, hgo3, hcall, hout⟩ :=
          Committed_calls hcalls ⟨f1, f2, f3, f4⟩ hagree hgo hcommit
        rcases hout with ⟨hout, _⟩ | ⟨hout, _⟩
        · cases hout
        · cases hout
          refine ⟨hag3, ?_⟩
          intro k hk hle hstop
          rcases Nat.lt_or_ge k r.calls.length with hlt | hge
          · rw [hgo3 k hk hlt] at hstop
            cases hstop
          · exact ⟨by omega, hcall⟩
      · cases hout
  · intro s _ ⟨hagree, hgo⟩ _
    obtain ⟨f1, f2, f3, f4, _, _, _, hcalls⟩ := finish_fields flags s
    refine ⟨?_, ?_⟩
    · rw [hcalls]
      exact CallsAgree_of_fields hagree f1 f2 f3 f4
    · intro k hk hle hstop
      rw [hcalls] at hle hstop
      rw [hgo k hk hle] at hstop
      cases hstop

/-- C11: a scan of a fresh job (all line counters zero) with a callback returns
when every delimiter of the profile is non-empty, and when it returns: the
invocations of the callback, in the order they were made, carry the line
numbers 1, 2, ..., n, where n, the number of invocations, is the final `Lines`;
the invocations with `LINE_CODE`, `LINE_COMMENT` and `LINE_BLANK` are as many as
the final `Code`, `Comment` and `Blank`; and if the callback answers the `k`-th
invocation (given the first `k` invocations) with the stop signal, that
invocation is the last one and the job returned is the job that invocation was
given, so all its counters have the values they had there. -/
theorem C11_callback_trace (flags : Flags) (lang : LanguageFeature) (processLine : Callback)
    (fileJob : FileJob) (hLines : fileJob.Lines = 0) (hCode : fileJob.Code = 0)
    (hComment : fileJob.Comment = 0) (hBlank : fileJob.Blank = 0) :
    (lang.NonEmpty → ∃ s, CountStats.run flags lang (some processLine) fileJob = some s) ∧
    ∀ s, CountStats.run flags lang (some processLine) fileJob = some s →
      lineNumbers s.calls = (List.range s.calls.length).map (fun (k : Nat) => (k : Int) + 1) ∧
      (s.calls.length : Int) = s.fileJob.Lines ∧
      (countType LINE_CODE s.calls : Int) = s.fileJob.Code ∧
      (countType LINE_COMMENT s.calls : Int) = s.fileJob.Comment ∧
      (countType LINE_BLANK s.calls : Int) = s.fileJob.Blank ∧
      ∀ k, 0 < k → k ≤ s.calls.length → processLine (s.calls.take k) = false →
        k = s.calls.length ∧ ∃ call, s.calls.getLast? = some call ∧ s.fileJob = call.job := by
  refine ⟨fun hne => run_isSome flags (some processLine) fileJob hne, ?_⟩
  intro s h
  obtain ⟨⟨hA, hB, hC, hM, hK⟩, hstop⟩ :=
    calls_invariant flags lang processLine fileJob hLines hCode hComment hBlank h
  exact ⟨hA, hB, hC, hM, hK, hstop⟩

theorem C11_witness :
    ∃ s, CountStats.run flagsOff cProfile (some stopAtSecond)
        (freshJob (ascii "a\n\n// c\n")) = some s ∧
      lineNumbers s.calls = [1, 2] ∧
      s.calls.map (fun call => call.lineType) = [LINE_CODE, LINE_BLANK] ∧
      s.fileJob.Lines = 2 ∧ s.fileJob.Code = 1 ∧ s.fileJob.Comment = 0 ∧ s.fileJob.Blank = 1 ∧
      (s.calls.length : Int) = s.fileJob.Lines ∧
      ∃ call, s.calls.getLast? = some call ∧ s.fileJob = call.job :=
  ⟨_, rfl, rfl, rfl, rfl, rfl, rfl, rfl,
    ((C11_callback_trace flagsOff cProfile stopAtSecond (freshJob (ascii "a\n\n// c\n"))
      rfl rfl rfl rfl).2 _ rfl).2.1,
    (((C11_callback_trace flagsOff cProfile stopAtSecond (freshJob (ascii "a\n\n// c\n"))
      rfl rfl rfl rfl).2 _ rfl).2.2.2.2.2 2 (by decide) (by decide) rfl).2⟩

end Scc
